import Mathlib

/-!
# Ant-colony bin packing: the construction graph

A shallow embedding of `graph.cpp` / `binPacking.cpp`.

* Pheromones (`float` in the source) are exact rationals in `Graph`, the
  reading in which the statements about exact arithmetic are made.
  `FGraph` holds them as `float`s, with `generateIdx` and `updatePheromone`
  in the arithmetic of the code: IEEE binary32 and binary64, rounding to
  nearest with ties to even, infinities and NaN.
* The weight `int weight = std::pow(currItem + 1, 2)` is the square while it
  fits an `int`, and `INT_MIN` beyond (the conversion on x86-64).
* Node ids, bin indices and item counters (`int` in the source) are natural
  numbers; the two `int` locals of `generatePath` that can be negative
  (`endNode`, `finalLayerNode`) are integers.
* Bin accumulators are `unsigned int`: additions wrap modulo `2^32`, and the
  `int` returned by `getFitness` is the two's-complement reading of the
  unsigned difference.
* `rand()` is an explicit stream of draws.
* A call that throws, or whose behaviour the language leaves undefined,
  yields a `Fault`.
-/

namespace ACO

/-- Ways in which a call fails to complete normally. -/
inductive Fault where
  /-- `std::out_of_range` thrown by `vector::at`. -/
  | outOfRange
  /-- Unchecked access outside a vector, or dereferencing `end()`. -/
  | undefined
  /-- A division whose divisor is zero. -/
  | divisionByZero
  /-- The step budget of the embedding ran out before the loop ended. -/
  | outOfFuel
deriving DecidableEq, Repr

deriving instance DecidableEq for Except

/-- The `struct Edge` of `graph.hpp`. -/
structure Edge where
  source : Nat
  destination : Nat
  pheromone : ℚ
  bin : Nat
deriving DecidableEq, Repr

/-- The `Triple` of `graph.hpp`: destination, pheromone, bin. -/
abbrev Triple := Nat × ℚ × Nat

/-- The data members of `class Graph`. -/
structure Graph where
  bins : List Nat
  numBins : Nat
  numNodes : Nat
  problemType : Nat
  numItems : Nat
  adjList : List (List Triple)
deriving DecidableEq, Repr

/-- State of the object after a call, with the value returned or the fault
raised; the state is kept also when the call throws. -/
structure Outcome (α : Type) where
  graph : Graph
  result : Except Fault α

/-- Number of values of an `unsigned int`. -/
def UINT_RANGE : Nat := 4294967296

/-- Reading of an `unsigned int` value as an `int` (two's complement). -/
def toInt (u : Int) : Int :=
  if u % 4294967296 < 2147483648 then u % 4294967296 else u % 4294967296 - 4294967296

/-- The loop of the constructor: `adjList[source].push_back(content)` for each
edge; `adjList[source]` is unchecked. -/
def Graph.pushEdges : List Edge → Graph → Except Fault Graph
  | [], g => .ok g
  | edge :: rest, g =>
    match g.adjList[edge.source]? with
    | none => .error .undefined
    | some node =>
      Graph.pushEdges rest
        { g with adjList := g.adjList.set edge.source
                              (node ++ [(edge.destination, edge.pheromone, edge.bin)]) }

/-- The constructor `Graph::Graph(edges, numNodes, numBins, problemType)`. -/
def Graph.init (edges : List Edge) (numNodes numBins problemType : Nat) : Except Fault Graph :=
  if numBins = 0 then .error .divisionByZero
  else
    Graph.pushEdges edges
      { bins := List.replicate numBins 0
        numBins := numBins
        numNodes := numNodes
        problemType := problemType
        numItems := ((numNodes + UINT_RANGE - 2) % UINT_RANGE) / numBins
        adjList := List.replicate numNodes [] }

/-- `Graph::addToBin`: `bins[bin-1] += weight`, unchecked, wrapping. -/
def Graph.addToBin (g : Graph) (bin weight : Nat) : Except Fault Graph :=
  match g.bins[bin - 1]? with
  | some old =>
    if 1 ≤ bin then .ok { g with bins := g.bins.set (bin - 1) ((old + weight) % UINT_RANGE) }
    else .error .undefined
  | none => .error .undefined

/-- `Graph::emptyBins`. -/
def Graph.emptyBins (g : Graph) : Graph :=
  { g with bins := g.bins.map (fun _ => 0) }

/-- Value found by `std::min_element` (the first smallest element). -/
def min_element : List Nat → Option Nat
  | [] => none
  | x :: xs => some (xs.foldl (fun smallest y => if y < smallest then y else smallest) x)

/-- Value found by `std::max_element` (the first largest element). -/
def max_element : List Nat → Option Nat
  | [] => none
  | x :: xs => some (xs.foldl (fun largest y => if largest < y then y else largest) x)

/-- `Graph::getFitness`: `int fitness = *max - *min` on `unsigned int`s. -/
def Graph.getFitness (g : Graph) : Outcome Int :=
  match min_element g.bins, max_element g.bins with
  | some mn, some mx => ⟨g, .ok (toInt ((mx : Int) - (mn : Int)))⟩
  | _, _ => ⟨g, .error .undefined⟩

/-- The loop of `std::lower_bound` on the index range `[first, first+len)`. -/
def lower_bound_loop {α : Type} [LT α] [DecidableRel (fun (a b : α) => a < b)]
    (xs : List α) (val : α) : Nat → Nat → Nat → Nat
  | 0, first, _ => first
  | fuel + 1, first, len =>
    if len = 0 then first
    else
      let half := len / 2
      match xs[first + half]? with
      | none => first
      | some middle =>
        if middle < val then lower_bound_loop xs val fuel (first + half + 1) (len - half - 1)
        else lower_bound_loop xs val fuel first half

/-- `std::lower_bound(xs.begin(), xs.end(), val)` as an index; the length
bounds the number of halvings. -/
def lower_bound {α : Type} [LT α] [DecidableRel (fun (a b : α) => a < b)]
    (xs : List α) (val : α) : Nat :=
  lower_bound_loop xs val xs.length 0 xs.length

/-- `std::binary_search`. -/
def binary_search (xs : List Nat) (val : Nat) : Bool :=
  match xs[lower_bound xs val]? with
  | some x => !(decide (val < x))
  | none => false

/-- The cumulative-sum loop of `generateIdx`: the vector `weightCum` and the
final `cumSum`. -/
def weightCumLoop : List Triple → List ℚ × ℚ → List ℚ × ℚ
  | [], acc => acc
  | choice :: rest, (weightCum, cumSum) =>
    weightCumLoop rest (weightCum ++ [cumSum + choice.2.1], cumSum + choice.2.1)

/-- The selection of `generateIdx` on the edge list of one node in exact
arithmetic, `random` being `rand() / RAND_MAX`; `FGraph.generateIdx` is the
same selection in the `float` arithmetic of the code. -/
def selectIdx (choices : List Triple) (random : ℚ) : Nat :=
  let wc := weightCumLoop choices ([], 0)
  lower_bound wc.1 (random * wc.2)

/-- `Graph::generateIdx`; `adjList[item]` is unchecked. -/
def Graph.generateIdx (g : Graph) (item : Nat) (random : ℚ) : Except Fault Nat :=
  match g.adjList[item]? with
  | none => .error .undefined
  | some choices => .ok (selectIdx choices random)

/-- Largest value of an `int`. -/
def INT_MAX : Nat := 2147483647

/-- The weight `generatePath` passes to `addToBin` for the item counter
`currItem`: `int weight = currItem + 1` for the first problem,
`int weight = std::pow(currItem + 1, 2)` otherwise. A square above `INT_MAX`
does not fit the `int`: the conversion of the `double` then gives `INT_MIN`
(x86-64), which `addToBin` receives in its `unsigned int` parameter as
`2^31`. -/
def itemWeight (problemType currItem : Nat) : Nat :=
  if problemType = 1 then currItem + 1
  else if (currItem + 1) ^ 2 ≤ INT_MAX then (currItem + 1) ^ 2 else 2147483648

/-- The body shared by the two non-final branches of the loop of
`generatePath`: look the edge up, add the weight to its bin. -/
def Graph.traverse (g : Graph) (currNode idx currItem : Nat) : Except Fault (Graph × Nat) :=
  match g.adjList[currNode]? with
  | none => .error .outOfRange
  | some node =>
    match node[idx]? with
    | none => .error .outOfRange
    | some nextNode =>
      match g.addToBin nextNode.2.2 (itemWeight g.problemType currItem) with
      | .error f => .error f
      | .ok g1 => .ok (g1, nextNode.1)

/-- The `while (!done)` loop of `generatePath`. -/
def Graph.generatePathLoop (rnd : Nat → ℚ) :
    Nat → Graph → Nat → Nat → List Nat → Nat → Outcome (List Nat)
  | 0, g, _, _, _, _ => ⟨g, .error .outOfFuel⟩
  | fuel + 1, g, currNode, currItem, path, drawn =>
    let endNode : Int := (g.numNodes : Int) - 1
    let finalLayerNode : Int := endNode - (g.numBins : Int)
    if (currNode : Int) = endNode then ⟨g, .ok (path ++ [currNode])⟩
    else if finalLayerNode ≤ (currNode : Int) then
      match g.traverse currNode 0 currItem with
      | .error f => ⟨g, .error f⟩
      | .ok (g1, destination) =>
        Graph.generatePathLoop rnd fuel g1 destination (currItem + 1) (path ++ [currNode]) drawn
    else
      match g.generateIdx currNode (rnd drawn) with
      | .error f => ⟨g, .error f⟩
      | .ok idx =>
        match g.traverse currNode idx currItem with
        | .error f => ⟨g, .error f⟩
        | .ok (g1, destination) =>
          Graph.generatePathLoop rnd fuel g1 destination (currItem + 1) (path ++ [currNode])
            (drawn + 1)

/-- `Graph::generatePath`; `rnd k` is the value of `rand() / RAND_MAX` at the
`k`-th call of `generateIdx`, `fuel` bounds the number of loop iterations. -/
def Graph.generatePath (g : Graph) (rnd : Nat → ℚ) (fuel : Nat) : Outcome (List Nat) :=
  Graph.generatePathLoop rnd fuel g.emptyBins 0 0 [] 0

/-- `Graph::evaporatePheromone`. -/
def Graph.evaporatePheromone (g : Graph) (evaporationRate : ℚ) : Graph :=
  { g with adjList := g.adjList.map (fun node =>
      node.map (fun edge => (edge.1, edge.2.1 * evaporationRate, edge.2.2))) }

/-- The inner `for (auto &edge: adjList.at(source))` of `updatePheromone`. -/
def reinforce (fitnessDiff : ℚ) (next : Nat) (node : List Triple) : List Triple :=
  node.map (fun edge => if edge.1 = next then (edge.1, edge.2.1 + fitnessDiff, edge.2.2) else edge)

/-- The outer loop of `updatePheromone` on the part of the path not yet
visited; `path.at(node + 1)` is evaluated once per edge of the source. -/
def Graph.updatePheromoneLoop (fitnessDiff : ℚ) : List Nat → Graph → Outcome Unit
  | [], g => ⟨g, .ok ()⟩
  | source :: rest, g =>
    if (source : Int) ≠ (g.numNodes : Int) - 1 then
      match g.adjList[source]? with
      | none => ⟨g, .error .outOfRange⟩
      | some [] => Graph.updatePheromoneLoop fitnessDiff rest g
      | some (e :: es) =>
        match rest.head? with
        | none => ⟨g, .error .outOfRange⟩
        | some next =>
          Graph.updatePheromoneLoop fitnessDiff rest
            { g with adjList := g.adjList.set source (reinforce fitnessDiff next (e :: es)) }
    else ⟨g, .ok ()⟩

/-- `Graph::updatePheromone` in exact arithmetic. The quotient
`100.0 / fitness` is no number when `fitness` is zero (the code gets `+inf`),
and the exact reading ends there with a fault; `FGraph.updatePheromone`
follows the code in its own arithmetic, for every fitness. -/
def Graph.updatePheromone (g : Graph) (path : List Nat) (fitness : Int) : Outcome Unit :=
  if fitness = 0 then ⟨g, .error .divisionByZero⟩
  else Graph.updatePheromoneLoop (100 / (fitness : ℚ)) path g

/-- One layer of `subVecs`: the inner `for j` loop, pushing `j + lastNum`. -/
def start_layer (numBins lastNum : Nat) : List Nat :=
  (List.range numBins).map (fun j => (j + 1) + lastNum)

/-- The outer loop splitting the nodes into layers, `lastNum` growing by
`numBins` per layer. -/
def start_subVecsFrom (numBins : Nat) : Nat → Nat → List (List Nat)
  | 0, _ => []
  | k + 1, lastNum => start_layer numBins lastNum :: start_subVecsFrom numBins k (lastNum + numBins)

/-- The vector `subVecs` of `start`. -/
def start_subVecs (numItems numBins : Nat) : List (List Nat) :=
  start_subVecsFrom numBins numItems 0

/-- A loop `for (auto &nextNode: ...)` drawing one pheromone per edge:
the edges pushed and the number of draws made so far. -/
def start_drawEdges (pher : Nat → ℚ) (source bin : Nat) : List Nat → Nat → List Edge × Nat
  | [], drawn => ([], drawn)
  | nextNode :: rest, drawn =>
    let r := start_drawEdges pher source bin rest (drawn + 1)
    (⟨source, nextNode, pher drawn, bin⟩ :: r.1, r.2)

/-- The body of `for (auto &node: nodes)`: the edges pushed for one node. -/
def start_nodeEdges (numItems numBins : Nat) (subVecs : List (List Nat)) (pher : Nat → ℚ)
    (node drawn : Nat) : Except Fault (List Edge × Nat) :=
  match subVecs.find? (fun subVec => binary_search subVec node) with
  | none => .ok ([], drawn)
  | some subVec =>
    let index := subVecs.indexOf subVec
    let bin := subVec.indexOf node + 1
    if index ≠ numItems - 1 then
      match subVecs[index + 1]? with
      | none => .error .outOfRange
      | some nextLayer => .ok (start_drawEdges pher node bin nextLayer drawn)
    else .ok ([⟨node, numItems * numBins + 1, 1, bin⟩], drawn)

/-- The loop `for (auto &node: nodes)`. -/
def start_nodesLoop (numItems numBins : Nat) (subVecs : List (List Nat)) (pher : Nat → ℚ) :
    List Nat → Nat → Except Fault (List Edge)
  | [], _ => .ok []
  | node :: rest, drawn =>
    match start_nodeEdges numItems numBins subVecs pher node drawn with
    | .error f => .error f
    | .ok (es, drawn1) =>
      match start_nodesLoop numItems numBins subVecs pher rest drawn1 with
      | .error f => .error f
      | .ok more => .ok (es ++ more)

/-- The vector `edges` built by `start`, for `numItems` items and `numBins`
bins (`start` itself fixes 500 items and 10 or 50 bins); `pher k` is the
value of the `k`-th pheromone draw. -/
def start_edges (numItems numBins : Nat) (pher : Nat → ℚ) : Except Fault (List Edge) :=
  let nodes := (List.range (numItems * numBins)).map (fun i => i + 1)
  let subVecs := start_subVecs numItems numBins
  match subVecs[0]? with
  | none => .error .outOfRange
  | some layer0 =>
    let root := start_drawEdges pher 0 1 layer0 0
    match start_nodesLoop numItems numBins subVecs pher nodes root.2 with
    | .error f => .error f
    | .ok es => .ok (root.1 ++ es)

/-- The graph `acoGraph` constructed by `start`. -/
def start_acoGraph (numItems numBins problemType : Nat) (pher : Nat → ℚ) : Except Fault Graph :=
  match start_edges numItems numBins pher with
  | .error f => .error f
  | .ok edges => Graph.init edges (numItems * numBins + 2) numBins problemType


/-- Value found by `std::min_element` on the vector of fitnesses. -/
def min_element_int : List Int → Option Int
  | [] => none
  | x :: xs => some (xs.foldl (fun smallest y => if y < smallest then y else smallest) x)

/-- The locals of `start` that the trial loop updates; `best`, a `double`
holding whole numbers only, is an integer. -/
structure Trial where
  acoGraph : Graph
  best : Int
  paths : List (List Nat)
  fitnesses : List Int
deriving DecidableEq

/-- State of the trial when it stops, with the fault that stopped it, if any. -/
structure TrialOutcome where
  state : Trial
  fault : Option Fault
deriving DecidableEq

/-- The loop `for (int i = 0; i < numAnts; i++)` of one iteration;
`rnd c k` is the value of `rand() / RAND_MAX` at the `k`-th call of
`generateIdx` within the `c`-th call of `generatePath` of the trial. -/
def start_antsLoop (rnd : Nat → Nat → ℚ) (fuel : Nat) : Nat → Trial → TrialOutcome
  | 0, s => ⟨s, none⟩
  | ants + 1, s =>
    match s.acoGraph.generatePath (rnd s.paths.length) fuel with
    | ⟨g1, .error f⟩ => ⟨{ s with acoGraph := g1 }, some f⟩
    | ⟨g1, .ok path⟩ =>
      match g1.getFitness with
      | ⟨g2, .error f⟩ => ⟨{ s with acoGraph := g2, paths := s.paths ++ [path] }, some f⟩
      | ⟨g2, .ok fitness⟩ =>
        start_antsLoop rnd fuel ants
          { s with acoGraph := g2, paths := s.paths ++ [path],
                   fitnesses := s.fitnesses ++ [fitness] }

/-- The loop `for (int ant = 0; ant < paths.size(); ant++)` on the paths and
fitnesses from position `ant` on. -/
def start_reinforceLoop : List (List Nat) → List Int → Graph → Outcome Unit
  | [], _, g => ⟨g, .ok ()⟩
  | _ :: _, [], g => ⟨g, .error .outOfRange⟩
  | path :: paths, fitness :: fitnesses, g =>
    match g.updatePheromone path fitness with
    | ⟨g1, .error f⟩ => ⟨g1, .error f⟩
    | ⟨g1, .ok _⟩ => start_reinforceLoop paths fitnesses g1

/-- One iteration of the loop of fitness evaluations of `start`. -/
def start_iteration (numAnts : Nat) (evaporation : ℚ) (rnd : Nat → Nat → ℚ) (fuel : Nat)
    (s : Trial) : TrialOutcome :=
  match start_antsLoop rnd fuel numAnts s with
  | ⟨s1, some f⟩ => ⟨s1, some f⟩
  | ⟨s1, none⟩ =>
    match start_reinforceLoop s1.paths s1.fitnesses s1.acoGraph with
    | ⟨g1, .error f⟩ => ⟨{ s1 with acoGraph := g1 }, some f⟩
    | ⟨g1, .ok _⟩ =>
      match min_element_int s1.fitnesses with
      | none => ⟨{ s1 with acoGraph := g1.evaporatePheromone evaporation }, some .undefined⟩
      | some tempBest =>
        ⟨{ s1 with acoGraph := g1.evaporatePheromone evaporation,
                   best := if tempBest < s1.best then tempBest else s1.best }, none⟩

/-- The loop of fitness evaluations, `iterations` times. -/
def start_trialLoop (numAnts : Nat) (evaporation : ℚ) (rnd : Nat → Nat → ℚ) (fuel : Nat) :
    Nat → Trial → TrialOutcome
  | 0, s => ⟨s, none⟩
  | iterations + 1, s =>
    match start_iteration numAnts evaporation rnd fuel s with
    | ⟨s1, some f⟩ => ⟨s1, some f⟩
    | ⟨s1, none⟩ => start_trialLoop numAnts evaporation rnd fuel iterations s1

/-- One trial as `start` runs it, for `numItems` items, `numBins` bins and
`iterations` fitness evaluations; the state when it stops, or the fault of
the construction of the graph. -/
def start_trial (numItems numBins problemType numAnts : Nat) (evaporation : ℚ)
    (iterations : Nat) (pher : Nat → ℚ) (rnd : Nat → Nat → ℚ) (fuel : Nat) :
    Except Fault TrialOutcome :=
  match start_acoGraph numItems numBins problemType pher with
  | .error f => .error f
  | .ok acoGraph =>
    .ok (start_trialLoop numAnts evaporation rnd fuel iterations
      { acoGraph := acoGraph
        best := (numItems : Int) ^ 2 * (numBins : Int)
        paths := []
        fitnesses := [] })

/-- The number of bins `start` chooses for a problem type. -/
def start_numBins (problemType : Nat) : Nat :=
  if problemType = 1 then 10 else if problemType = 2 then 50 else 0

/-- `start(problemType, numAnts, evaporation)`: 500 items, 10 or 50 bins,
10000 fitness evaluations. -/
def start (problemType numAnts : Nat) (evaporation : ℚ) (pher : Nat → ℚ)
    (rnd : Nat → Nat → ℚ) (fuel : Nat) : Except Fault TrialOutcome :=
  start_trial 500 (start_numBins problemType) problemType numAnts evaporation 10000 pher rnd
    fuel

/-! ## The arithmetic of `float` and `double` -/

/-- A value of a `float` or a `double`: a finite number, an infinity or NaN.
The sign of a zero is not kept. -/
inductive Fp where
  | fin (q : ℚ)
  | posInf
  | negInf
  | nan
deriving DecidableEq

/-- The power `2^e` for an integer exponent `e`. -/
def pow2 (e : Int) : ℚ :=
  if 0 ≤ e then ((2 ^ e.toNat : Nat) : ℚ) else 1 / ((2 ^ (-e).toNat : Nat) : ℚ)

/-- The integer nearest to `q`, the even one of the two when `q` is half-way. -/
def roundHalfEven (q : ℚ) : Int :=
  if q - (Rat.floor q : ℚ) < 1 / 2 then Rat.floor q
  else if 1 / 2 < q - (Rat.floor q : ℚ) then Rat.floor q + 1
  else if Rat.floor q % 2 = 0 then Rat.floor q else Rat.floor q + 1

/-- The exponent of the last place of `x > 0` in a format with `prec`
binary digits: the least `e` from `emin` on with `x < 2^(e + prec)`, searched
upwards in at most `fuel` steps. -/
def quantum (prec : Nat) (x : ℚ) : Nat → Int → Int
  | 0, e => e
  | fuel + 1, e => if x < pow2 (e + prec) then e else quantum prec x fuel (e + 1)

/-- Rounding of `x > 0` to the nearest value `m * 2^e` with `m < 2^prec` and
`emin ≤ e ≤ emax`, ties to even; `+inf` when the nearest value would need an
exponent above `emax`. -/
def roundPos (prec : Nat) (emin emax : Int) (x : ℚ) : Fp :=
  if (roundHalfEven (x / pow2 (quantum prec x (emax + 1 - emin).toNat emin)) : ℚ) *
      pow2 (quantum prec x (emax + 1 - emin).toNat emin) < pow2 (emax + prec) then
    .fin ((roundHalfEven (x / pow2 (quantum prec x (emax + 1 - emin).toNat emin)) : ℚ) *
      pow2 (quantum prec x (emax + 1 - emin).toNat emin))
  else .posInf

/-- Change of sign. -/
def Fp.neg : Fp → Fp
  | .fin q => .fin (-q)
  | .posInf => .negInf
  | .negInf => .posInf
  | .nan => .nan

/-- Rounding to nearest, ties to even, in the format with `prec` digits and
last-place exponents from `emin` to `emax`. -/
def roundTo (prec : Nat) (emin emax : Int) (x : ℚ) : Fp :=
  if x = 0 then .fin 0
  else if 0 < x then roundPos prec emin emax x
  else (roundPos prec emin emax (-x)).neg

/-- Rounding to `float` (IEEE binary32). -/
def toFloat (x : ℚ) : Fp := roundTo 24 (-149) 104 x

/-- Rounding to `double` (IEEE binary64). -/
def toDouble (x : ℚ) : Fp := roundTo 53 (-1074) 971 x

/-- Sum, product and quotient of two values, `round` being the rounding to
the format of the result. A zero is `+0`. -/
def Fp.add (round : ℚ → Fp) : Fp → Fp → Fp
  | .fin a, .fin b => round (a + b)
  | .nan, _ => .nan
  | _, .nan => .nan
  | .posInf, .negInf => .nan
  | .negInf, .posInf => .nan
  | .posInf, _ => .posInf
  | _, .posInf => .posInf
  | .negInf, _ => .negInf
  | _, .negInf => .negInf

/-- Product of two values; `0 * inf` is NaN. -/
def Fp.mul (round : ℚ → Fp) : Fp → Fp → Fp
  | .fin a, .fin b => round (a * b)
  | .nan, _ => .nan
  | _, .nan => .nan
  | .fin a, .posInf => if a = 0 then .nan else if 0 < a then .posInf else .negInf
  | .fin a, .negInf => if a = 0 then .nan else if 0 < a then .negInf else .posInf
  | .posInf, .fin b => if b = 0 then .nan else if 0 < b then .posInf else .negInf
  | .negInf, .fin b => if b = 0 then .nan else if 0 < b then .negInf else .posInf
  | .posInf, .posInf => .posInf
  | .posInf, .negInf => .negInf
  | .negInf, .posInf => .negInf
  | .negInf, .negInf => .posInf

/-- Quotient of two values: a finite non-zero value divided by zero is an
infinity, `0 / 0` and `inf / inf` are NaN. -/
def Fp.div (round : ℚ → Fp) : Fp → Fp → Fp
  | .fin a, .fin b =>
    if b = 0 then (if a = 0 then .nan else if 0 < a then .posInf else .negInf)
    else round (a / b)
  | .nan, _ => .nan
  | _, .nan => .nan
  | .fin _, .posInf => .fin 0
  | .fin _, .negInf => .fin 0
  | .posInf, .fin b => if 0 ≤ b then .posInf else .negInf
  | .negInf, .fin b => if 0 ≤ b then .negInf else .posInf
  | .posInf, .posInf => .nan
  | .posInf, .negInf => .nan
  | .negInf, .posInf => .nan
  | .negInf, .negInf => .nan

/-- Conversion of a value to the format of `round`; infinities and NaN stay. -/
def Fp.convert (round : ℚ → Fp) : Fp → Fp
  | .fin a => round a
  | x => x

/-- The comparison `a < b`; it is false when one side is NaN. -/
def Fp.lt : Fp → Fp → Bool
  | .fin a, .fin b => decide (a < b)
  | .nan, _ => false
  | _, .nan => false
  | .negInf, .negInf => false
  | .negInf, _ => true
  | _, .negInf => false
  | .posInf, _ => false
  | _, .posInf => true

instance : LT Fp := ⟨fun a b => Fp.lt a b = true⟩

instance : DecidableRel (fun (a b : Fp) => a < b) :=
  fun a b => inferInstanceAs (Decidable (Fp.lt a b = true))

/-- An edge with its pheromone as the `float` the code stores. -/
abbrev FTriple := Nat × Fp × Nat

/-- The part of the state of a `Graph` that `generateIdx` and
`updatePheromone` use, the pheromones being `float`s. -/
structure FGraph where
  numNodes : Nat
  adjList : List (List FTriple)
deriving DecidableEq

/-- The cumulative-sum loop of `generateIdx` in `float` arithmetic:
`cumSum += std::get<1>(choice); weightCum.push_back(cumSum)`. -/
def weightCumLoopF : List FTriple → List Fp × Fp → List Fp × Fp
  | [], acc => acc
  | choice :: rest, (weightCum, cumSum) =>
    weightCumLoopF rest
      (weightCum ++ [Fp.add toFloat cumSum choice.2.1], Fp.add toFloat cumSum choice.2.1)

/-- The draw of `generateIdx`:
`float random = ((float) rand()) / (float) RAND_MAX; float r = random * cumSum`,
`rand` being the value of `rand()` and `randMax` the constant `RAND_MAX` of
the C library. -/
def FGraph.draw (randMax rand : Nat) (cumSum : Fp) : Fp :=
  Fp.mul toFloat (Fp.div toFloat (toFloat rand) (toFloat randMax)) cumSum

/-- `Graph::generateIdx` in `float` arithmetic; `adjList[item]` is unchecked. -/
def FGraph.generateIdx (g : FGraph) (randMax item rand : Nat) : Except Fault Nat :=
  match g.adjList[item]? with
  | none => .error .undefined
  | some choices =>
    .ok (lower_bound (weightCumLoopF choices ([], .fin 0)).1
      (FGraph.draw randMax rand (weightCumLoopF choices ([], .fin 0)).2))

/-- The inner `for (auto &edge: adjList.at(source))` of `updatePheromone` in
the arithmetic of the code: `float pheromone = std::get<1>(edge);
pheromone += fitnessDiff`, the sum being made in `double` and stored in the
`float`. -/
def reinforceF (fitnessDiff : Fp) (next : Nat) (node : List FTriple) : List FTriple :=
  node.map (fun edge =>
    if edge.1 = next then
      (edge.1, Fp.convert toFloat (Fp.add toDouble edge.2.1 fitnessDiff), edge.2.2)
    else edge)

/-- The outer loop of `updatePheromone` on the part of the path not yet
visited, in the arithmetic of the code. -/
def FGraph.updatePheromoneLoop (fitnessDiff : Fp) : List Nat → FGraph → FGraph × Except Fault Unit
  | [], g => (g, .ok ())
  | source :: rest, g =>
    if (source : Int) ≠ (g.numNodes : Int) - 1 then
      match g.adjList[source]? with
      | none => (g, .error .outOfRange)
      | some [] => FGraph.updatePheromoneLoop fitnessDiff rest g
      | some (e :: es) =>
        match rest.head? with
        | none => (g, .error .outOfRange)
        | some next =>
          FGraph.updatePheromoneLoop fitnessDiff rest
            { g with adjList := g.adjList.set source (reinforceF fitnessDiff next (e :: es)) }
    else (g, .ok ())

/-- The first statement of `updatePheromone`:
`double fitnessDiff = 100.0 / (double) fitness`. -/
def FGraph.fitnessDiff (fitness : Int) : Fp :=
  Fp.div toDouble (.fin 100) (toDouble (fitness : ℚ))

/-- `Graph::updatePheromone` in the arithmetic of the code: the state it
leaves and how the call ends. -/
def FGraph.updatePheromone (g : FGraph) (path : List Nat) (fitness : Int) :
    FGraph × Except Fault Unit :=
  FGraph.updatePheromoneLoop (FGraph.fitnessDiff fitness) path g

/-! ## Notions used to state the properties -/

/-- Sum of the pheromones of all edges of a node. -/
def totalPheromone (choices : List Triple) : ℚ :=
  (choices.map (fun c => c.2.1)).sum

/-- The cumulative sum `p_0 + ... + p_i` of the pheromones of a node. -/
def cumulative (choices : List Triple) (i : Nat) : ℚ :=
  totalPheromone (choices.take (i + 1))

/-- The `j`-th outgoing edge of node `s`, when there is one. -/
def Graph.edgeAt (g : Graph) (s j : Nat) : Option Triple :=
  match g.adjList[s]? with
  | none => none
  | some node => node[j]?

/-- The pair `(s, d)` occurs as two consecutive elements of `path`. -/
def Consecutive (path : List Nat) (s d : Nat) : Prop :=
  ∃ i, path[i]? = some s ∧ path[i + 1]? = some d

/-- The graph of the scenario with 3 items and 2 bins, every drawn pheromone
being `1/2`. -/
def scenarioGraph : Graph :=
  { bins := [0, 0]
    numBins := 2
    numNodes := 8
    problemType := 1
    numItems := 3
    adjList := [[(1, 1/2, 1), (2, 1/2, 1)],
                [(3, 1/2, 1), (4, 1/2, 1)],
                [(3, 1/2, 2), (4, 1/2, 2)],
                [(5, 1/2, 1), (6, 1/2, 1)],
                [(5, 1/2, 2), (6, 1/2, 2)],
                [(7, 1, 1)],
                [(7, 1, 2)],
                []] }

/-- The scenario graph after a path that put weights 1 and 3 in one bin and
weight 2 in the other. -/
def unevenGraph : Graph :=
  { scenarioGraph with bins := [4, 2] }

/-- The edge list the builder gives the node with 0-based bin position `j`
in layer `k`, `d` being the number of pheromone draws made before it. -/
def builtNode (numItems numBins : Nat) (pher : Nat → ℚ) (k j d : Nat) : List Triple :=
  if k + 1 < numItems then
    (List.range numBins).map (fun i => ((k + 1) * numBins + i + 1, pher (d + i), j + 1))
  else [(numItems * numBins + 1, 1, j + 1)]

/-- The adjacency list of a graph built for `numItems` items and `numBins`
bins from the pheromone draws `pher`. -/
structure BuiltAdj (numItems numBins : Nat) (pher : Nat → ℚ) (adj : List (List Triple)) :
    Prop where
  length_eq : adj.length = numItems * numBins + 2
  root : adj[0]? = some ((List.range numBins).map (fun i => (i + 1, pher i, 1)))
  node : ∀ k j, k < numItems → j < numBins →
    ∃ d, adj[k * numBins + j + 1]? = some (builtNode numItems numBins pher k j d)
  sink : adj[numItems * numBins + 1]? = some []

/-- A graph state whose counters and edge lists are those the builder gives
for `numItems` items and `numBins` bins; the bin accumulators are free. -/
structure Built (numItems numBins : Nat) (pher : Nat → ℚ) (g : Graph) : Prop where
  numNodes_eq : g.numNodes = numItems * numBins + 2
  numBins_eq : g.numBins = numBins
  bins_length : g.bins.length = numBins
  adj : BuiltAdj numItems numBins pher g.adjList

/-- The part of a path from layer `k` on: one node in each of the layers
`k, ..., numItems - 1`, then the sink. -/
def RouteFrom (numItems numBins k : Nat) (tail : List Nat) : Prop :=
  tail.length = numItems - k + 1 ∧
  (∀ i, k + i < numItems →
    ∃ v, tail[i]? = some v ∧ (k + i) * numBins + 1 ≤ v ∧ v ≤ (k + i) * numBins + numBins) ∧
  tail[numItems - k]? = some (numItems * numBins + 1)

/-- The state after the weight of item counter `currItem` has been added to
the bin at 0-based position `j`. -/
def Graph.place (g : Graph) (j currItem : Nat) : Graph :=
  { g with
    bins := g.bins.set j ((g.bins.getD j 0 + itemWeight g.problemType currItem) % UINT_RANGE) }

/-- The graph built for one item and one bin, the drawn pheromone being `1/2`. -/
def oneBinGraph : Graph :=
  { bins := [0]
    numBins := 1
    numNodes := 3
    problemType := 1
    numItems := 1
    adjList := [[(1, 1/2, 1)], [(2, 1, 1)], []] }

/-- The graph built for one item and two bins, every drawn pheromone being
`1/2`. -/
def twoBinGraph : Graph :=
  { bins := [0, 0]
    numBins := 2
    numNodes := 4
    problemType := 1
    numItems := 1
    adjList := [[(1, 1/2, 1), (2, 1/2, 1)], [(3, 1, 1)], [(3, 1, 2)], []] }

/-- The state after the weights of the item counters `currItem`,
`currItem + 1`, ... have been added to the bins of the given layer nodes, the
bin of node `v` being at 0-based position `(v - 1) % numBins`. -/
def placeAll (numBins : Nat) : Graph → Nat → List Nat → Graph
  | g, _, [] => g
  | g, currItem, v :: rest =>
    placeAll numBins (g.place ((v - 1) % numBins) currItem) (currItem + 1) rest

/-- Sum of the weights of the item counters `first, ..., first + count - 1`. -/
def weightTotal (problemType first count : Nat) : Nat :=
  ((List.range count).map (fun i => itemWeight problemType (first + i))).sum

/-- The state after `k` successive calls of `evaporatePheromone(rate)`. -/
def evaporateTimes (g : Graph) (rate : ℚ) : Nat → Graph
  | 0 => g
  | k + 1 => (evaporateTimes g rate k).evaporatePheromone rate

/-- Every pheromone of the graph is at least 0. -/
def NonnegPher (g : Graph) : Prop :=
  ∀ (s j d : Nat) (p : ℚ) (b : Nat), g.edgeAt s j = some (d, p, b) → 0 ≤ p

/-- The graph built for one item and two bins when every pheromone draw is 0. -/
def zeroGraph : Graph :=
  { bins := [0, 0]
    numBins := 2
    numNodes := 4
    problemType := 1
    numItems := 1
    adjList := [[(1, 0, 1), (2, 0, 1)], [(3, 1, 1)], [(3, 1, 2)], []] }

/-- Every pheromone of the graph is above 0. -/
def PosPher (g : Graph) : Prop :=
  ∀ (s j d : Nat) (p : ℚ) (b : Nat), g.edgeAt s j = some (d, p, b) → 0 < p

/-- The edges of the graph without their pheromones: destination and bin of
every edge of every node, in order. -/
def skeleton (g : Graph) : List (List (Nat × Nat)) :=
  g.adjList.map (fun node => node.map (fun t => (t.1, t.2.2)))

/-- A graph state with the counters and the layered edges of a graph built
for `numItems` items and `numBins` bins, whatever the pheromones and the bin
accumulators. -/
structure Layered (numItems numBins : Nat) (g : Graph) : Prop where
  numNodes_eq : g.numNodes = numItems * numBins + 2
  numBins_eq : g.numBins = numBins
  bins_length : g.bins.length = numBins
  length_eq : g.adjList.length = numItems * numBins + 2
  root : ∃ node, g.adjList[0]? = some node ∧ node.length = numBins ∧
    ∀ i, i < numBins → ∃ p, node[i]? = some (i + 1, p, 1)
  inner : ∀ k j, k + 1 < numItems → j < numBins →
    ∃ node, g.adjList[k * numBins + j + 1]? = some node ∧ node.length = numBins ∧
      ∀ i, i < numBins → ∃ p, node[i]? = some ((k + 1) * numBins + i + 1, p, j + 1)
  final : ∀ k j, k + 1 = numItems → j < numBins →
    ∃ p, g.adjList[k * numBins + j + 1]? = some [(numItems * numBins + 1, p, j + 1)]

/-- A path from the root through one node of each layer to the sink. -/
def IsRoute (numItems numBins : Nat) (path : List Nat) : Prop :=
  ∃ tail, path = 0 :: tail ∧ RouteFrom numItems numBins 0 tail

/-- The bins after the weights of the item counters `currItem`,
`currItem + 1`, ... have been added at the given 0-based positions. -/
def placeBins (problemType : Nat) : List Nat → Nat → List Nat → List Nat
  | bins, _, [] => bins
  | bins, currItem, j :: rest =>
    placeBins problemType
      (bins.set j ((bins.getD j 0 + itemWeight problemType currItem) % UINT_RANGE))
      (currItem + 1) rest

/-- The value `getFitness` computes from the bins. -/
def fitnessOf (bins : List Nat) : Except Fault Int :=
  match min_element bins, max_element bins with
  | some mn, some mx => .ok (toInt ((mx : Int) - (mn : Int)))
  | _, _ => .error .undefined

/-- What every state of a trial satisfies when no fitness can be 0: the
graph has its layered edges, no pheromone is negative, every recorded fitness
is above 0, and the recorded paths, one per fitness, run from the root
through the layers to the sink. -/
def TrialRun (numItems numBins problemType : Nat) (s : Trial) : Prop :=
  Layered numItems numBins s.acoGraph ∧ NonnegPher s.acoGraph ∧
    s.acoGraph.problemType = problemType ∧ (∀ f ∈ s.fitnesses, 0 < f) ∧
    s.paths.length = s.fitnesses.length ∧ ∀ p ∈ s.paths, IsRoute numItems numBins p

/-- A state of a trial in which every pheromone is above 0, every recorded
fitness is `worst`, and `best` still holds `initial`. -/
def TrialWorst (numItems numBins problemType : Nat) (worst initial : Int) (s : Trial) : Prop :=
  Layered numItems numBins s.acoGraph ∧ PosPher s.acoGraph ∧
    s.acoGraph.problemType = problemType ∧ (∀ f ∈ s.fitnesses, f = worst) ∧
    s.paths.length = s.fitnesses.length ∧ (∀ p ∈ s.paths, IsRoute numItems numBins p) ∧
    s.best = initial


/-- The weight sent to the bin at 0-based position `i` when the item counters
`currItem`, `currItem + 1`, ... go to the given positions. -/
def binLoad (problemType : Nat) : Nat → List Nat → Nat → Nat
  | _, [], _ => 0
  | currItem, j :: rest, i =>
    (if j = i then itemWeight problemType currItem else 0) +
      binLoad problemType (currItem + 1) rest i

/-- A number `m * 2^e` with `m < 2^prec` and `e ≥ emin`. -/
def Representable (prec : Nat) (emin : Int) (c : ℚ) : Prop :=
  ∃ (m : Nat) (e : Int), c = (m : ℚ) * pow2 e ∧ m < 2 ^ prec ∧ emin ≤ e


/-- The cumulative sum of the pheromones of the edges `0, ..., i` as
`generateIdx` computes it: every partial sum rounded to `float`. -/
def cumulativeF (choices : List FTriple) (i : Nat) : Fp :=
  (choices.take (i + 1)).foldl (fun s c => Fp.add toFloat s c.2.1) (.fin 0)

/-- The `cumSum` of `generateIdx` after its loop. -/
def totalF (choices : List FTriple) : Fp :=
  choices.foldl (fun s c => Fp.add toFloat s c.2.1) (.fin 0)

/-- The comparison `a ≤ b`; it is false when one side is NaN. -/
def Fp.le : Fp → Fp → Bool
  | .fin a, .fin b => decide (a ≤ b)
  | .nan, _ => false
  | _, .nan => false
  | .negInf, _ => true
  | _, .posInf => true
  | .posInf, _ => false
  | _, .negInf => false

/-- A pheromone that is not negative: a finite value `≥ 0` or `+inf`. -/
def Fp.Nonneg (x : Fp) : Prop :=
  x = .posInf ∨ ∃ q, x = .fin q ∧ 0 ≤ q

/-- A non-negative `float`: `+inf`, or a finite value `≥ 0` that the format
represents. -/
def Fp.IsFloat (x : Fp) : Prop :=
  x = .posInf ∨ ∃ q, x = .fin q ∧ 0 ≤ q ∧ Representable 24 (-149) q

/-- A node with two edges of pheromone `1/2`. -/
def halfNode : List FTriple :=
  [(1, .fin (1 / 2), 1), (2, .fin (1 / 2), 1)]

/-- A node with three edges whose pheromones are the `float`s `1`,
`3 / 2^25` and `1`. -/
def roundingNode : List FTriple :=
  [(1, .fin 1, 1), (2, .fin (3 / 33554432), 1), (3, .fin 1, 1)]

/-- The `j`-th outgoing edge of node `s`, when there is one. -/
def FGraph.edgeAt (g : FGraph) (s j : Nat) : Option FTriple :=
  match g.adjList[s]? with
  | none => none
  | some node => node[j]?

theorem lower_bound_loop_spec {α : Type} [LinearOrder α]
    [DecidableRel (fun (a b : α) => a < b)] (xs : List α) (val : α)
    (hmono : ∀ (i j : Nat) (a c : α), i ≤ j → xs[i]? = some a → xs[j]? = some c → a ≤ c) :
    ∀ fuel first len, len ≤ fuel → first + len ≤ xs.length →
      (∀ i a, i < first → xs[i]? = some a → a < val) →
      (∀ i a, first + len ≤ i → xs[i]? = some a → val ≤ a) →
      first ≤ lower_bound_loop xs val fuel first len ∧
      lower_bound_loop xs val fuel first len ≤ first + len ∧
      (∀ i a, i < lower_bound_loop xs val fuel first len → xs[i]? = some a → a < val) ∧
      (∀ i a, lower_bound_loop xs val fuel first len ≤ i → xs[i]? = some a → val ≤ a) := by
  intro fuel
  induction fuel with
  | zero =>
    intro first len hlen _ hlo hhi
    have : len = 0 := by omega
    subst this
    simp only [lower_bound_loop]
    exact ⟨le_refl _, by omega, hlo, hhi⟩
  | succ fuel ih =>
    intro first len hlen hbound hlo hhi
    unfold lower_bound_loop
    by_cases h0 : len = 0
    · subst h0
      simp only [if_true]
      exact ⟨le_refl _, by omega, hlo, hhi⟩
    · simp only [h0, if_false]
      have hhalf : len / 2 < len := Nat.div_lt_self (Nat.pos_of_ne_zero h0) (by decide)
      have hin : first + len / 2 < xs.length := by omega
      obtain ⟨middle, hmid⟩ : ∃ m, xs[first + len / 2]? = some m :=
        ⟨xs[first + len / 2], List.getElem?_eq_getElem hin⟩
      simp only [hmid]
      by_cases hlt : middle < val
      · simp only [hlt, if_true]
        have := ih (first + len / 2 + 1) (len - len / 2 - 1) (by omega) (by omega)
          (fun i a hi ha => lt_of_le_of_lt (hmono i _ a middle (by omega) ha hmid) hlt)
          (fun i a hi ha => hhi i a (by omega) ha)
        obtain ⟨h1, h2, h3, h4⟩ := this
        exact ⟨by omega, by omega, h3, h4⟩
      · simp only [hlt, if_false]
        have := ih first (len / 2) (by omega) (by omega) hlo
          (fun i a hi ha => le_trans (not_lt.mp hlt) (hmono _ i middle a hi hmid ha))
        obtain ⟨h1, h2, h3, h4⟩ := this
        exact ⟨h1, by omega, h3, h4⟩

theorem lower_bound_spec {α : Type} [LinearOrder α]
    [DecidableRel (fun (a b : α) => a < b)] (xs : List α) (val : α)
    (hmono : ∀ (i j : Nat) (a c : α), i ≤ j → xs[i]? = some a → xs[j]? = some c → a ≤ c) :
    lower_bound xs val ≤ xs.length ∧
    (∀ i a, i < lower_bound xs val → xs[i]? = some a → a < val) ∧
    (∀ i a, lower_bound xs val ≤ i → xs[i]? = some a → val ≤ a) := by
  have h := lower_bound_loop_spec xs val hmono xs.length 0 xs.length (le_refl _) (by omega)
    (fun i a hi _ => absurd hi (Nat.not_lt_zero i))
    (fun i a hi ha => by
      have : xs[i]? = none := List.getElem?_eq_none (by omega)
      rw [this] at ha; cases ha)
  unfold lower_bound
  exact ⟨by omega, h.2.2.1, h.2.2.2⟩


/-! ## The roulette wheel -/

theorem cumulative_cons_zero (c : Triple) (cs : List Triple) :
    cumulative (c :: cs) 0 = c.2.1 := by
  simp [cumulative, totalPheromone]

theorem cumulative_cons_succ (c : Triple) (cs : List Triple) (i : Nat) :
    cumulative (c :: cs) (i + 1) = c.2.1 + cumulative cs i := by
  simp [cumulative, totalPheromone]

theorem weightCumLoop_eq (cs : List Triple) :
    ∀ (w : List ℚ) (s : ℚ), weightCumLoop cs (w, s) =
      (w ++ (List.range cs.length).map (fun i => s + cumulative cs i), s + totalPheromone cs) := by
  induction cs with
  | nil => intro w s; simp [weightCumLoop, totalPheromone]
  | cons c cs ih =>
    intro w s
    rw [weightCumLoop, ih]
    simp only [List.length_cons, List.range_succ_eq_map, List.map_cons, List.map_map,
      cumulative_cons_zero, totalPheromone, List.sum_cons, List.append_assoc,
      List.singleton_append, Prod.mk.injEq]
    refine ⟨?_, by ring⟩
    congr 2
    apply List.map_congr_left
    intro i _
    simp only [Function.comp, cumulative_cons_succ]
    ring

theorem selectIdx_eq (cs : List Triple) (random : ℚ) :
    selectIdx cs random =
      lower_bound ((List.range cs.length).map (cumulative cs)) (random * totalPheromone cs) := by
  unfold selectIdx
  rw [weightCumLoop_eq]
  simp

theorem cumulative_mono (cs : List Triple) (hnonneg : ∀ c ∈ cs, 0 ≤ c.2.1) (i j : Nat)
    (hij : i ≤ j) : cumulative cs i ≤ cumulative cs j := by
  induction cs generalizing i j with
  | nil => simp [cumulative, totalPheromone]
  | cons c cs ih =>
    have hc : 0 ≤ c.2.1 := hnonneg c (List.mem_cons_self _ _)
    have htl : ∀ c1 ∈ cs, 0 ≤ c1.2.1 := fun c1 h => hnonneg c1 (List.mem_cons_of_mem _ h)
    have hge : ∀ k, 0 ≤ cumulative cs k := by
      intro k
      unfold cumulative totalPheromone
      apply List.sum_nonneg
      intro x hx
      obtain ⟨t, ht, rfl⟩ := List.mem_map.mp hx
      exact htl t (List.mem_of_mem_take ht)
    cases i with
    | zero =>
      cases j with
      | zero => exact le_refl _
      | succ j =>
        rw [cumulative_cons_zero, cumulative_cons_succ]
        have := hge j
        linarith
    | succ i =>
      cases j with
      | zero => omega
      | succ j =>
        rw [cumulative_cons_succ, cumulative_cons_succ]
        have := ih htl i j (by omega)
        linarith

theorem cumulative_last (cs : List Triple) (i : Nat) (hi : cs.length ≤ i + 1) :
    cumulative cs i = totalPheromone cs := by
  unfold cumulative
  rw [List.take_of_length_le hi]

/-- On a non-empty edge list with non-negative pheromones, and a draw whose
scaled value does not exceed the pheromone total, the selection returns the
least index whose cumulative sum reaches the scaled draw. -/
theorem selectIdx_spec (cs : List Triple) (random : ℚ) (hne : cs ≠ [])
    (hnonneg : ∀ c ∈ cs, 0 ≤ c.2.1)
    (hr : random * totalPheromone cs ≤ totalPheromone cs) :
    selectIdx cs random < cs.length ∧
    random * totalPheromone cs ≤ cumulative cs (selectIdx cs random) ∧
    ∀ j, j < selectIdx cs random → cumulative cs j < random * totalPheromone cs := by
  rw [selectIdx_eq]
  have hlook : ∀ (i : Nat) (a : ℚ), ((List.range cs.length).map (cumulative cs))[i]? = some a →
      i < cs.length ∧ a = cumulative cs i := by
    intro i a h
    rw [List.getElem?_map] at h
    by_cases hi : i < cs.length
    · rw [List.getElem?_range hi] at h
      simp only [Option.map_some', Option.some.injEq] at h
      exact ⟨hi, h.symm⟩
    · rw [List.getElem?_eq_none (by simpa using hi)] at h
      cases h
  have hget : ∀ i, i < cs.length →
      ((List.range cs.length).map (cumulative cs))[i]? = some (cumulative cs i) := by
    intro i hi
    rw [List.getElem?_map, List.getElem?_range hi]; rfl
  have hmono : ∀ (i j : Nat) (a c : ℚ), i ≤ j →
      ((List.range cs.length).map (cumulative cs))[i]? = some a →
      ((List.range cs.length).map (cumulative cs))[j]? = some c → a ≤ c := by
    intro i j a c hij ha hc
    rw [(hlook i a ha).2, (hlook j c hc).2]
    exact cumulative_mono cs hnonneg i j hij
  obtain ⟨hlen, hlo, hhi⟩ := lower_bound_spec _ (random * totalPheromone cs) hmono
  simp only [List.length_map, List.length_range] at hlen
  have hpos : 0 < cs.length := List.length_pos.mpr hne
  set r := lower_bound ((List.range cs.length).map (cumulative cs)) (random * totalPheromone cs)
  have hlt : r < cs.length := by
    by_contra hge
    have hr' : r = cs.length := by omega
    have := hlo (cs.length - 1) _ (by omega) (hget (cs.length - 1) (by omega))
    rw [cumulative_last cs (cs.length - 1) (by omega)] at this
    exact absurd hr (not_le.mpr this)
  refine ⟨hlt, hhi r _ (le_refl _) (hget r hlt), ?_⟩
  intro j hj
  exact hlo j _ hj (hget j (by omega))

/-! ## Fitness -/

theorem foldl_smallest (xs : List Nat) : ∀ init : Nat,
    (xs.foldl (fun smallest y => if y < smallest then y else smallest) init = init ∨
      xs.foldl (fun smallest y => if y < smallest then y else smallest) init ∈ xs) ∧
    xs.foldl (fun smallest y => if y < smallest then y else smallest) init ≤ init ∧
    ∀ b ∈ xs, xs.foldl (fun smallest y => if y < smallest then y else smallest) init ≤ b := by
  induction xs with
  | nil => intro init; simp
  | cons x xs ih =>
    intro init
    simp only [List.foldl_cons, List.mem_cons]
    obtain ⟨h1, h2, h3⟩ := ih (if x < init then x else init)
    refine ⟨?_, ?_, ?_⟩
    · rcases h1 with h | h
      · rw [h]; split_ifs <;> simp
      · exact Or.inr (Or.inr h)
    · refine le_trans h2 ?_
      split_ifs <;> omega
    · intro b hb
      rcases hb with rfl | hb
      · refine le_trans h2 ?_
        split_ifs <;> omega
      · exact h3 b hb

theorem foldl_largest (xs : List Nat) : ∀ init : Nat,
    (xs.foldl (fun largest y => if largest < y then y else largest) init = init ∨
      xs.foldl (fun largest y => if largest < y then y else largest) init ∈ xs) ∧
    init ≤ xs.foldl (fun largest y => if largest < y then y else largest) init ∧
    ∀ b ∈ xs, b ≤ xs.foldl (fun largest y => if largest < y then y else largest) init := by
  induction xs with
  | nil => intro init; simp
  | cons x xs ih =>
    intro init
    simp only [List.foldl_cons, List.mem_cons]
    obtain ⟨h1, h2, h3⟩ := ih (if init < x then x else init)
    refine ⟨?_, ?_, ?_⟩
    · rcases h1 with h | h
      · rw [h]; split_ifs <;> simp
      · exact Or.inr (Or.inr h)
    · refine le_trans ?_ h2
      split_ifs <;> omega
    · intro b hb
      rcases hb with rfl | hb
      · refine le_trans ?_ h2
        split_ifs <;> omega
      · exact h3 b hb

theorem min_element_spec (xs : List Nat) (hne : xs ≠ []) :
    ∃ mn, min_element xs = some mn ∧ mn ∈ xs ∧ ∀ b ∈ xs, mn ≤ b := by
  cases xs with
  | nil => exact absurd rfl hne
  | cons x xs =>
    obtain ⟨h1, h2, h3⟩ := foldl_smallest xs x
    refine ⟨_, rfl, ?_, ?_⟩
    · rcases h1 with h | h
      · rw [h]; exact List.mem_cons_self _ _
      · exact List.mem_cons_of_mem _ h
    · intro b hb
      rcases List.mem_cons.mp hb with rfl | hb
      · exact h2
      · exact h3 b hb

theorem max_element_spec (xs : List Nat) (hne : xs ≠ []) :
    ∃ mx, max_element xs = some mx ∧ mx ∈ xs ∧ ∀ b ∈ xs, b ≤ mx := by
  cases xs with
  | nil => exact absurd rfl hne
  | cons x xs =>
    obtain ⟨h1, h2, h3⟩ := foldl_largest xs x
    refine ⟨_, rfl, ?_, ?_⟩
    · rcases h1 with h | h
      · rw [h]; exact List.mem_cons_self _ _
      · exact List.mem_cons_of_mem _ h
    · intro b hb
      rcases List.mem_cons.mp hb with rfl | hb
      · exact h2
      · exact h3 b hb

/-- C7 (as amended): with at least one bin, every accumulator an
`unsigned int` value, `getFitness` leaves the graph as it was and returns a
value that is 0 exactly when all bins are equal; when the largest and the
smallest accumulator differ by less than `2^31` the value is that difference,
which is not negative. -/
theorem C7_getFitness_in_int_range (g : Graph) (hne : g.bins ≠ [])
    (hrange : ∀ b ∈ g.bins, b < 4294967296) :
    ∃ mn mx v, mn ∈ g.bins ∧ mx ∈ g.bins ∧ (∀ b ∈ g.bins, mn ≤ b ∧ b ≤ mx) ∧
      g.getFitness.graph = g ∧ g.getFitness.result = .ok v ∧
      (v = 0 ↔ ∀ a ∈ g.bins, ∀ b ∈ g.bins, a = b) ∧
      (mx - mn < 2147483648 → v = (mx : Int) - (mn : Int) ∧ 0 ≤ v) := by
  obtain ⟨mn, hmn, hmnmem, hmnle⟩ := min_element_spec g.bins hne
  obtain ⟨mx, hmx, hmxmem, hmxle⟩ := max_element_spec g.bins hne
  have hle : mn ≤ mx := hmnle mx hmxmem
  have hmxr : mx < 4294967296 := hrange mx hmxmem
  refine ⟨mn, mx, toInt ((mx : Int) - (mn : Int)), hmnmem, hmxmem,
    fun b hb => ⟨hmnle b hb, hmxle b hb⟩, ?_, ?_, ?_, ?_⟩
  · simp [Graph.getFitness, hmn, hmx]
  · simp [Graph.getFitness, hmn, hmx]
  · constructor
    · intro hv a ha b hb
      have hd : mx = mn := by
        unfold toInt at hv
        split_ifs at hv <;> omega
      have h1 := hmnle a ha
      have h2 := hmxle a ha
      have h3 := hmnle b hb
      have h4 := hmxle b hb
      omega
    · intro hall
      have hd : mx = mn := hall mx hmxmem mn hmnmem
      subst hd
      simp [toInt]
  · intro hsmall
    unfold toInt
    split_ifs <;> omega

/-- C7 on bins holding 4 and 2: the fitness is 2. -/
theorem C7_getFitness_in_int_range_witness :
    (∃ (mn mx : Nat) (v : Int), mn ∈ unevenGraph.bins ∧ mx ∈ unevenGraph.bins ∧
      (∀ b ∈ unevenGraph.bins, mn ≤ b ∧ b ≤ mx) ∧
      unevenGraph.getFitness.graph = unevenGraph ∧ unevenGraph.getFitness.result = .ok v ∧
      (v = 0 ↔ ∀ a ∈ unevenGraph.bins, ∀ b ∈ unevenGraph.bins, a = b) ∧
      (mx - mn < 2147483648 → v = (mx : Int) - (mn : Int) ∧ 0 ≤ v)) ∧
    unevenGraph.getFitness.result = .ok 2 :=
  ⟨C7_getFitness_in_int_range unevenGraph (by decide) (by decide), by decide⟩

/-- C7 fails as stated: after `addToBin(2, 2147483648)` on a fresh graph the
largest and smallest accumulators are 2147483648 and 0, and `getFitness`
returns -2147483648, which is negative and is not their difference. -/
theorem C7_getFitness_counterexample :
    (scenarioGraph.addToBin 2 2147483648).map (fun g => (g.bins, g.getFitness.result)) =
      .ok ([0, 2147483648], .ok (-2147483648)) ∧
    ¬ ((0 : Int) ≤ -2147483648) ∧ (-2147483648 : Int) ≠ 2147483648 - 0 := by
  refine ⟨by decide!, by decide, by decide⟩

/-! ## Evaporation -/

/-- C10: `evaporatePheromone(rate)` keeps the bins, the counters, the number
of nodes and the length of every edge list; the edge at each position of each
node keeps its destination and bin and has its pheromone multiplied by `rate`;
with rate 1 the graph is unchanged. -/
theorem C10_evaporatePheromone_scales_every_edge (g : Graph) (rate : ℚ) :
    (g.evaporatePheromone rate).bins = g.bins ∧
    (g.evaporatePheromone rate).numBins = g.numBins ∧
    (g.evaporatePheromone rate).numNodes = g.numNodes ∧
    (g.evaporatePheromone rate).adjList.length = g.adjList.length ∧
    (∀ s : Nat, ((g.evaporatePheromone rate).adjList[s]?).map List.length =
      (g.adjList[s]?).map List.length) ∧
    (∀ s j : Nat, (g.evaporatePheromone rate).edgeAt s j =
      (g.edgeAt s j).map (fun e => (e.1, e.2.1 * rate, e.2.2))) ∧
    g.evaporatePheromone 1 = g := by
  refine ⟨rfl, rfl, rfl, by simp [Graph.evaporatePheromone], ?_, ?_, ?_⟩
  · intro s
    simp only [Graph.evaporatePheromone, List.getElem?_map]
    cases g.adjList[s]? <;> simp
  · intro s j
    simp only [Graph.edgeAt, Graph.evaporatePheromone, List.getElem?_map]
    cases g.adjList[s]? with
    | none => rfl
    | some node => simp [List.getElem?_map]
  · cases g with
    | mk bins numBins numNodes problemType numItems adjList =>
      simp only [Graph.evaporatePheromone, mul_one, Graph.mk.injEq, true_and]
      have h1 : ∀ node : List Triple, node.map (fun edge => (edge.1, edge.2.1, edge.2.2)) = node := by
        intro node
        exact List.map_id _
      simp [h1]

/-! ## Reinforcement -/

theorem consecutive_cons (a : Nat) (rest : List Nat) (s d : Nat) :
    Consecutive (a :: rest) s d ↔ (s = a ∧ rest.head? = some d) ∨ Consecutive rest s d := by
  constructor
  · rintro ⟨i, h1, h2⟩
    cases i with
    | zero =>
      left
      simp only [List.getElem?_cons_zero, Option.some.injEq] at h1
      simp only [zero_add, List.getElem?_cons_succ] at h2
      refine ⟨h1.symm, ?_⟩
      rw [← h2]
      cases rest <;> simp
    | succ i =>
      right
      exact ⟨i, by simpa using h1, by simpa using h2⟩
  · rintro (⟨rfl, h⟩ | ⟨i, h1, h2⟩)
    · refine ⟨0, by simp, ?_⟩
      cases rest with
      | nil => simp at h
      | cons x xs => simpa using h
    · exact ⟨i + 1, by simpa using h1, by simpa using h2⟩

theorem edgeAt_reinforce (g : Graph) (source next : Nat) (diff : ℚ) (node : List Triple)
    (h : g.adjList[source]? = some node) (s j : Nat) :
    Graph.edgeAt { g with adjList := g.adjList.set source (reinforce diff next node) } s j =
      (g.edgeAt s j).map
        (fun e => if s = source ∧ e.1 = next then (e.1, e.2.1 + diff, e.2.2) else e) := by
  have hlt : source < g.adjList.length := by
    by_contra hge
    rw [List.getElem?_eq_none (by omega)] at h
    cases h
  unfold Graph.edgeAt
  simp only [List.getElem?_set]
  by_cases hs : source = s
  · subst hs
    simp only [if_true, hlt, h, reinforce, List.getElem?_map, true_and]
  · have hs' : ¬ s = source := fun e => hs e.symm
    simp only [hs, if_false, hs', false_and]
    cases g.adjList[s]? with
    | none => rfl
    | some nd => simp

theorem length_reinforce (diff : ℚ) (next : Nat) (node : List Triple) :
    (reinforce diff next node).length = node.length := by
  simp [reinforce]

/-- Whatever the path, the loop of `updatePheromone` with a non-negative
increment keeps everything but pheromones, lowers no pheromone, and changes
no pheromone of an edge that is not a consecutive pair of the path. -/
theorem updatePheromoneLoop_frame (diff : ℚ) (hd : 0 ≤ diff) :
    ∀ (rest : List Nat) (g : Graph),
      (Graph.updatePheromoneLoop diff rest g).graph.bins = g.bins ∧
      (Graph.updatePheromoneLoop diff rest g).graph.numBins = g.numBins ∧
      (Graph.updatePheromoneLoop diff rest g).graph.numNodes = g.numNodes ∧
      (Graph.updatePheromoneLoop diff rest g).graph.adjList.length = g.adjList.length ∧
      (∀ s : Nat, ((Graph.updatePheromoneLoop diff rest g).graph.adjList[s]?).map List.length =
        (g.adjList[s]?).map List.length) ∧
      ∀ (s j d : Nat) (p : ℚ) (b : Nat), g.edgeAt s j = some (d, p, b) →
        ∃ p1, (Graph.updatePheromoneLoop diff rest g).graph.edgeAt s j = some (d, p1, b) ∧
          p ≤ p1 ∧ (¬ Consecutive rest s d → p1 = p) := by
  intro rest
  induction rest with
  | nil =>
    intro g
    rw [Graph.updatePheromoneLoop]
    exact ⟨rfl, rfl, rfl, rfl, fun _ => rfl, fun s j d p b h => ⟨p, h, le_refl _, fun _ => rfl⟩⟩
  | cons source rest ih =>
    intro g
    have hsame : (∀ (s j d : Nat) (p : ℚ) (b : Nat), g.edgeAt s j = some (d, p, b) →
        ∃ p1, g.edgeAt s j = some (d, p1, b) ∧ p ≤ p1 ∧
          (¬ Consecutive (source :: rest) s d → p1 = p)) :=
      fun s j d p b h => ⟨p, h, le_refl _, fun _ => rfl⟩
    rw [Graph.updatePheromoneLoop]
    by_cases hsink : (source : Int) ≠ (g.numNodes : Int) - 1
    · rw [if_pos hsink]
      cases hnode : g.adjList[source]? with
      | none => exact ⟨rfl, rfl, rfl, rfl, fun _ => rfl, hsame⟩
      | some node =>
        cases node with
        | nil =>
          simp only
          obtain ⟨h1, h2, h3, h4, h5, h6⟩ := ih g
          refine ⟨h1, h2, h3, h4, h5, ?_⟩
          intro s j d p b h
          obtain ⟨p1, hp1, hle, hframe⟩ := h6 s j d p b h
          refine ⟨p1, hp1, hle, fun hn => hframe (fun hc => hn ?_)⟩
          exact (consecutive_cons source rest s d).mpr (Or.inr hc)
        | cons e es =>
          simp only
          cases hhead : rest.head? with
          | none => exact ⟨rfl, rfl, rfl, rfl, fun _ => rfl, hsame⟩
          | some next =>
            simp only
            obtain ⟨h1, h2, h3, h4, h5, h6⟩ := ih
              { g with adjList := g.adjList.set source (reinforce diff next (e :: es)) }
            refine ⟨h1, h2, h3, ?_, ?_, ?_⟩
            · rw [h4]; simp
            · intro s
              rw [h5 s]
              simp only [List.getElem?_set]
              by_cases hs : source = s
              · subst hs
                have hlt : source < g.adjList.length := by
                  by_contra hge
                  rw [List.getElem?_eq_none (by omega)] at hnode
                  cases hnode
                simp [hlt, hnode, length_reinforce]
              · simp [hs]
            · intro s j d p b h
              have hstep := edgeAt_reinforce g source next diff (e :: es) hnode s j
              rw [h] at hstep
              simp only [Option.map_some'] at hstep
              by_cases hc : s = source ∧ d = next
              · rw [if_pos hc] at hstep
                obtain ⟨p1, hp1, hle, _⟩ := h6 s j d (p + diff) b hstep
                refine ⟨p1, hp1, by linarith, fun hn => absurd ?_ hn⟩
                exact (consecutive_cons source rest s d).mpr (Or.inl ⟨hc.1, by rw [hhead, hc.2]⟩)
              · rw [if_neg hc] at hstep
                obtain ⟨p1, hp1, hle, hframe⟩ := h6 s j d p b hstep
                refine ⟨p1, hp1, hle, fun hn => hframe (fun hc2 => hn ?_)⟩
                exact (consecutive_cons source rest s d).mpr (Or.inr hc2)
    · rw [if_neg hsink]
      exact ⟨rfl, rfl, rfl, rfl, fun _ => rfl, hsame⟩

/-- C9: for every graph, every path (so every path ending in the sink) and
every fitness `f > 0`, `updatePheromone(path, f)` leaves the bins, the
counters, the number of nodes and the length of every edge list unchanged;
every edge keeps its position, destination and bin, its pheromone does not
decrease, and it is unchanged when the edge is not a consecutive pair of the
path. -/
theorem C9_updatePheromone_frame (g : Graph) (path : List Nat) (fitness : Int)
    (hf : 0 < fitness) :
    (g.updatePheromone path fitness).graph.bins = g.bins ∧
    (g.updatePheromone path fitness).graph.numBins = g.numBins ∧
    (g.updatePheromone path fitness).graph.numNodes = g.numNodes ∧
    (g.updatePheromone path fitness).graph.adjList.length = g.adjList.length ∧
    (∀ s : Nat, ((g.updatePheromone path fitness).graph.adjList[s]?).map List.length =
      (g.adjList[s]?).map List.length) ∧
    ∀ (s j d : Nat) (p : ℚ) (b : Nat), g.edgeAt s j = some (d, p, b) →
      ∃ p1, (g.updatePheromone path fitness).graph.edgeAt s j = some (d, p1, b) ∧
        p ≤ p1 ∧ (¬ Consecutive path s d → p1 = p) := by
  have hne : fitness ≠ 0 := by omega
  have hq : (0 : ℚ) < (fitness : ℚ) := by exact_mod_cast hf
  have hd : (0 : ℚ) ≤ 100 / (fitness : ℚ) := by positivity
  unfold Graph.updatePheromone
  rw [if_neg hne]
  exact updatePheromoneLoop_frame _ hd path g

/-- C9 on the scenario graph, for the path `[0, 2, 3, 6, 7]` and fitness 2. -/
theorem C9_updatePheromone_frame_witness :
    (scenarioGraph.updatePheromone [0, 2, 3, 6, 7] 2).graph.bins = scenarioGraph.bins ∧
    (scenarioGraph.updatePheromone [0, 2, 3, 6, 7] 2).graph.numBins = scenarioGraph.numBins ∧
    (scenarioGraph.updatePheromone [0, 2, 3, 6, 7] 2).graph.numNodes = scenarioGraph.numNodes ∧
    (scenarioGraph.updatePheromone [0, 2, 3, 6, 7] 2).graph.adjList.length =
      scenarioGraph.adjList.length ∧
    (∀ s : Nat,
      ((scenarioGraph.updatePheromone [0, 2, 3, 6, 7] 2).graph.adjList[s]?).map List.length =
        (scenarioGraph.adjList[s]?).map List.length) ∧
    ∀ (s j d : Nat) (p : ℚ) (b : Nat), scenarioGraph.edgeAt s j = some (d, p, b) →
      ∃ p1, (scenarioGraph.updatePheromone [0, 2, 3, 6, 7] 2).graph.edgeAt s j =
          some (d, p1, b) ∧
        p ≤ p1 ∧ (¬ Consecutive [0, 2, 3, 6, 7] s d → p1 = p) :=
  C9_updatePheromone_frame scenarioGraph [0, 2, 3, 6, 7] 2 (by decide)

/-! ## The builder: layers -/

theorem start_layer_length (b L : Nat) : (start_layer b L).length = b := by
  simp [start_layer]

theorem start_layer_getElem? (b L i : Nat) (hi : i < b) :
    (start_layer b L)[i]? = some (i + 1 + L) := by
  simp [start_layer, List.getElem?_map, List.getElem?_range hi]

theorem start_layer_lookup (b L i v : Nat) (h : (start_layer b L)[i]? = some v) :
    i < b ∧ v = i + 1 + L := by
  by_cases hi : i < b
  · rw [start_layer_getElem? b L i hi] at h
    injection h with h
    exact ⟨hi, h.symm⟩
  · rw [List.getElem?_eq_none (by rw [start_layer_length]; omega)] at h
    cases h

theorem mem_start_layer (b L v : Nat) : v ∈ start_layer b L ↔ L + 1 ≤ v ∧ v ≤ L + b := by
  rw [List.mem_iff_getElem?]
  constructor
  · rintro ⟨i, hi⟩
    obtain ⟨h1, h2⟩ := start_layer_lookup b L i v hi
    omega
  · rintro ⟨h1, h2⟩
    refine ⟨v - L - 1, ?_⟩
    rw [start_layer_getElem? _ _ _ (by omega)]
    congr 1
    omega

theorem start_layer_mono (b L : Nat) (i j a c : Nat) (hij : i ≤ j)
    (ha : (start_layer b L)[i]? = some a) (hc : (start_layer b L)[j]? = some c) : a ≤ c := by
  obtain ⟨_, h1⟩ := start_layer_lookup b L i a ha
  obtain ⟨_, h2⟩ := start_layer_lookup b L j c hc
  omega

theorem start_layer_nodup (b L : Nat) : (start_layer b L).Nodup := by
  unfold start_layer
  apply List.Nodup.map _ (List.nodup_range b)
  intro x y h
  simp only at h
  omega

theorem start_layer_indexOf (b L j : Nat) (hj : j < b) :
    (start_layer b L).indexOf (j + 1 + L) = j := by
  have hlen : j < (start_layer b L).length := by rw [start_layer_length]; exact hj
  have hget : (start_layer b L)[j] = j + 1 + L := by
    have := start_layer_getElem? b L j hj
    rw [List.getElem?_eq_getElem hlen] at this
    injection this
  have := List.indexOf_getElem (start_layer_nodup b L) j hlen
  rw [hget] at this
  exact this

theorem start_layer_injective (b L1 L2 : Nat) (hb : 0 < b)
    (h : start_layer b L1 = start_layer b L2) : L1 = L2 := by
  have h1 := start_layer_getElem? b L1 0 hb
  rw [h, start_layer_getElem? b L2 0 hb] at h1
  injection h1 with h1
  omega

/-- On a non-decreasing vector `std::binary_search` decides membership. -/
theorem binary_search_iff_mem (xs : List Nat)
    (hmono : ∀ (i j a c : Nat), i ≤ j → xs[i]? = some a → xs[j]? = some c → a ≤ c)
    (v : Nat) : binary_search xs v = true ↔ v ∈ xs := by
  obtain ⟨hlen, hlo, hhi⟩ := lower_bound_spec xs v hmono
  unfold binary_search
  constructor
  · intro h
    cases hx : xs[lower_bound xs v]? with
    | none => rw [hx] at h; cases h
    | some x =>
      rw [hx] at h
      simp only [Bool.not_eq_true', decide_eq_false_iff_not, not_lt] at h
      have := hhi _ x (le_refl _) hx
      have hxv : x = v := le_antisymm h this
      rw [List.mem_iff_getElem?]
      exact ⟨_, hxv ▸ hx⟩
  · intro h
    obtain ⟨i, hi⟩ := List.mem_iff_getElem?.mp h
    have hri : lower_bound xs v ≤ i := by
      by_contra hlt
      have := hlo i v (by omega) hi
      omega
    have hilen : i < xs.length := by
      by_contra hge
      rw [List.getElem?_eq_none (by omega)] at hi
      cases hi
    have hrlen : lower_bound xs v < xs.length := by omega
    rw [List.getElem?_eq_getElem hrlen]
    have h1 := hhi _ _ (le_refl _) (List.getElem?_eq_getElem hrlen)
    have h2 := hmono _ i _ v hri (List.getElem?_eq_getElem hrlen) hi
    simp only [Bool.not_eq_true', decide_eq_false_iff_not, not_lt]
    exact h2

theorem binary_search_start_layer (b L v : Nat) :
    binary_search (start_layer b L) v = true ↔ L + 1 ≤ v ∧ v ≤ L + b := by
  rw [binary_search_iff_mem _ (start_layer_mono b L), mem_start_layer]

theorem start_subVecsFrom_length (b : Nat) :
    ∀ (m L : Nat), (start_subVecsFrom b m L).length = m := by
  intro m
  induction m with
  | zero => intro L; rfl
  | succ m ih => intro L; simp [start_subVecsFrom, ih]

theorem start_subVecsFrom_getElem? (b : Nat) :
    ∀ (m L k : Nat), k < m → (start_subVecsFrom b m L)[k]? = some (start_layer b (L + k * b)) := by
  intro m
  induction m with
  | zero => intro L k hk; omega
  | succ m ih =>
    intro L k hk
    cases k with
    | zero => simp [start_subVecsFrom]
    | succ k =>
      simp only [start_subVecsFrom, List.getElem?_cons_succ]
      rw [ih (L + b) k (by omega), Nat.succ_mul]
      congr 2
      omega

theorem start_subVecsFrom_find (b : Nat) (node : Nat) :
    ∀ (m L k : Nat), k < m → L + k * b + 1 ≤ node → node ≤ L + k * b + b →
      (start_subVecsFrom b m L).find? (fun subVec => binary_search subVec node) =
        some (start_layer b (L + k * b)) := by
  intro m
  induction m with
  | zero => intro L k hk; omega
  | succ m ih =>
    intro L k hk hlo hhi
    simp only [start_subVecsFrom, List.find?_cons]
    cases k with
    | zero =>
      have : binary_search (start_layer b L) node = true :=
        (binary_search_start_layer b L node).mpr (by omega)
      simp [this]
    | succ k =>
      rw [Nat.succ_mul] at hlo hhi
      have : binary_search (start_layer b L) node = false := by
        rw [← Bool.not_eq_true, binary_search_start_layer]
        omega
      simp only [this]
      rw [ih (L + b) k (by omega) (by omega) (by omega), Nat.succ_mul]
      congr 2
      omega

theorem start_subVecsFrom_indexOf (b : Nat) (hb : 0 < b) :
    ∀ (m L k : Nat), k < m →
      (start_subVecsFrom b m L).indexOf (start_layer b (L + k * b)) = k := by
  intro m
  induction m with
  | zero => intro L k hk; omega
  | succ m ih =>
    intro L k hk
    simp only [start_subVecsFrom, List.indexOf_cons]
    cases k with
    | zero => simp
    | succ k =>
      have hne : (start_layer b L == start_layer b (L + (k + 1) * b)) = false := by
        rw [beq_eq_false_iff_ne]
        intro h
        have := start_layer_injective b _ _ hb h
        rw [Nat.succ_mul] at this
        omega
      simp only [hne, cond_false]
      have := ih (L + b) k (by omega)
      rw [Nat.succ_mul]
      have e : L + (k * b + b) = L + b + k * b := by omega
      rw [e, this]

/-! ## The builder: edges -/

theorem start_drawEdges_snd (pher : Nat → ℚ) (s bin : Nat) :
    ∀ (l : List Nat) (d : Nat), (start_drawEdges pher s bin l d).2 = d + l.length := by
  intro l
  induction l with
  | nil => intro d; rfl
  | cons x l ih =>
    intro d
    simp only [start_drawEdges, ih, List.length_cons]
    omega

theorem start_drawEdges_getElem? (pher : Nat → ℚ) (s bin : Nat) :
    ∀ (l : List Nat) (d i : Nat), (start_drawEdges pher s bin l d).1[i]? =
      (l[i]?).map (fun x => (⟨s, x, pher (d + i), bin⟩ : Edge)) := by
  intro l
  induction l with
  | nil => intro d i; simp [start_drawEdges]
  | cons x l ih =>
    intro d i
    cases i with
    | zero => simp [start_drawEdges]
    | succ i =>
      simp only [start_drawEdges, List.getElem?_cons_succ, ih]
      have : d + 1 + i = d + (i + 1) := by omega
      rw [this]

theorem start_drawEdges_source (pher : Nat → ℚ) (s bin : Nat) (l : List Nat) (d : Nat)
    (e : Edge) (he : e ∈ (start_drawEdges pher s bin l d).1) : e.source = s := by
  obtain ⟨i, hi⟩ := List.mem_iff_getElem?.mp he
  rw [start_drawEdges_getElem?] at hi
  cases hl : l[i]? with
  | none => rw [hl] at hi; cases hi
  | some x =>
    rw [hl] at hi
    simp only [Option.map_some', Option.some.injEq] at hi
    rw [← hi]

theorem start_drawEdges_layer (pher : Nat → ℚ) (s bin b L d : Nat) :
    (start_drawEdges pher s bin (start_layer b L) d).1.map
        (fun e => (e.destination, e.pheromone, e.bin)) =
      (List.range b).map (fun i => (L + i + 1, pher (d + i), bin)) := by
  apply List.ext_getElem?
  intro i
  rw [List.getElem?_map, start_drawEdges_getElem?, List.getElem?_map]
  by_cases hi : i < b
  · rw [start_layer_getElem? b L i hi, List.getElem?_range hi]
    simp only [Option.map_some', Option.some.injEq, Prod.mk.injEq, and_true]
    omega
  · rw [List.getElem?_eq_none (by rw [start_layer_length]; omega),
      List.getElem?_eq_none (by simp; omega)]
    rfl

theorem start_nodeEdges_eq (n b : Nat) (hb : 0 < b) (pher : Nat → ℚ) (k j d : Nat)
    (hk : k < n) (hj : j < b) :
    start_nodeEdges n b (start_subVecs n b) pher (k * b + j + 1) d =
      if k + 1 < n then
        .ok (start_drawEdges pher (k * b + j + 1) (j + 1) (start_layer b ((k + 1) * b)) d)
      else .ok ([⟨k * b + j + 1, n * b + 1, 1, j + 1⟩], d) := by
  unfold start_nodeEdges start_subVecs
  rw [start_subVecsFrom_find b (k * b + j + 1) n 0 k hk (by omega) (by omega)]
  simp only
  rw [start_subVecsFrom_indexOf b hb n 0 k hk]
  have e1 : k * b + j + 1 = j + 1 + (0 + k * b) := by omega
  have hidx : (start_layer b (0 + k * b)).indexOf (k * b + j + 1) = j := by
    rw [e1]
    exact start_layer_indexOf b _ j hj
  rw [hidx]
  by_cases hlast : k + 1 < n
  · have hne : k ≠ n - 1 := by omega
    rw [if_pos hne, if_pos hlast, start_subVecsFrom_getElem? b n 0 (k + 1) hlast]
    simp
  · have heq : ¬ (k ≠ n - 1) := by omega
    rw [if_neg heq, if_neg hlast]

theorem start_nodeEdges_spec (n b : Nat) (hb : 0 < b) (pher : Nat → ℚ) (k j d : Nat)
    (hk : k < n) (hj : j < b) :
    ∃ es d1, start_nodeEdges n b (start_subVecs n b) pher (k * b + j + 1) d = .ok (es, d1) ∧
      (∀ e ∈ es, e.source = k * b + j + 1) ∧
      es.map (fun e => (e.destination, e.pheromone, e.bin)) = builtNode n b pher k j d := by
  rw [start_nodeEdges_eq n b hb pher k j d hk hj]
  by_cases hlast : k + 1 < n
  · rw [if_pos hlast]
    refine ⟨_, _, rfl, ?_, ?_⟩
    · intro e he
      exact start_drawEdges_source _ _ _ _ _ e he
    · rw [start_drawEdges_layer, builtNode, if_pos hlast]
  · rw [if_neg hlast]
    refine ⟨_, _, rfl, ?_, ?_⟩
    · intro e he
      simp only [List.mem_singleton] at he
      rw [he]
    · rw [builtNode, if_neg hlast]
      rfl

theorem start_nodesLoop_spec (n b : Nat) (hb : 0 < b) (pher : Nat → ℚ) :
    ∀ (ws : List Nat) (d : Nat), (∀ w ∈ ws, 1 ≤ w ∧ w ≤ n * b) → ws.Nodup →
      ∃ es, start_nodesLoop n b (start_subVecs n b) pher ws d = .ok es ∧
        (∀ e ∈ es, e.source ∈ ws) ∧
        ∀ k j, k < n → j < b → k * b + j + 1 ∈ ws →
          ∃ dv, (es.filter (fun e => e.source = k * b + j + 1)).map
              (fun e => (e.destination, e.pheromone, e.bin)) = builtNode n b pher k j dv := by
  intro ws
  induction ws with
  | nil =>
    intro d _ _
    exact ⟨[], rfl, by simp, by simp⟩
  | cons w ws ih =>
    intro d hrange hnodup
    obtain ⟨hw1, hw2⟩ := hrange w (List.mem_cons_self _ _)
    have hwk : (w - 1) / b < n := by
      rw [Nat.div_lt_iff_lt_mul hb]
      omega
    have hwj : (w - 1) % b < b := Nat.mod_lt _ hb
    have hweq : (w - 1) / b * b + (w - 1) % b + 1 = w := by
      have := Nat.div_add_mod (w - 1) b
      rw [Nat.mul_comm] at this
      omega
    obtain ⟨es1, d1, hes1, hsrc1, hmap1⟩ :=
      start_nodeEdges_spec n b hb pher ((w - 1) / b) ((w - 1) % b) d hwk hwj
    rw [hweq] at hes1 hsrc1
    obtain ⟨more, hmore, hsrc2, hfilter⟩ := ih d1
      (fun x hx => hrange x (List.mem_cons_of_mem _ hx)) (List.nodup_cons.mp hnodup).2
    have hwnot : w ∉ ws := (List.nodup_cons.mp hnodup).1
    refine ⟨es1 ++ more, ?_, ?_, ?_⟩
    · simp only [start_nodesLoop, hes1, hmore]
    · intro e he
      rcases List.mem_append.mp he with h | h
      · rw [hsrc1 e h]; exact List.mem_cons_self _ _
      · exact List.mem_cons_of_mem _ (hsrc2 e h)
    · intro k j hk hj hmem
      rw [List.filter_append]
      by_cases hkw : k * b + j + 1 = w
      · have hk' : k = (w - 1) / b := by
          have h1 : w - 1 = j + b * k := by rw [Nat.mul_comm]; omega
          rw [h1, Nat.add_mul_div_left _ _ hb, Nat.div_eq_of_lt hj]
          omega
        have hj' : j = (w - 1) % b := by
          have h1 : w - 1 = j + b * k := by rw [Nat.mul_comm]; omega
          rw [h1, Nat.add_mul_mod_self_left, Nat.mod_eq_of_lt hj]
        refine ⟨d, ?_⟩
        have hf1 : es1.filter (fun e => e.source = k * b + j + 1) = es1 := by
          rw [List.filter_eq_self]
          intro e he
          simp [hsrc1 e he, hkw]
        have hf2 : more.filter (fun e => e.source = k * b + j + 1) = [] := by
          rw [List.filter_eq_nil_iff]
          intro e he
          have := hsrc2 e he
          simp only [decide_eq_true_eq]
          intro h
          rw [h, hkw] at this
          exact hwnot this
        rw [hf1, hf2, List.append_nil, hmap1, ← hk', ← hj']
      · have hmem' : k * b + j + 1 ∈ ws := by
          rcases List.mem_cons.mp hmem with h | h
          · exact absurd h hkw
          · exact h
        obtain ⟨dv, hdv⟩ := hfilter k j hk hj hmem'
        refine ⟨dv, ?_⟩
        have hf1 : es1.filter (fun e => e.source = k * b + j + 1) = [] := by
          rw [List.filter_eq_nil_iff]
          intro e he
          simp only [decide_eq_true_eq]
          rw [hsrc1 e he]
          exact fun h => hkw h.symm
        rw [hf1, List.nil_append, hdv]

/-! ## The builder: the constructed graph -/

theorem pushEdges_spec : ∀ (es : List Edge) (g : Graph),
    (∀ e ∈ es, e.source < g.adjList.length) →
    ∃ g1, Graph.pushEdges es g = .ok g1 ∧ g1.bins = g.bins ∧ g1.numBins = g.numBins ∧
      g1.numNodes = g.numNodes ∧ g1.problemType = g.problemType ∧
      g1.adjList.length = g.adjList.length ∧
      ∀ (v : Nat) (node : List Triple), g.adjList[v]? = some node →
        g1.adjList[v]? = some (node ++ (es.filter (fun e => e.source = v)).map
          (fun e => (e.destination, e.pheromone, e.bin))) := by
  intro es
  induction es with
  | nil =>
    intro g _
    exact ⟨g, rfl, rfl, rfl, rfl, rfl, rfl, by simp⟩
  | cons e es ih =>
    intro g hsrc
    have hlt : e.source < g.adjList.length := hsrc e (List.mem_cons_self _ _)
    have hnode : g.adjList[e.source]? = some g.adjList[e.source] :=
      List.getElem?_eq_getElem hlt
    obtain ⟨g1, hg1, h1, h2, h3, h4, h5, h6⟩ := ih
      { g with
        adjList :=
          g.adjList.set e.source (g.adjList[e.source] ++ [(e.destination, e.pheromone, e.bin)]) }
      (by intro x hx; simpa using hsrc x (List.mem_cons_of_mem _ hx))
    refine ⟨g1, ?_, h1, h2, h3, h4, ?_, ?_⟩
    · rw [Graph.pushEdges, hnode]
      exact hg1
    · rw [h5]; simp
    · intro v node hv
      by_cases hev : e.source = v
      · subst hev
        have hnd : node = g.adjList[e.source] := by
          rw [hnode] at hv
          injection hv with hv
          exact hv.symm
        rw [h6 e.source (node ++ [(e.destination, e.pheromone, e.bin)])
          (by simp [List.getElem?_set, hlt, hnd])]
        simp [List.filter_cons]
      · rw [h6 v node (by simp [List.getElem?_set, hev, hv])]
        simp [List.filter_cons, hev]

/-- For at least one item and one bin the builder completes; the graph has
`numItems * numBins + 2` nodes, `numBins` empty bins and the layered edge
lists. -/
theorem start_acoGraph_spec (n b t : Nat) (pher : Nat → ℚ) (hn : 0 < n) (hb : 0 < b) :
    ∃ g, start_acoGraph n b t pher = .ok g ∧ g.bins = List.replicate b 0 ∧ g.numBins = b ∧
      g.numNodes = n * b + 2 ∧ g.problemType = t ∧ BuiltAdj n b pher g.adjList := by
  have hnodes : ∀ w ∈ (List.range (n * b)).map (fun i => i + 1), 1 ≤ w ∧ w ≤ n * b := by
    intro w hw
    obtain ⟨i, hi, rfl⟩ := List.mem_map.mp hw
    have := List.mem_range.mp hi
    omega
  have hnodup : ((List.range (n * b)).map (fun i => i + 1)).Nodup := by
    apply List.Nodup.map _ (List.nodup_range _)
    intro x y h
    simpa using h
  obtain ⟨es, hes, hsrc, hfilter⟩ := start_nodesLoop_spec n b hb pher _
    (start_drawEdges pher 0 1 (start_layer b 0) 0).2 hnodes hnodup
  have hedges : start_edges n b pher =
      .ok ((start_drawEdges pher 0 1 (start_layer b 0) 0).1 ++ es) := by
    unfold start_edges
    simp only [start_subVecs]
    rw [start_subVecsFrom_getElem? b n 0 0 hn]
    simp only [Nat.zero_mul, Nat.add_zero]
    have := hes
    simp only [start_subVecs] at this
    rw [this]
  have hall : ∀ e ∈ (start_drawEdges pher 0 1 (start_layer b 0) 0).1 ++ es,
      e.source < n * b + 2 := by
    intro e he
    rcases List.mem_append.mp he with h | h
    · rw [start_drawEdges_source _ _ _ _ _ e h]; omega
    · have := (hnodes _ (hsrc e h)).2
      omega
  obtain ⟨g, hg, h1, h2, h3, h4, h5, h6⟩ := pushEdges_spec _
    { bins := List.replicate b 0
      numBins := b
      numNodes := n * b + 2
      problemType := t
      numItems := ((n * b + 2 + UINT_RANGE - 2) % UINT_RANGE) / b
      adjList := List.replicate (n * b + 2) [] }
    (by intro e he; simp only [List.length_replicate]; exact hall e he)
  have hinit : ∀ v, v < n * b + 2 →
      (List.replicate (n * b + 2) ([] : List Triple))[v]? = some [] := by
    intro v hv
    rw [List.getElem?_replicate, if_pos hv]
  have hroot0 : ∀ e ∈ es, ¬ (e.source = 0) := by
    intro e he h
    have := (hnodes _ (hsrc e he)).1
    omega
  refine ⟨g, ?_, h1, h2, h3, h4, ?_, ?_, ?_, ?_⟩
  · unfold start_acoGraph
    rw [hedges]
    simp only [Graph.init]
    rw [if_neg (by omega)]
    exact hg
  · rw [h5]; simp
  · rw [h6 0 [] (hinit 0 (by omega)), List.filter_append]
    have hf1 : (start_drawEdges pher 0 1 (start_layer b 0) 0).1.filter
        (fun e => e.source = 0) = (start_drawEdges pher 0 1 (start_layer b 0) 0).1 := by
      rw [List.filter_eq_self]
      intro e he
      simp [start_drawEdges_source _ _ _ _ _ e he]
    have hf2 : es.filter (fun e => e.source = 0) = [] := by
      rw [List.filter_eq_nil_iff]
      intro e he
      simpa using hroot0 e he
    rw [hf1, hf2, List.append_nil, List.nil_append, start_drawEdges_layer]
    simp
  · intro k j hk hj
    have hmem : k * b + j + 1 ∈ (List.range (n * b)).map (fun i => i + 1) := by
      refine List.mem_map.mpr ⟨k * b + j, List.mem_range.mpr ?_, rfl⟩
      calc k * b + j < k * b + b := by omega
        _ = (k + 1) * b := by rw [Nat.succ_mul]
        _ ≤ n * b := Nat.mul_le_mul_right b hk
    have hle := (hnodes _ hmem).2
    obtain ⟨dv, hdv⟩ := hfilter k j hk hj hmem
    refine ⟨dv, ?_⟩
    rw [h6 (k * b + j + 1) [] (hinit _ (by omega)), List.filter_append]
    have hf1 : (start_drawEdges pher 0 1 (start_layer b 0) 0).1.filter
        (fun e => e.source = k * b + j + 1) = [] := by
      rw [List.filter_eq_nil_iff]
      intro e he
      simp [start_drawEdges_source _ _ _ _ _ e he]
    rw [hf1, List.nil_append, List.nil_append, hdv]
  · rw [h6 (n * b + 1) [] (hinit _ (by omega)), List.filter_append]
    have hf1 : (start_drawEdges pher 0 1 (start_layer b 0) 0).1.filter
        (fun e => e.source = n * b + 1) = [] := by
      rw [List.filter_eq_nil_iff]
      intro e he
      simp [start_drawEdges_source _ _ _ _ _ e he]
    have hf2 : es.filter (fun e => e.source = n * b + 1) = [] := by
      rw [List.filter_eq_nil_iff]
      intro e he
      have := (hnodes _ (hsrc e he)).2
      simp only [decide_eq_true_eq]
      omega
    rw [hf1, hf2]
    rfl

/-! ## Path generation on a built graph -/

theorem addToBin_eq (g : Graph) (j currItem : Nat) (hj : j < g.bins.length) :
    g.addToBin (j + 1) (itemWeight g.problemType currItem) = .ok (g.place j currItem) := by
  unfold Graph.addToBin Graph.place
  simp only [Nat.add_sub_cancel, List.getElem?_eq_getElem hj, List.getD_eq_getElem?_getD,
    Option.getD_some]
  simp

theorem traverse_eq (g : Graph) (currNode idx currItem : Nat) (node : List Triple)
    (destination : Nat) (p : ℚ) (j : Nat) (hnode : g.adjList[currNode]? = some node)
    (ht : node[idx]? = some (destination, p, j + 1)) (hj : j < g.bins.length) :
    g.traverse currNode idx currItem = .ok (g.place j currItem, destination) := by
  unfold Graph.traverse
  rw [hnode]
  simp only [ht, addToBin_eq g j currItem hj]

theorem totalPheromone_nonneg (cs : List Triple) (hnonneg : ∀ c ∈ cs, 0 ≤ c.2.1) :
    0 ≤ totalPheromone cs := by
  unfold totalPheromone
  apply List.sum_nonneg
  intro x hx
  obtain ⟨c, hc, rfl⟩ := List.mem_map.mp hx
  exact hnonneg c hc

theorem selectIdx_lt (cs : List Triple) (random : ℚ) (hne : cs ≠ [])
    (hnonneg : ∀ c ∈ cs, 0 ≤ c.2.1) (hr : random ≤ 1) : selectIdx cs random < cs.length := by
  have ht := totalPheromone_nonneg cs hnonneg
  have : random * totalPheromone cs ≤ totalPheromone cs := by nlinarith
  exact (selectIdx_spec cs random hne hnonneg this).1

theorem built_place (n b : Nat) (pher : Nat → ℚ) (g : Graph) (h : Built n b pher g)
    (j currItem : Nat) : Built n b pher (g.place j currItem) :=
  ⟨h.numNodes_eq, h.numBins_eq, by simp [Graph.place, h.bins_length], h.adj⟩

theorem built_emptyBins (n b : Nat) (pher : Nat → ℚ) (g : Graph) (h : Built n b pher g) :
    Built n b pher g.emptyBins :=
  ⟨h.numNodes_eq, h.numBins_eq, by simp [Graph.emptyBins, h.bins_length], h.adj⟩

theorem routeFrom_cons (n b k v : Nat) (tail : List Nat) (hk : k < n)
    (hv1 : k * b + 1 ≤ v) (hv2 : v ≤ k * b + b) (h : RouteFrom n b (k + 1) tail) :
    RouteFrom n b k (v :: tail) := by
  obtain ⟨hlen, hlayers, hsink⟩ := h
  refine ⟨?_, ?_, ?_⟩
  · rw [List.length_cons, hlen]; omega
  · intro i hi
    cases i with
    | zero => exact ⟨v, by simp, by simpa using hv1, by simpa using hv2⟩
    | succ i =>
      obtain ⟨w, hw, hw1, hw2⟩ := hlayers i (by omega)
      have e : k + 1 + i = k + (i + 1) := by omega
      rw [e] at hw1 hw2
      exact ⟨w, by simpa using hw, hw1, hw2⟩
  · have e : n - k = (n - (k + 1)) + 1 := by omega
    rw [e, List.getElem?_cons_succ]
    exact hsink

theorem routeFrom_sink (n b : Nat) : RouteFrom n b n [n * b + 1] := by
  refine ⟨by simp, ?_, by simp⟩
  intro i hi
  omega

theorem generatePathLoop_sink (rnd : Nat → ℚ) (fuel : Nat) (g : Graph)
    (currNode currItem drawn : Nat) (path : List Nat)
    (h : (currNode : Int) = (g.numNodes : Int) - 1) :
    Graph.generatePathLoop rnd (fuel + 1) g currNode currItem path drawn =
      ⟨g, .ok (path ++ [currNode])⟩ := by
  rw [Graph.generatePathLoop]
  simp only [h, if_true]

theorem generatePathLoop_final (rnd : Nat → ℚ) (fuel : Nat) (g g1 : Graph)
    (currNode currItem drawn destination : Nat) (path : List Nat)
    (h1 : (currNode : Int) ≠ (g.numNodes : Int) - 1)
    (h2 : (g.numNodes : Int) - 1 - (g.numBins : Int) ≤ (currNode : Int))
    (htr : g.traverse currNode 0 currItem = .ok (g1, destination)) :
    Graph.generatePathLoop rnd (fuel + 1) g currNode currItem path drawn =
      Graph.generatePathLoop rnd fuel g1 destination (currItem + 1) (path ++ [currNode])
        drawn := by
  rw [Graph.generatePathLoop]
  simp only [h1, h2, htr, if_true, if_false]

theorem generatePathLoop_inner (rnd : Nat → ℚ) (fuel : Nat) (g g1 : Graph)
    (currNode currItem drawn destination idx : Nat) (path : List Nat)
    (h1 : (currNode : Int) ≠ (g.numNodes : Int) - 1)
    (h2 : ¬ ((g.numNodes : Int) - 1 - (g.numBins : Int) ≤ (currNode : Int)))
    (hidx : g.generateIdx currNode (rnd drawn) = .ok idx)
    (htr : g.traverse currNode idx currItem = .ok (g1, destination)) :
    Graph.generatePathLoop rnd (fuel + 1) g currNode currItem path drawn =
      Graph.generatePathLoop rnd fuel g1 destination (currItem + 1) (path ++ [currNode])
        (drawn + 1) := by
  rw [Graph.generatePathLoop]
  simp only [h1, h2, hidx, htr, if_false]

/-- One iteration at the root of a built graph: some edge position below
`numBins` is selected, the weight goes to the first bin. -/
theorem built_step_root (n b : Nat) (pher rnd : Nat → ℚ) (hn : 0 < n) (hb : 0 < b)
    (hpher : ∀ i, 0 ≤ pher i) (hrnd : ∀ i, rnd i ≤ 1) (g : Graph) (hg : Built n b pher g)
    (currItem drawn : Nat) :
    ∃ idx, idx < b ∧ ∀ (fuel : Nat) (path : List Nat),
      Graph.generatePathLoop rnd (fuel + 1) g 0 currItem path drawn =
        Graph.generatePathLoop rnd fuel (g.place 0 currItem) (idx + 1) (currItem + 1)
          (path ++ [0]) (drawn + 1) := by
  have hnb : b ≤ n * b := Nat.le_mul_of_pos_left b hn
  have hnode := hg.adj.root
  have hidx : g.generateIdx 0 (rnd drawn) =
      .ok (selectIdx ((List.range b).map (fun i => (i + 1, pher i, 1))) (rnd drawn)) := by
    simp [Graph.generateIdx, hnode]
  have hsel := selectIdx_lt ((List.range b).map (fun i => (i + 1, pher i, 1))) (rnd drawn)
    (by intro h; have := congrArg List.length h; simp at this; omega)
    (by intro c hc; obtain ⟨i, _, rfl⟩ := List.mem_map.mp hc; exact hpher _)
    (hrnd drawn)
  simp only [List.length_map, List.length_range] at hsel
  set idx := selectIdx ((List.range b).map (fun i => (i + 1, pher i, 1))) (rnd drawn)
  have hedge : ((List.range b).map (fun i => (i + 1, pher i, 1)))[idx]? =
      some (idx + 1, pher idx, 0 + 1) := by
    rw [List.getElem?_map, List.getElem?_range hsel]
    rfl
  have htr := traverse_eq g 0 idx currItem _ _ _ 0 hnode hedge (by rw [hg.bins_length]; omega)
  refine ⟨idx, hsel, fun fuel path => ?_⟩
  apply generatePathLoop_inner rnd fuel g _ 0 currItem drawn _ idx path _ _ hidx htr
  · rw [hg.numNodes_eq]; push_cast; omega
  · rw [hg.numNodes_eq, hg.numBins_eq]; push_cast; omega

/-- One iteration at a node of a layer before the last. -/
theorem built_step_inner (n b : Nat) (pher rnd : Nat → ℚ)
    (hpher : ∀ i, 0 ≤ pher i) (hrnd : ∀ i, rnd i ≤ 1) (g : Graph) (hg : Built n b pher g)
    (k j : Nat) (hk : k + 1 < n) (hj : j < b) (currItem drawn : Nat) :
    ∃ idx, idx < b ∧ ∀ (fuel : Nat) (path : List Nat),
      Graph.generatePathLoop rnd (fuel + 1) g (k * b + j + 1) currItem path drawn =
        Graph.generatePathLoop rnd fuel (g.place j currItem) ((k + 1) * b + idx + 1)
          (currItem + 1) (path ++ [k * b + j + 1]) (drawn + 1) := by
  have hk1 : (k + 1) * b = k * b + b := Nat.succ_mul k b
  have hnb : (k + 2) * b ≤ n * b := Nat.mul_le_mul_right b (by omega)
  have hk2 : (k + 2) * b = k * b + b + b := by rw [Nat.succ_mul, hk1]
  obtain ⟨d, hnode⟩ := hg.adj.node k j (by omega) hj
  rw [builtNode, if_pos hk] at hnode
  have hidx : g.generateIdx (k * b + j + 1) (rnd drawn) =
      .ok (selectIdx ((List.range b).map
        (fun i => ((k + 1) * b + i + 1, pher (d + i), j + 1))) (rnd drawn)) := by
    simp [Graph.generateIdx, hnode]
  have hsel := selectIdx_lt ((List.range b).map
      (fun i => ((k + 1) * b + i + 1, pher (d + i), j + 1))) (rnd drawn)
    (by intro h; have := congrArg List.length h; simp at this; omega)
    (by intro c hc; obtain ⟨i, _, rfl⟩ := List.mem_map.mp hc; exact hpher _)
    (hrnd drawn)
  simp only [List.length_map, List.length_range] at hsel
  set idx := selectIdx ((List.range b).map
      (fun i => ((k + 1) * b + i + 1, pher (d + i), j + 1))) (rnd drawn)
  have hedge : ((List.range b).map
      (fun i => ((k + 1) * b + i + 1, pher (d + i), j + 1)))[idx]? =
        some ((k + 1) * b + idx + 1, pher (d + idx), j + 1) := by
    rw [List.getElem?_map, List.getElem?_range hsel]
    rfl
  have htr := traverse_eq g (k * b + j + 1) idx currItem _ _ _ j hnode hedge
    (by rw [hg.bins_length]; omega)
  refine ⟨idx, hsel, fun fuel path => ?_⟩
  apply generatePathLoop_inner rnd fuel g _ _ currItem drawn _ idx path _ _ hidx htr
  · rw [hg.numNodes_eq]; push_cast; omega
  · rw [hg.numNodes_eq, hg.numBins_eq]; push_cast; omega

/-- One iteration at a node of the last layer: the single edge to the sink. -/
theorem built_step_final (n b : Nat) (pher rnd : Nat → ℚ) (g : Graph)
    (hg : Built n b pher g) (k j : Nat) (hk : k + 1 = n) (hj : j < b)
    (currItem drawn fuel : Nat) (path : List Nat) :
    Graph.generatePathLoop rnd (fuel + 1) g (k * b + j + 1) currItem path drawn =
      Graph.generatePathLoop rnd fuel (g.place j currItem) (n * b + 1) (currItem + 1)
        (path ++ [k * b + j + 1]) drawn := by
  have hnb : n * b = k * b + b := by rw [← hk]; exact Nat.succ_mul k b
  obtain ⟨d, hnode⟩ := hg.adj.node k j (by omega) hj
  have hlast : ¬ (k + 1 < n) := by omega
  rw [builtNode, if_neg hlast] at hnode
  have htr := traverse_eq g (k * b + j + 1) 0 currItem _ (n * b + 1) 1 j hnode rfl
    (by rw [hg.bins_length]; omega)
  apply generatePathLoop_final rnd fuel g _ _ currItem drawn _ path _ _ htr
  · rw [hg.numNodes_eq]; push_cast; omega
  · rw [hg.numNodes_eq, hg.numBins_eq]; push_cast; omega

/-- The last iteration, at the sink of a built graph. -/
theorem built_step_sink (n b : Nat) (pher rnd : Nat → ℚ) (g : Graph)
    (hg : Built n b pher g) (currItem drawn fuel : Nat) (path : List Nat) :
    Graph.generatePathLoop rnd (fuel + 1) g (n * b + 1) currItem path drawn =
      ⟨g, .ok (path ++ [n * b + 1])⟩ := by
  apply generatePathLoop_sink
  rw [hg.numNodes_eq]; push_cast; omega

theorem node_bin (k b j : Nat) (hj : j < b) : (k * b + j + 1 - 1) % b = j := by
  rw [Nat.add_sub_cancel, Nat.mul_comm, Nat.mul_add_mod, Nat.mod_eq_of_lt hj]

/-- From a node of layer `k` the loop of `generatePath` runs through one
node of each later layer to the sink, within `numItems - k + 1` iterations
and without a fault. -/
theorem generatePathLoop_from_layer (n b : Nat) (pher rnd : Nat → ℚ)
    (hpher : ∀ i, 0 ≤ pher i) (hrnd : ∀ i, rnd i ≤ 1) :
    ∀ (m k : Nat), k + m + 1 = n →
      ∀ (g : Graph) (j currItem drawn fuel : Nat) (path : List Nat),
        Built n b pher g → j < b → m + 2 ≤ fuel →
        ∃ g1 tail,
          Graph.generatePathLoop rnd fuel g (k * b + j + 1) currItem path drawn =
            ⟨g1, .ok (path ++ (k * b + j + 1) :: tail)⟩ ∧
          Built n b pher g1 ∧ g1.adjList = g.adjList ∧ g1.problemType = g.problemType ∧
          RouteFrom n b (k + 1) tail ∧
          g1 = placeAll b g currItem ((k * b + j + 1) :: tail).dropLast := by
  intro m
  induction m with
  | zero =>
    intro k hk g j currItem drawn fuel path hg hj hfuel
    obtain ⟨fuel, rfl⟩ : ∃ f, fuel = f + 2 := ⟨fuel - 2, by omega⟩
    refine ⟨g.place j currItem, [n * b + 1], ?_, built_place n b pher g hg _ _, rfl, rfl, ?_, ?_⟩
    · rw [built_step_final n b pher rnd g hg k j (by omega) hj,
        built_step_sink n b pher rnd _ (built_place n b pher g hg _ _)]
      simp
    · have : k + 1 = n := by omega
      rw [this]
      exact routeFrom_sink n b
    · simp only [List.dropLast_cons₂, List.dropLast_single, placeAll, node_bin k b j hj]
  | succ m ih =>
    intro k hk g j currItem drawn fuel path hg hj hfuel
    obtain ⟨fuel, rfl⟩ : ∃ f, fuel = f + 1 := ⟨fuel - 1, by omega⟩
    have hk1 : (k + 1) * b = k * b + b := Nat.succ_mul k b
    obtain ⟨idx, hidx, hstep⟩ :=
      built_step_inner n b pher rnd hpher hrnd g hg k j (by omega) hj currItem drawn
    obtain ⟨g2, tail, hrun, hg2, hadj2, hpt2, hroute, hplace⟩ :=
      ih (k + 1) (by omega) (g.place j currItem) idx (currItem + 1) (drawn + 1) fuel
        (path ++ [k * b + j + 1]) (built_place n b pher g hg _ _) hidx (by omega)
    refine ⟨g2, ((k + 1) * b + idx + 1) :: tail, ?_, hg2, hadj2, hpt2, ?_, ?_⟩
    · rw [hstep, hrun]
      simp
    · exact routeFrom_cons n b (k + 1) _ tail (by omega) (by omega) (by omega) hroute
    · have hne : tail ≠ [] := by
        intro h
        have := hroute.1
        rw [h] at this
        simp at this
      obtain ⟨x, xs, rfl⟩ := List.exists_cons_of_ne_nil hne
      rw [hplace]
      simp only [List.dropLast_cons₂, placeAll, node_bin k b j hj]

/-- With fewer iterations than layers left plus two, the loop has not ended. -/
theorem generatePathLoop_short (n b : Nat) (pher rnd : Nat → ℚ)
    (hpher : ∀ i, 0 ≤ pher i) (hrnd : ∀ i, rnd i ≤ 1) :
    ∀ (m k : Nat), k + m + 1 = n →
      ∀ (g : Graph) (j currItem drawn fuel : Nat) (path : List Nat),
        Built n b pher g → j < b → fuel ≤ m + 1 →
        (Graph.generatePathLoop rnd fuel g (k * b + j + 1) currItem path drawn).result =
          .error .outOfFuel := by
  intro m
  induction m with
  | zero =>
    intro k hk g j currItem drawn fuel path hg hj hfuel
    cases fuel with
    | zero => rfl
    | succ fuel =>
      have : fuel = 0 := by omega
      subst this
      rw [built_step_final n b pher rnd g hg k j (by omega) hj]
      rfl
  | succ m ih =>
    intro k hk g j currItem drawn fuel path hg hj hfuel
    cases fuel with
    | zero => rfl
    | succ fuel =>
      obtain ⟨idx, hidx, hstep⟩ :=
        built_step_inner n b pher rnd hpher hrnd g hg k j (by omega) hj currItem drawn
      rw [hstep]
      exact ih (k + 1) (by omega) _ idx _ _ fuel _ (built_place n b pher g hg _ _) hidx
        (by omega)

/-- On a built graph, with non-negative pheromones and draws not above 1,
`generatePath` completes within `numItems + 2` iterations and not fewer; the
path is the root, one node of each layer, then the sink. -/
theorem generatePath_built (n b : Nat) (pher rnd : Nat → ℚ) (hn : 0 < n) (hb : 0 < b)
    (hpher : ∀ i, 0 ≤ pher i) (hrnd : ∀ i, rnd i ≤ 1) (g : Graph) (hg : Built n b pher g) :
    (∀ fuel, n + 2 ≤ fuel →
      ∃ g1 tail, g.generatePath rnd fuel = ⟨g1, .ok (0 :: tail)⟩ ∧ Built n b pher g1 ∧
        g1.adjList = g.adjList ∧ g1.problemType = g.problemType ∧ RouteFrom n b 0 tail ∧
        g1 = placeAll b (g.emptyBins.place 0 0) 1 tail.dropLast) ∧
    (∀ fuel, fuel < n + 2 → (g.generatePath rnd fuel).result = .error .outOfFuel) := by
  have hg0 := built_emptyBins n b pher g hg
  obtain ⟨idx, hidx, hstep⟩ :=
    built_step_root n b pher rnd hn hb hpher hrnd g.emptyBins hg0 0 0
  constructor
  · intro fuel hfuel
    obtain ⟨fuel, rfl⟩ : ∃ f, fuel = f + 1 := ⟨fuel - 1, by omega⟩
    obtain ⟨g1, tail, hrun, hg1, hadj, hpt, hroute, hplace⟩ :=
      generatePathLoop_from_layer n b pher rnd hpher hrnd (n - 1) 0 (by omega)
        (g.emptyBins.place 0 0) idx 1 1 fuel [0] (built_place n b pher _ hg0 _ _) hidx
        (by omega)
    simp only [Nat.zero_mul, Nat.zero_add] at hrun hplace
    refine ⟨g1, (idx + 1) :: tail, ?_, hg1, hadj, hpt, ?_, hplace⟩
    · unfold Graph.generatePath
      rw [hstep]
      simp only [List.nil_append] at hrun ⊢
      rw [hrun]
      simp
    · exact routeFrom_cons n b 0 _ tail hn (by omega) (by omega) hroute
  · intro fuel hfuel
    unfold Graph.generatePath
    cases fuel with
    | zero => rfl
    | succ fuel =>
      rw [hstep]
      have := generatePathLoop_short n b pher rnd hpher hrnd (n - 1) 0 (by omega)
        (g.emptyBins.place 0 0) idx 1 1 fuel [0] (built_place n b pher _ hg0 _ _) hidx
        (by omega)
      simpa using this

theorem start_acoGraph_built (n b t : Nat) (pher : Nat → ℚ) (hn : 0 < n) (hb : 0 < b) :
    ∃ g, start_acoGraph n b t pher = .ok g ∧ Built n b pher g ∧ g.problemType = t := by
  obtain ⟨g, hg, hbins, hnb, hnn, hpt, hadj⟩ := start_acoGraph_spec n b t pher hn hb
  exact ⟨g, hg, ⟨hnn, hnb, by rw [hbins]; simp, hadj⟩, hpt⟩

/-- C3 (as amended): on every graph produced by the builder for at least one
item and one bin, with pheromone draws and selection draws in `[0, 1]`,
`generatePath` returns a path of exactly `numItems + 2` nodes whose first
element is the root 0 and whose second element is a layer-0 node. -/
theorem C3_generatePath_length_and_start (n b t : Nat) (pher rnd : Nat → ℚ)
    (hn : 1 ≤ n) (hb : 1 ≤ b) (hpher : ∀ i, 0 ≤ pher i ∧ pher i ≤ 1)
    (hrnd : ∀ i, 0 ≤ rnd i ∧ rnd i ≤ 1) :
    ∃ g, start_acoGraph n b t pher = .ok g ∧
      ∀ fuel, n + 2 ≤ fuel → ∃ g1 path, g.generatePath rnd fuel = ⟨g1, .ok path⟩ ∧
        path.length = n + 2 ∧ path[0]? = some 0 ∧
        ∃ v, path[1]? = some v ∧ 1 ≤ v ∧ v ≤ b := by
  obtain ⟨g, hg, hbuilt, _⟩ := start_acoGraph_built n b t pher hn hb
  refine ⟨g, hg, fun fuel hfuel => ?_⟩
  obtain ⟨g1, tail, hrun, _, _, _, ⟨hlen, hlayers, _⟩, _⟩ :=
    (generatePath_built n b pher rnd hn hb (fun i => (hpher i).1) (fun i => (hrnd i).2)
      g hbuilt).1 fuel hfuel
  obtain ⟨v, hv, hv1, hv2⟩ := hlayers 0 (by omega)
  refine ⟨g1, 0 :: tail, hrun, by rw [List.length_cons, hlen]; omega, by simp, v, ?_, ?_, ?_⟩
  · simpa using hv
  · omega
  · simpa using hv2

/-- C3 (as amended) for 3 items and 2 bins, every pheromone `1/2`, every
selection draw 1. -/
theorem C3_generatePath_length_and_start_witness :
    ∃ g, start_acoGraph 3 2 1 (fun _ => 1 / 2) = .ok g ∧
      ∀ fuel, 3 + 2 ≤ fuel → ∃ g1 path, g.generatePath (fun _ => 1) fuel = ⟨g1, .ok path⟩ ∧
        path.length = 3 + 2 ∧ path[0]? = some 0 ∧
        ∃ v, path[1]? = some v ∧ 1 ≤ v ∧ v ≤ 2 :=
  C3_generatePath_length_and_start 3 2 1 (fun _ => 1 / 2) (fun _ => 1) (by decide) (by decide)
    (fun _ => by norm_num) (fun _ => by norm_num)

/-- C3 fails as stated: for one item and one bin the path returned is
`[0, 1, 2]`: three nodes, not two, and the first is the root 0, which is not
a layer-0 node. -/
theorem C3_generatePath_counterexample :
    start_acoGraph 1 1 1 (fun _ => 1 / 2) = .ok oneBinGraph ∧
    (oneBinGraph.generatePath (fun _ => 1) 3).result = .ok [0, 1, 2] ∧
    [0, 1, 2].length ≠ 1 + 1 ∧ ([0, 1, 2] : List Nat)[0]? = some 0 ∧ ¬ (1 ≤ 0) := by
  refine ⟨by decide!, by decide!, by decide, rfl, by decide⟩

/-- C5: on every graph produced by the builder for at least one item and one
bin, with non-negative pheromones and draws in `[0, 1]`, the loop of
`generatePath` ends without a fault after exactly `numItems + 2` iterations
(it is still running after fewer), the last of which only records the sink:
the path has `numItems + 2` nodes, so `numItems + 1` edges were traversed, and
it stops at the sink `numItems * numBins + 1` (node 7 after 4 edges for 3
items and 2 bins). -/
theorem C5_generatePath_terminates (n b t : Nat) (pher rnd : Nat → ℚ)
    (hn : 1 ≤ n) (hb : 1 ≤ b) (hpher : ∀ i, 0 ≤ pher i)
    (hrnd : ∀ i, 0 ≤ rnd i ∧ rnd i ≤ 1) :
    ∃ g, start_acoGraph n b t pher = .ok g ∧
      (∀ fuel, n + 2 ≤ fuel → ∃ g1 path, g.generatePath rnd fuel = ⟨g1, .ok path⟩ ∧
        path.length - 1 = n + 1 ∧ path.getLast? = some (n * b + 1)) ∧
      (∀ fuel, fuel < n + 2 → (g.generatePath rnd fuel).result = .error .outOfFuel) := by
  obtain ⟨g, hg, hbuilt, _⟩ := start_acoGraph_built n b t pher hn hb
  have h := generatePath_built n b pher rnd hn hb hpher (fun i => (hrnd i).2) g hbuilt
  refine ⟨g, hg, fun fuel hfuel => ?_, h.2⟩
  obtain ⟨g1, tail, hrun, _, _, _, ⟨hlen, _, hsink⟩, _⟩ := h.1 fuel hfuel
  refine ⟨g1, 0 :: tail, hrun, by rw [List.length_cons, hlen]; omega, ?_⟩
  rw [List.getLast?_eq_getElem?, List.length_cons, hlen]
  simpa using hsink

/-- C5 for 3 items and 2 bins: the sink is node 7, reached after 4 edges. -/
theorem C5_generatePath_terminates_witness :
    ∃ g, start_acoGraph 3 2 1 (fun _ => 1 / 2) = .ok g ∧
      (∀ fuel, 3 + 2 ≤ fuel → ∃ g1 path, g.generatePath (fun _ => 1) fuel = ⟨g1, .ok path⟩ ∧
        path.length - 1 = 3 + 1 ∧ path.getLast? = some (3 * 2 + 1)) ∧
      (∀ fuel, fuel < 3 + 2 →
        (g.generatePath (fun _ => 1) fuel).result = .error .outOfFuel) :=
  C5_generatePath_terminates 3 2 1 (fun _ => 1 / 2) (fun _ => 1) (by decide) (by decide)
    (fun _ => by norm_num) (fun _ => by norm_num)

/-! ## The generated path in the graph -/

theorem route_elem (n b : Nat) (tail : List Nat) (h : RouteFrom n b 0 tail) (i v : Nat)
    (hv : (0 :: tail)[i]? = some v) :
    (i = 0 ∧ v = 0) ∨ (∃ k, i = k + 1 ∧ k < n ∧ k * b + 1 ≤ v ∧ v ≤ k * b + b) ∨
      (i = n + 1 ∧ v = n * b + 1) := by
  obtain ⟨hlen, hlayers, hsink⟩ := h
  cases i with
  | zero =>
    left
    simp only [List.getElem?_cons_zero, Option.some.injEq] at hv
    exact ⟨rfl, hv.symm⟩
  | succ k =>
    right
    rw [List.getElem?_cons_succ] at hv
    by_cases hk : k < n
    · left
      obtain ⟨w, hw, hw1, hw2⟩ := hlayers k (by omega)
      rw [Nat.zero_add] at hw1 hw2
      rw [hw] at hv
      injection hv with hv
      subst hv
      exact ⟨k, rfl, hk, hw1, hw2⟩
    · right
      have hkn : k = n := by
        by_contra hne
        rw [List.getElem?_eq_none (by omega)] at hv
        cases hv
      subst hkn
      rw [Nat.sub_zero] at hsink
      rw [hsink] at hv
      injection hv with hv
      exact ⟨rfl, hv.symm⟩

theorem built_edgeAt_root (n b : Nat) (pher : Nat → ℚ) (g : Graph) (hg : Built n b pher g)
    (i : Nat) (hi : i < b) : g.edgeAt 0 i = some (i + 1, pher i, 1) := by
  unfold Graph.edgeAt
  rw [hg.adj.root]
  simp only [List.getElem?_map, List.getElem?_range hi, Option.map_some']

theorem built_edgeAt_inner (n b : Nat) (pher : Nat → ℚ) (g : Graph) (hg : Built n b pher g)
    (k j i : Nat) (hk : k + 1 < n) (hj : j < b) (hi : i < b) :
    ∃ p, g.edgeAt (k * b + j + 1) i = some ((k + 1) * b + i + 1, p, j + 1) := by
  obtain ⟨d, hnode⟩ := hg.adj.node k j (by omega) hj
  rw [builtNode, if_pos hk] at hnode
  refine ⟨pher (d + i), ?_⟩
  unfold Graph.edgeAt
  rw [hnode]
  simp only [List.getElem?_map, List.getElem?_range hi, Option.map_some']

theorem built_edgeAt_final (n b : Nat) (pher : Nat → ℚ) (g : Graph) (hg : Built n b pher g)
    (k j : Nat) (hk : k + 1 = n) (hj : j < b) :
    g.edgeAt (k * b + j + 1) 0 = some (n * b + 1, 1, j + 1) := by
  obtain ⟨d, hnode⟩ := hg.adj.node k j (by omega) hj
  have hlast : ¬ (k + 1 < n) := by omega
  rw [builtNode, if_neg hlast] at hnode
  unfold Graph.edgeAt
  rw [hnode]
  rfl

/-- Two consecutive nodes of a path through the layers of a built graph are
joined by an edge. -/
theorem route_consecutive_edge (n b : Nat) (pher : Nat → ℚ) (hn : 0 < n) (g : Graph)
    (hg : Built n b pher g) (tail : List Nat) (h : RouteFrom n b 0 tail) (i s d : Nat)
    (hs : (0 :: tail)[i]? = some s) (hd : (0 :: tail)[i + 1]? = some d) :
    ∃ j p bin, g.edgeAt s j = some (d, p, bin) := by
  rcases route_elem n b tail h i s hs with ⟨hi, hs0⟩ | ⟨k, hi, hk, hs1, hs2⟩ | ⟨hi, _⟩
  · subst hi; subst hs0
    rcases route_elem n b tail h 1 d hd with ⟨h0, _⟩ | ⟨k, hk0, _, hd1, hd2⟩ | ⟨hn1, _⟩
    · omega
    · have hk : k = 0 := by omega
      subst hk
      rw [Nat.zero_mul, Nat.zero_add] at hd1 hd2
      refine ⟨d - 1, pher (d - 1), 1, ?_⟩
      have := built_edgeAt_root n b pher g hg (d - 1) (by omega)
      rw [this]
      congr 2
      omega
    · omega
  · subst hi
    obtain ⟨j, hj, rfl⟩ : ∃ j, j < b ∧ s = k * b + j + 1 := ⟨s - k * b - 1, by omega, by omega⟩
    rcases route_elem n b tail h (k + 1 + 1) d hd with ⟨h0, _⟩ | ⟨k1, hk1, hk1n, hd1, hd2⟩ |
      ⟨hn, hdn⟩
    · omega
    · have hkk : k1 = k + 1 := by omega
      subst hkk
      obtain ⟨p, hp⟩ := built_edgeAt_inner n b pher g hg k j (d - (k + 1) * b - 1) hk1n hj
        (by omega)
      refine ⟨d - (k + 1) * b - 1, p, j + 1, ?_⟩
      rw [hp]
      congr 2
      omega
    · subst hdn
      exact ⟨0, 1, j + 1, built_edgeAt_final n b pher g hg k j (by omega) hj⟩
  · subst hi
    rw [List.getElem?_eq_none (by rw [List.length_cons, h.1]; omega)] at hd
    cases hd

/-- C4: on every graph produced by the builder for at least one item and one
bin, with pheromone draws and selection draws in `[0, 1]`, the last element
of the path returned by `generatePath` is the sink `numItems * numBins + 1`,
and each element but the last has an outgoing edge whose destination is the
next element. -/
theorem C4_generatePath_ends_at_sink_along_edges (n b t : Nat) (pher rnd : Nat → ℚ)
    (hn : 1 ≤ n) (hb : 1 ≤ b) (hpher : ∀ i, 0 ≤ pher i ∧ pher i ≤ 1)
    (hrnd : ∀ i, 0 ≤ rnd i ∧ rnd i ≤ 1) :
    ∃ g, start_acoGraph n b t pher = .ok g ∧
      ∀ fuel, n + 2 ≤ fuel → ∃ g1 path, g.generatePath rnd fuel = ⟨g1, .ok path⟩ ∧
        g1.adjList = g.adjList ∧ path.getLast? = some (n * b + 1) ∧
        ∀ i s d, path[i]? = some s → path[i + 1]? = some d →
          ∃ j p bin, g.edgeAt s j = some (d, p, bin) := by
  obtain ⟨g, hg, hbuilt, _⟩ := start_acoGraph_built n b t pher hn hb
  refine ⟨g, hg, fun fuel hfuel => ?_⟩
  obtain ⟨g1, tail, hrun, _, hadj, _, hroute, _⟩ :=
    (generatePath_built n b pher rnd hn hb (fun i => (hpher i).1) (fun i => (hrnd i).2)
      g hbuilt).1 fuel hfuel
  refine ⟨g1, 0 :: tail, hrun, hadj, ?_, ?_⟩
  · rw [List.getLast?_eq_getElem?, List.length_cons, hroute.1]
    simpa using hroute.2.2
  · intro i s d hs hd
    exact route_consecutive_edge n b pher hn g hbuilt tail hroute i s d hs hd

/-- C4 for 3 items and 2 bins, every pheromone `1/2`, every selection draw 1. -/
theorem C4_generatePath_ends_at_sink_along_edges_witness :
    ∃ g, start_acoGraph 3 2 1 (fun _ => 1 / 2) = .ok g ∧
      ∀ fuel, 3 + 2 ≤ fuel → ∃ g1 path, g.generatePath (fun _ => 1) fuel = ⟨g1, .ok path⟩ ∧
        g1.adjList = g.adjList ∧ path.getLast? = some (3 * 2 + 1) ∧
        ∀ i s d, path[i]? = some s → path[i + 1]? = some d →
          ∃ j p bin, g.edgeAt s j = some (d, p, bin) :=
  C4_generatePath_ends_at_sink_along_edges 3 2 1 (fun _ => 1 / 2) (fun _ => 1) (by decide)
    (by decide) (fun _ => by norm_num) (fun _ => by norm_num)

/-! ## Reinforcement along a generated path -/

theorem consecutive_mem_left (rest : List Nat) (s d : Nat) (h : Consecutive rest s d) :
    s ∈ rest := by
  obtain ⟨i, hi, _⟩ := h
  exact List.getElem?_mem hi

/-- On a path without repetition that ends in the sink and stays inside the
graph, the loop of `updatePheromone` completes and adds the increment exactly
to the edges that are consecutive pairs of the path. -/
theorem updatePheromoneLoop_exact (diff : ℚ) :
    ∀ (rest : List Nat) (g : Graph), rest.Nodup →
      (∃ sink, rest.getLast? = some sink ∧ (sink : Int) = (g.numNodes : Int) - 1) →
      (∀ s ∈ rest, s < g.adjList.length) →
      (Graph.updatePheromoneLoop diff rest g).result = .ok () ∧
      ∀ (s j d : Nat) (p : ℚ) (bin : Nat), g.edgeAt s j = some (d, p, bin) →
        (Consecutive rest s d →
          (Graph.updatePheromoneLoop diff rest g).graph.edgeAt s j =
            some (d, p + diff, bin)) ∧
        (¬ Consecutive rest s d →
          (Graph.updatePheromoneLoop diff rest g).graph.edgeAt s j = some (d, p, bin)) := by
  intro rest
  induction rest with
  | nil =>
    intro g _ hsink _
    obtain ⟨sink, h, _⟩ := hsink
    cases h
  | cons source rest ih =>
    intro g hnodup hsink hin
    obtain ⟨sink, hlast, hsinkeq⟩ := hsink
    have hsrcnot : source ∉ rest := (List.nodup_cons.mp hnodup).1
    have hnodup' : rest.Nodup := (List.nodup_cons.mp hnodup).2
    rw [Graph.updatePheromoneLoop]
    cases rest with
    | nil =>
      simp only [List.getLast?_singleton, Option.some.injEq] at hlast
      subst hlast
      have : ¬ ((source : Int) ≠ (g.numNodes : Int) - 1) := by simpa using hsinkeq
      rw [if_neg this]
      refine ⟨rfl, fun s j d p bin h => ⟨fun hc => ?_, fun _ => h⟩⟩
      obtain ⟨i, h1, h2⟩ := hc
      rw [List.getElem?_eq_none (by simp)] at h2
      cases h2
    | cons x xs =>
      rw [List.getLast?_cons_cons] at hlast
      have hsinkmem : sink ∈ x :: xs := List.mem_of_getLast?_eq_some hlast
      have hne : (source : Int) ≠ (g.numNodes : Int) - 1 := by
        intro h
        have : source = sink := by omega
        rw [this] at hsrcnot
        exact hsrcnot hsinkmem
      rw [if_pos hne]
      have hlt : source < g.adjList.length := hin source (List.mem_cons_self _ _)
      have hnode : g.adjList[source]? = some g.adjList[source] := List.getElem?_eq_getElem hlt
      rw [hnode]
      have hcons : ∀ s d, Consecutive (source :: x :: xs) s d ↔
          (s = source ∧ d = x) ∨ Consecutive (x :: xs) s d := by
        intro s d
        rw [consecutive_cons]
        simp only [List.head?_cons, Option.some.injEq]
        constructor
        · rintro (⟨h1, h2⟩ | h)
          · exact Or.inl ⟨h1, h2.symm⟩
          · exact Or.inr h
        · rintro (⟨h1, h2⟩ | h)
          · exact Or.inl ⟨h1, h2.symm⟩
          · exact Or.inr h
      cases hadj : g.adjList[source] with
      | nil =>
        simp only
        obtain ⟨hres, hedges⟩ := ih g hnodup' ⟨sink, hlast, hsinkeq⟩
          (fun s hs => hin s (List.mem_cons_of_mem _ hs))
        refine ⟨hres, fun s j d p bin h => ?_⟩
        have hs : s ≠ source := by
          intro hs
          subst hs
          unfold Graph.edgeAt at h
          rw [hnode, hadj] at h
          simp at h
        obtain ⟨h1, h2⟩ := hedges s j d p bin h
        refine ⟨fun hc => h1 ?_, fun hc => h2 (fun hc2 => hc ((hcons s d).mpr (Or.inr hc2)))⟩
        rcases (hcons s d).mp hc with ⟨hs', _⟩ | hc2
        · exact absurd hs' hs
        · exact hc2
      | cons e es =>
        simp only [List.head?_cons]
        obtain ⟨hres, hedges⟩ := ih
          { g with adjList := g.adjList.set source (reinforce diff x (e :: es)) } hnodup'
          ⟨sink, hlast, hsinkeq⟩
          (fun s hs => by simpa using hin s (List.mem_cons_of_mem _ hs))
        refine ⟨hres, fun s j d p bin h => ?_⟩
        have hstep := edgeAt_reinforce g source x diff (e :: es) (by rw [hnode, hadj]) s j
        rw [h] at hstep
        simp only [Option.map_some'] at hstep
        by_cases hc : s = source ∧ d = x
        · rw [if_pos hc] at hstep
          obtain ⟨_, h2⟩ := hedges s j d (p + diff) bin hstep
          have hnc : ¬ Consecutive (x :: xs) s d := by
            intro hc2
            have := consecutive_mem_left _ _ _ hc2
            rw [hc.1] at this
            exact hsrcnot this
          refine ⟨fun _ => h2 hnc, fun hn => absurd ((hcons s d).mpr (Or.inl hc)) hn⟩
        · rw [if_neg hc] at hstep
          obtain ⟨h1, h2⟩ := hedges s j d p bin hstep
          refine ⟨fun hc1 => h1 ?_, fun hn => h2 (fun hc2 => hn ((hcons s d).mpr (Or.inr hc2)))⟩
          rcases (hcons s d).mp hc1 with hc' | hc2
          · exact absurd hc' hc
          · exact hc2

theorem route_lt (n b : Nat) (tail : List Nat) (h : RouteFrom n b 0 tail) (i j v w : Nat)
    (hij : i < j) (hv : (0 :: tail)[i]? = some v) (hw : (0 :: tail)[j]? = some w) : v < w := by
  rcases route_elem n b tail h i v hv with ⟨hi, hv0⟩ | ⟨k, hi, hk, hv1, hv2⟩ | ⟨hi, hvn⟩
  · rcases route_elem n b tail h j w hw with ⟨hj, _⟩ | ⟨k, _, _, hw1, _⟩ | ⟨_, hwn⟩
    · omega
    · omega
    · omega
  · rcases route_elem n b tail h j w hw with ⟨hj, _⟩ | ⟨k1, hj, hk1, hw1, _⟩ | ⟨_, hwn⟩
    · omega
    · have : (k + 1) * b ≤ k1 * b := Nat.mul_le_mul_right b (by omega)
      rw [Nat.succ_mul] at this
      omega
    · have : (k + 1) * b ≤ n * b := Nat.mul_le_mul_right b (by omega)
      rw [Nat.succ_mul] at this
      omega
  · have hjlen : j < (0 :: tail).length := by
      by_contra hge
      rw [List.getElem?_eq_none (by omega)] at hw
      cases hw
    rw [List.length_cons, h.1] at hjlen
    omega

theorem route_nodup (n b : Nat) (tail : List Nat) (h : RouteFrom n b 0 tail) :
    (0 :: tail).Nodup := by
  rw [List.nodup_iff_getElem?_ne_getElem?]
  intro i j hij hj heq
  have hi : i < (0 :: tail).length := by omega
  have hv := List.getElem?_eq_getElem hi
  have hw := List.getElem?_eq_getElem hj
  have hlt := route_lt n b tail h i j _ _ hij hv hw
  rw [hv, hw] at heq
  injection heq with heq
  omega

theorem route_bound (n b : Nat) (tail : List Nat) (h : RouteFrom n b 0 tail) (s : Nat)
    (hs : s ∈ 0 :: tail) : s < n * b + 2 := by
  obtain ⟨i, hi⟩ := List.mem_iff_getElem?.mp hs
  rcases route_elem n b tail h i s hi with ⟨_, hv0⟩ | ⟨k, _, hk, _, hv2⟩ | ⟨_, hvn⟩
  · omega
  · have : (k + 1) * b ≤ n * b := Nat.mul_le_mul_right b (by omega)
    rw [Nat.succ_mul] at this
    omega
  · omega

/-- C8: on every graph produced by the builder for at least one item and one
bin, for the path returned by `generatePath` and every fitness `f > 0`,
`updatePheromone(path, f)` completes, and the pheromone of an edge becomes
`p + 100 / f` when the edge joins two consecutive nodes of the path and stays
`p` otherwise: each edge of the path is incremented exactly once. -/
theorem C8_updatePheromone_adds_on_path (n b t : Nat) (pher rnd : Nat → ℚ)
    (hn : 1 ≤ n) (hb : 1 ≤ b) (hpher : ∀ i, 0 ≤ pher i ∧ pher i ≤ 1)
    (hrnd : ∀ i, 0 ≤ rnd i ∧ rnd i ≤ 1) (f : Int) (hf : 0 < f) :
    ∃ g, start_acoGraph n b t pher = .ok g ∧
      ∀ fuel, n + 2 ≤ fuel → ∃ g1 path, g.generatePath rnd fuel = ⟨g1, .ok path⟩ ∧
        g1.adjList = g.adjList ∧ (g1.updatePheromone path f).result = .ok () ∧
        ∀ (s j d : Nat) (p : ℚ) (bin : Nat), g1.edgeAt s j = some (d, p, bin) →
          (Consecutive path s d →
            (g1.updatePheromone path f).graph.edgeAt s j = some (d, p + 100 / (f : ℚ), bin)) ∧
          (¬ Consecutive path s d →
            (g1.updatePheromone path f).graph.edgeAt s j = some (d, p, bin)) := by
  obtain ⟨g, hg, hbuilt, _⟩ := start_acoGraph_built n b t pher hn hb
  refine ⟨g, hg, fun fuel hfuel => ?_⟩
  obtain ⟨g1, tail, hrun, hb1, hadj, _, hroute, _⟩ :=
    (generatePath_built n b pher rnd hn hb (fun i => (hpher i).1) (fun i => (hrnd i).2)
      g hbuilt).1 fuel hfuel
  have hne : f ≠ 0 := by omega
  have hlast : (0 :: tail).getLast? = some (n * b + 1) := by
    rw [List.getLast?_eq_getElem?, List.length_cons, hroute.1]
    simpa using hroute.2.2
  have h := updatePheromoneLoop_exact (100 / (f : ℚ)) (0 :: tail) g1
    (route_nodup n b tail hroute)
    ⟨n * b + 1, hlast, by rw [hb1.numNodes_eq]; push_cast; omega⟩
    (fun s hs => by rw [hb1.adj.length_eq]; exact route_bound n b tail hroute s hs)
  refine ⟨g1, 0 :: tail, hrun, hadj, ?_⟩
  unfold Graph.updatePheromone
  rw [if_neg hne]
  exact h

/-- C8 for 3 items and 2 bins with fitness 100; evaluated on the path
`[0, 2, 4, 6, 7]`, fitness 100 adds 1 and fitness 50 adds 2 to each of its
four edges and to no other edge. -/
theorem C8_updatePheromone_adds_on_path_witness :
    (∃ g, start_acoGraph 3 2 1 (fun _ => 1 / 2) = .ok g ∧
      ∀ fuel, 3 + 2 ≤ fuel → ∃ g1 path, g.generatePath (fun _ => 1) fuel = ⟨g1, .ok path⟩ ∧
        g1.adjList = g.adjList ∧ (g1.updatePheromone path 100).result = .ok () ∧
        ∀ (s j d : Nat) (p : ℚ) (bin : Nat), g1.edgeAt s j = some (d, p, bin) →
          (Consecutive path s d →
            (g1.updatePheromone path 100).graph.edgeAt s j =
              some (d, p + 100 / ((100 : Int) : ℚ), bin)) ∧
          (¬ Consecutive path s d →
            (g1.updatePheromone path 100).graph.edgeAt s j = some (d, p, bin))) ∧
    (scenarioGraph.updatePheromone [0, 2, 4, 6, 7] 100).graph.adjList =
      [[(1, 1/2, 1), (2, 1/2 + 1, 1)],
       [(3, 1/2, 1), (4, 1/2, 1)],
       [(3, 1/2, 2), (4, 1/2 + 1, 2)],
       [(5, 1/2, 1), (6, 1/2, 1)],
       [(5, 1/2, 2), (6, 1/2 + 1, 2)],
       [(7, 1, 1)],
       [(7, 1 + 1, 2)],
       []] ∧
    (scenarioGraph.updatePheromone [0, 2, 4, 6, 7] 50).graph.adjList =
      [[(1, 1/2, 1), (2, 1/2 + 2, 1)],
       [(3, 1/2, 1), (4, 1/2, 1)],
       [(3, 1/2, 2), (4, 1/2 + 2, 2)],
       [(5, 1/2, 1), (6, 1/2, 1)],
       [(5, 1/2, 2), (6, 1/2 + 2, 2)],
       [(7, 1, 1)],
       [(7, 1 + 2, 2)],
       []] :=
  ⟨C8_updatePheromone_adds_on_path 3 2 1 (fun _ => 1 / 2) (fun _ => 1) (by decide) (by decide)
    (fun _ => by norm_num) (fun _ => by norm_num) 100 (by decide), by decide!, by decide!⟩

/-! ## The weight placed by a generated path -/

theorem getD_le_sum (bins : List Nat) : ∀ j, bins.getD j 0 ≤ bins.sum := by
  induction bins with
  | nil => intro j; simp
  | cons x xs ih =>
    intro j
    cases j with
    | zero => simp
    | succ j =>
      simp only [List.getD_cons_succ, List.sum_cons]
      have := ih j
      omega

theorem sum_set_add (bins : List Nat) : ∀ (j w : Nat), j < bins.length →
    (bins.set j (bins.getD j 0 + w)).sum = bins.sum + w := by
  induction bins with
  | nil => intro j w hj; simp at hj
  | cons x xs ih =>
    intro j w hj
    cases j with
    | zero =>
      simp only [List.set_cons_zero, List.getD_cons_zero, List.sum_cons]
      omega
    | succ j =>
      simp only [List.set_cons_succ, List.getD_cons_succ, List.sum_cons]
      rw [ih j w (by simpa using hj)]
      omega

theorem place_sum (g : Graph) (j currItem : Nat) (hj : j < g.bins.length)
    (hsmall : g.bins.sum + itemWeight g.problemType currItem < UINT_RANGE) :
    (g.place j currItem).bins.sum = g.bins.sum + itemWeight g.problemType currItem := by
  have hle := getD_le_sum g.bins j
  unfold Graph.place
  simp only
  rw [Nat.mod_eq_of_lt (by omega)]
  exact sum_set_add g.bins j _ hj

theorem weightTotal_succ (t first count : Nat) :
    weightTotal t first (count + 1) = itemWeight t first + weightTotal t (first + 1) count := by
  unfold weightTotal
  rw [List.range_succ_eq_map]
  simp only [List.map_cons, List.map_map, List.sum_cons, Nat.add_zero]
  congr 2
  apply List.map_congr_left
  intro i _
  simp only [Function.comp, Nat.succ_eq_add_one]
  congr 1
  omega

/-- As long as the running total stays below `2^32`, the bins gain exactly
the weights placed. -/
theorem placeAll_sum (b : Nat) (hb : 0 < b) :
    ∀ (vs : List Nat) (g : Graph) (currItem : Nat), g.bins.length = b →
      g.bins.sum + weightTotal g.problemType currItem vs.length < UINT_RANGE →
      (placeAll b g currItem vs).bins.sum =
        g.bins.sum + weightTotal g.problemType currItem vs.length := by
  intro vs
  induction vs with
  | nil =>
    intro g currItem _ _
    simp [placeAll, weightTotal]
  | cons v vs ih =>
    intro g currItem hlen hsmall
    rw [List.length_cons, weightTotal_succ] at hsmall ⊢
    have hj : (v - 1) % b < g.bins.length := by rw [hlen]; exact Nat.mod_lt _ hb
    have hstep := place_sum g ((v - 1) % b) currItem hj (by omega)
    have hpt : (g.place ((v - 1) % b) currItem).problemType = g.problemType := rfl
    rw [placeAll, ih (g.place ((v - 1) % b) currItem) (currItem + 1)
      (by simp [Graph.place, hlen]) (by rw [hstep, hpt]; omega), hstep, hpt]
    omega

/-- On a built graph `generatePath` leaves in the bins the weights of the
item counters `0, ..., numItems`, one more than there are items, provided
their total is below `2^32`. -/
theorem generatePath_bins_sum (n b : Nat) (pher rnd : Nat → ℚ) (hn : 0 < n) (hb : 0 < b)
    (hpher : ∀ i, 0 ≤ pher i) (hrnd : ∀ i, rnd i ≤ 1) (g : Graph) (hg : Built n b pher g)
    (hsmall : weightTotal g.problemType 0 (n + 1) < UINT_RANGE) (fuel : Nat)
    (hfuel : n + 2 ≤ fuel) :
    (g.generatePath rnd fuel).graph.bins.sum = weightTotal g.problemType 0 (n + 1) := by
  obtain ⟨g1, tail, hrun, _, _, _, hroute, hplace⟩ :=
    (generatePath_built n b pher rnd hn hb hpher hrnd g hg).1 fuel hfuel
  rw [hrun]
  simp only
  rw [hplace]
  have hlen : tail.dropLast.length = n := by
    rw [List.length_dropLast, hroute.1]
    omega
  have hzero : g.emptyBins.bins.sum = 0 := by
    simp [Graph.emptyBins]
  have hpt : g.emptyBins.problemType = g.problemType := rfl
  have hblen : g.emptyBins.bins.length = b := by
    simp [Graph.emptyBins, hg.bins_length]
  rw [weightTotal_succ, Nat.zero_add] at hsmall ⊢
  have h0 := place_sum g.emptyBins 0 0 (by omega) (by rw [hzero, hpt]; omega)
  rw [hzero, hpt, Nat.zero_add] at h0
  have hpt1 : (g.emptyBins.place 0 0).problemType = g.problemType := rfl
  rw [placeAll_sum b hb tail.dropLast (g.emptyBins.place 0 0) 1
    (by simp [Graph.place, hblen]) (by rw [h0, hpt1, hlen]; omega),
    h0, hpt1, hlen]

/-- C1, evaluated. For one item, two bins and linear weights the path is
`[0, 2, 3]`, so the only item (weight 1) is assigned to bin 2 and the bins
should be `[0, 1]`; the code leaves `[1, 2]`. For the second problem of the
program (500 items, 50 bins, squares) the bins hold 42042751 in all, although
the items weigh 41791750 together, so some bin does not hold the weight of
its items. -/
theorem C1_bins_at_failing_input :
    (start_acoGraph 1 2 1 (fun _ => 1 / 2) = .ok twoBinGraph ∧
      (twoBinGraph.generatePath (fun _ => 1) 3).result = .ok [0, 2, 3] ∧
      (twoBinGraph.generatePath (fun _ => 1) 3).graph.bins = [1, 2]) ∧
    (∃ g, start_acoGraph 500 50 2 (fun _ => 1 / 2) = .ok g ∧
      ∀ fuel, 502 ≤ fuel → (g.generatePath (fun _ => 1) fuel).graph.bins.sum = 42042751) ∧
    weightTotal 2 0 500 = 41791750 := by
  refine ⟨⟨by decide!, by decide!, by decide!⟩, ?_, by decide!⟩
  obtain ⟨g, hg, hbuilt, hpt⟩ :=
    start_acoGraph_built 500 50 2 (fun _ => 1 / 2) (by decide) (by decide)
  refine ⟨g, hg, fun fuel hfuel => ?_⟩
  have h := generatePath_bins_sum 500 50 (fun _ => 1 / 2) (fun _ => 1) (by decide)
    (by decide) (fun _ => by norm_num) (fun _ => le_refl _) g hbuilt
    (by rw [hpt]; decide!) fuel hfuel
  rw [h, hpt]
  decide!

/-- C2, evaluated. For three items, two bins and linear weights the items
weigh `1 + 2 + 3 = 6` together and the bins after `generatePath` hold
`[1, 9]`, 10 in all. For the first problem of the program (500 items, 10
bins, linear weights) the bins hold 125751 in all, the items weigh 125250. -/
theorem C2_bin_total_at_failing_input :
    (start_acoGraph 3 2 1 (fun _ => 1 / 2) = .ok scenarioGraph ∧
      (scenarioGraph.generatePath (fun _ => 1) 5).result = .ok [0, 2, 4, 6, 7] ∧
      (scenarioGraph.generatePath (fun _ => 1) 5).graph.bins = [1, 9] ∧
      (scenarioGraph.generatePath (fun _ => 1) 5).graph.bins.sum = 10 ∧ 1 + 2 + 3 ≠ 10) ∧
    (∃ g, start_acoGraph 500 10 1 (fun _ => 1 / 2) = .ok g ∧
      ∀ fuel, 502 ≤ fuel → (g.generatePath (fun _ => 1) fuel).graph.bins.sum = 125751) ∧
    weightTotal 1 0 500 = 125250 := by
  refine ⟨⟨by decide!, by decide!, by decide!, by decide!, by decide⟩, ?_, by decide!⟩
  obtain ⟨g, hg, hbuilt, hpt⟩ :=
    start_acoGraph_built 500 10 1 (fun _ => 1 / 2) (by decide) (by decide)
  refine ⟨g, hg, fun fuel hfuel => ?_⟩
  have h := generatePath_bins_sum 500 10 (fun _ => 1 / 2) (fun _ => 1) (by decide)
    (by decide) (fun _ => by norm_num) (fun _ => le_refl _) g hbuilt
    (by rw [hpt]; decide!) fuel hfuel
  rw [h, hpt]
  decide!

/-! ## Repeated evaporation -/

theorem edgeAt_evaporate (g : Graph) (rate : ℚ) (s j : Nat) :
    (g.evaporatePheromone rate).edgeAt s j =
      (g.edgeAt s j).map (fun e => (e.1, e.2.1 * rate, e.2.2)) := by
  simp only [Graph.edgeAt, Graph.evaporatePheromone, List.getElem?_map]
  cases g.adjList[s]? with
  | none => rfl
  | some node => simp [List.getElem?_map]

theorem edgeAt_evaporateTimes (g : Graph) (rate : ℚ) (k s j : Nat) :
    (evaporateTimes g rate k).edgeAt s j =
      (g.edgeAt s j).map (fun e => (e.1, e.2.1 * rate ^ k, e.2.2)) := by
  induction k with
  | zero =>
    simp only [evaporateTimes, pow_zero, mul_one]
    cases g.edgeAt s j <;> rfl
  | succ k ih =>
    rw [evaporateTimes, edgeAt_evaporate, ih]
    cases g.edgeAt s j with
    | none => rfl
    | some e =>
      simp only [Option.map_some', Option.some.injEq, Prod.mk.injEq, true_and, and_true]
      ring

theorem nonnegPher_iff (g : Graph) :
    NonnegPher g ↔ ∀ node ∈ g.adjList, ∀ t ∈ node, (0 : ℚ) ≤ t.2.1 := by
  constructor
  · intro h node hnode t ht
    obtain ⟨s, hs⟩ := List.mem_iff_getElem?.mp hnode
    obtain ⟨j, hj⟩ := List.mem_iff_getElem?.mp ht
    exact h s j t.1 t.2.1 t.2.2 (by simp [Graph.edgeAt, hs, hj])
  · intro h s j d p b hedge
    unfold Graph.edgeAt at hedge
    cases hs : g.adjList[s]? with
    | none => rw [hs] at hedge; cases hedge
    | some node =>
      rw [hs] at hedge
      exact h node (List.getElem?_mem hs) (d, p, b) (List.getElem?_mem hedge)

/-- C11: on a graph whose pheromones are all `≥ 0`, with `0 < rate < 1`, the
edge at each position keeps its destination and bin through any number `k`
of calls of `evaporatePheromone(rate)`; its pheromone after `k` calls is
`≥ 0`, and the next call makes it strictly smaller and still positive when
it was positive, leaves it 0 when it was 0, and never makes it larger or
negative. -/
theorem C11_evaporatePheromone_decreases (g : Graph) (rate : ℚ) (hnonneg : NonnegPher g)
    (h0 : 0 < rate) (h1 : rate < 1) (k s j d : Nat) (p : ℚ) (b : Nat)
    (hedge : (evaporateTimes g rate k).edgeAt s j = some (d, p, b)) :
    0 ≤ p ∧ ∃ p1, (evaporateTimes g rate (k + 1)).edgeAt s j = some (d, p1, b) ∧
      (0 < p → 0 < p1 ∧ p1 < p) ∧ (p = 0 → p1 = 0) ∧ p1 ≤ p ∧ 0 ≤ p1 := by
  have hp : 0 ≤ p := by
    rw [edgeAt_evaporateTimes] at hedge
    cases he : g.edgeAt s j with
    | none => rw [he] at hedge; cases hedge
    | some e =>
      rw [he] at hedge
      simp only [Option.map_some', Option.some.injEq, Prod.mk.injEq] at hedge
      obtain ⟨rfl, rfl, rfl⟩ := hedge
      have := hnonneg s j e.1 e.2.1 e.2.2 he
      positivity
  refine ⟨hp, p * rate, ?_, ?_, ?_, ?_, ?_⟩
  · rw [evaporateTimes, edgeAt_evaporate, hedge]
    rfl
  · intro hpos
    exact ⟨mul_pos hpos h0, by nlinarith⟩
  · intro hz
    rw [hz, zero_mul]
  · nlinarith
  · exact mul_nonneg hp (le_of_lt h0)

/-- C11 on the scenario graph with rate `1/2`: the pheromone `1/2` of the
first root edge is `1/8` after two calls and `1/16` after the third. -/
theorem C11_evaporatePheromone_decreases_witness :
    (0 : ℚ) ≤ 1 / 8 ∧ ∃ p1, (evaporateTimes scenarioGraph (1 / 2) (2 + 1)).edgeAt 0 0 =
        some (1, p1, 1) ∧
      ((0 : ℚ) < 1 / 8 → 0 < p1 ∧ p1 < 1 / 8) ∧ ((1 / 8 : ℚ) = 0 → p1 = 0) ∧ p1 ≤ 1 / 8 ∧
      0 ≤ p1 :=
  C11_evaporatePheromone_decreases scenarioGraph (1 / 2)
    (by rw [nonnegPher_iff]; decide!)
    (by norm_num) (by norm_num) 2 0 0 1 (1 / 8) 1 (by decide!)

/-! ## Path generation starts from empty bins -/

theorem emptyBins_with_bins (g : Graph) (bins1 : List Nat) (hlen : bins1.length = g.bins.length) :
    Graph.emptyBins { g with bins := bins1 } = g.emptyBins := by
  unfold Graph.emptyBins
  simp only [Graph.mk.injEq, and_self, and_true]
  rw [List.map_const', List.map_const', hlen]

/-- C12: `generatePath` runs its loop on the state with every bin set to 0,
so for a state that differs from `g` only in the values of the bin
accumulators, the same draws give the same path, the same fault if any, the
same bins and the same fitness. -/
theorem C12_generatePath_ignores_old_bins (g : Graph) (bins1 : List Nat) (rnd : Nat → ℚ)
    (fuel : Nat) (hlen : bins1.length = g.bins.length) :
    (∀ x ∈ g.emptyBins.bins, x = 0) ∧ g.emptyBins.adjList = g.adjList ∧
    g.generatePath rnd fuel = Graph.generatePathLoop rnd fuel g.emptyBins 0 0 [] 0 ∧
    (Graph.generatePath { g with bins := bins1 } rnd fuel).result =
      (g.generatePath rnd fuel).result ∧
    (Graph.generatePath { g with bins := bins1 } rnd fuel).graph.bins =
      (g.generatePath rnd fuel).graph.bins ∧
    (Graph.generatePath { g with bins := bins1 } rnd fuel).graph.getFitness.result =
      (g.generatePath rnd fuel).graph.getFitness.result := by
  have h : Graph.generatePath { g with bins := bins1 } rnd fuel = g.generatePath rnd fuel := by
    unfold Graph.generatePath
    rw [emptyBins_with_bins g bins1 hlen]
  refine ⟨?_, rfl, rfl, by rw [h], by rw [h], by rw [h]⟩
  intro x hx
  simp only [Graph.emptyBins, List.mem_map] at hx
  obtain ⟨_, _, rfl⟩ := hx
  rfl

/-- C12 on the scenario graph: bins left at 4 and 2 by an earlier call do not
change what the next call returns. -/
theorem C12_generatePath_ignores_old_bins_witness :
    (∀ x ∈ scenarioGraph.emptyBins.bins, x = 0) ∧
    scenarioGraph.emptyBins.adjList = scenarioGraph.adjList ∧
    scenarioGraph.generatePath (fun _ => 1) 5 =
      Graph.generatePathLoop (fun _ => 1) 5 scenarioGraph.emptyBins 0 0 [] 0 ∧
    (Graph.generatePath { scenarioGraph with bins := [4, 2] } (fun _ => 1) 5).result =
      (scenarioGraph.generatePath (fun _ => 1) 5).result ∧
    (Graph.generatePath { scenarioGraph with bins := [4, 2] } (fun _ => 1) 5).graph.bins =
      (scenarioGraph.generatePath (fun _ => 1) 5).graph.bins ∧
    (Graph.generatePath { scenarioGraph with bins := [4, 2] }
        (fun _ => 1) 5).graph.getFitness.result =
      (scenarioGraph.generatePath (fun _ => 1) 5).graph.getFitness.result :=
  C12_generatePath_ignores_old_bins scenarioGraph [4, 2] (fun _ => 1) 5 rfl

/-! ## The edges built by `start` -/

theorem start_drawEdges_layer_edges (pher : Nat → ℚ) (s bin b L d : Nat) :
    (start_drawEdges pher s bin (start_layer b L) d).1 =
      (List.range b).map (fun i => (⟨s, L + i + 1, pher (d + i), bin⟩ : Edge)) := by
  apply List.ext_getElem?
  intro i
  rw [start_drawEdges_getElem?, List.getElem?_map]
  by_cases hi : i < b
  · rw [start_layer_getElem? b L i hi, List.getElem?_range hi]
    simp only [Option.map_some', Option.some.injEq, Edge.mk.injEq, and_true, true_and]
    omega
  · rw [List.getElem?_eq_none (by rw [start_layer_length]; omega),
      List.getElem?_eq_none (by simp; omega)]
    rfl

theorem start_edges_spec (n b : Nat) (pher : Nat → ℚ) (hn : 0 < n) (hb : 0 < b) :
    ∃ es, start_edges n b pher =
        .ok ((List.range b).map (fun i => (⟨0, i + 1, pher i, 1⟩ : Edge)) ++ es) ∧
      ∀ e ∈ es, 1 ≤ e.source ∧ e.source ≤ n * b := by
  have hnodes : ∀ w ∈ (List.range (n * b)).map (fun i => i + 1), 1 ≤ w ∧ w ≤ n * b := by
    intro w hw
    obtain ⟨i, hi, rfl⟩ := List.mem_map.mp hw
    have := List.mem_range.mp hi
    omega
  have hnodup : ((List.range (n * b)).map (fun i => i + 1)).Nodup := by
    apply List.Nodup.map _ (List.nodup_range _)
    intro x y h
    simpa using h
  obtain ⟨es, hes, hsrc, _⟩ := start_nodesLoop_spec n b hb pher _
    (start_drawEdges pher 0 1 (start_layer b 0) 0).2 hnodes hnodup
  refine ⟨es, ?_, fun e he => hnodes _ (hsrc e he)⟩
  have hroot := start_drawEdges_layer_edges pher 0 1 b 0 0
  simp only [Nat.zero_add] at hroot
  rw [← hroot]
  unfold start_edges
  simp only [start_subVecs]
  rw [start_subVecsFrom_getElem? b n 0 0 hn]
  simp only [Nat.zero_mul, Nat.add_zero]
  have := hes
  simp only [start_subVecs] at this
  rw [this]

/-- C13 (as amended): for at least one item and one bin, the edges built with
source 0 are exactly `numBins` edges, one to each layer-0 node
`1, ..., numBins` in this order, and every one of them carries bin 1; they
make up the edge list of node 0 of the graph. -/
theorem C13_root_edges_carry_bin_one (n b t : Nat) (pher : Nat → ℚ) (hn : 1 ≤ n)
    (hb : 1 ≤ b) :
    ∃ edges g, start_edges n b pher = .ok edges ∧ start_acoGraph n b t pher = .ok g ∧
      edges.filter (fun e => e.source = 0) =
        (List.range b).map (fun i => (⟨0, i + 1, pher i, 1⟩ : Edge)) ∧
      g.adjList[0]? = some ((List.range b).map (fun i => (i + 1, pher i, 1))) := by
  obtain ⟨es, hes, hsrc⟩ := start_edges_spec n b pher hn hb
  obtain ⟨g, hg, _, _, _, _, hadj⟩ := start_acoGraph_spec n b t pher hn hb
  refine ⟨_, g, hes, hg, ?_, hadj.root⟩
  rw [List.filter_append]
  have h1 : ((List.range b).map (fun i => (⟨0, i + 1, pher i, 1⟩ : Edge))).filter
      (fun e => e.source = 0) = (List.range b).map (fun i => (⟨0, i + 1, pher i, 1⟩ : Edge)) := by
    rw [List.filter_eq_self]
    intro e he
    obtain ⟨i, _, rfl⟩ := List.mem_map.mp he
    simp
  have h2 : es.filter (fun e => e.source = 0) = [] := by
    rw [List.filter_eq_nil_iff]
    intro e he
    have := (hsrc e he).1
    simp only [decide_eq_true_eq]
    omega
  rw [h1, h2, List.append_nil]

/-- C13 (as amended) for one item and two bins, every drawn pheromone `1/2`. -/
theorem C13_root_edges_carry_bin_one_witness :
    ∃ edges g, start_edges 1 2 (fun _ => 1 / 2) = .ok edges ∧
      start_acoGraph 1 2 1 (fun _ => 1 / 2) = .ok g ∧
      edges.filter (fun e => e.source = 0) =
        (List.range 2).map (fun i => (⟨0, i + 1, (fun _ => 1 / 2) i, 1⟩ : Edge)) ∧
      g.adjList[0]? = some ((List.range 2).map (fun i => (i + 1, (fun _ => 1 / 2) i, 1))) :=
  C13_root_edges_carry_bin_one 1 2 1 (fun _ => 1 / 2) (by decide) (by decide)

/-- C13 fails as stated: for one item and two bins the root edge to node 2
carries bin 1, not bin 2. -/
theorem C13_root_edges_counterexample :
    start_edges 1 2 (fun _ => 1 / 2) =
      .ok [⟨0, 1, 1 / 2, 1⟩, ⟨0, 2, 1 / 2, 1⟩, ⟨1, 3, 1, 1⟩, ⟨2, 3, 1, 2⟩] ∧
    start_acoGraph 1 2 1 (fun _ => 1 / 2) = .ok twoBinGraph ∧
    twoBinGraph.edgeAt 0 1 = some (2, 1 / 2, 1) ∧ (1 : Nat) ≠ 2 := by
  refine ⟨by decide!, by decide!, by decide!, by decide⟩

/-- C14: for at least two items and one bin, the node `k * numBins + b` of a
layer `k ≤ numItems - 2`, `1 ≤ b ≤ numBins`, has in the built graph exactly
the `numBins` edges to `(k+1) * numBins + 1, ..., (k+1) * numBins + numBins`,
in this order, each with a drawn pheromone and with bin `b`. -/
theorem C14_interior_edges (n b t : Nat) (pher : Nat → ℚ) (hn : 2 ≤ n) (hb : 1 ≤ b) :
    ∃ g, start_acoGraph n b t pher = .ok g ∧
      ∀ k bb, k ≤ n - 2 → 1 ≤ bb → bb ≤ b →
        ∃ d node, g.adjList[k * b + bb]? = some node ∧ node.length = b ∧
          node = (List.range b).map (fun i => ((k + 1) * b + i + 1, pher (d + i), bb)) ∧
          ∀ i, i < b → g.edgeAt (k * b + bb) i = some ((k + 1) * b + (i + 1), pher (d + i), bb) := by
  obtain ⟨g, hg, _, _, _, _, hadj⟩ := start_acoGraph_spec n b t pher (by omega) hb
  refine ⟨g, hg, fun k bb hk hb1 hb2 => ?_⟩
  obtain ⟨d, hnode⟩ := hadj.node k (bb - 1) (by omega) (by omega)
  have e1 : k * b + (bb - 1) + 1 = k * b + bb := by omega
  have e2 : bb - 1 + 1 = bb := by omega
  rw [builtNode, if_pos (by omega), e1, e2] at hnode
  refine ⟨d, _, hnode, by simp, rfl, fun i hi => ?_⟩
  unfold Graph.edgeAt
  rw [hnode]
  simp only [List.getElem?_map, List.getElem?_range hi, Option.map_some']
  rfl

/-- C14 for three items and two bins, every drawn pheromone `1/2`. -/
theorem C14_interior_edges_witness :
    ∃ g, start_acoGraph 3 2 1 (fun _ => 1 / 2) = .ok g ∧
      ∀ k bb, k ≤ 3 - 2 → 1 ≤ bb → bb ≤ 2 →
        ∃ d node, g.adjList[k * 2 + bb]? = some node ∧ node.length = 2 ∧
          node = (List.range 2).map
            (fun i => ((k + 1) * 2 + i + 1, (fun _ => (1 / 2 : ℚ)) (d + i), bb)) ∧
          ∀ i, i < 2 →
            g.edgeAt (k * 2 + bb) i =
              some ((k + 1) * 2 + (i + 1), (fun _ => (1 / 2 : ℚ)) (d + i), bb) :=
  C14_interior_edges 3 2 1 (fun _ => 1 / 2) (by decide) (by decide)

/-- C15: for at least one item and one bin, the last-layer node
`(numItems - 1) * numBins + b`, `1 ≤ b ≤ numBins`, has in the built graph
exactly one edge: to the sink `numItems * numBins + 1`, with pheromone 1 and
bin `b`; the sink, the last node of the graph, has no edge. -/
theorem C15_final_layer_edges (n b t : Nat) (pher : Nat → ℚ) (hn : 1 ≤ n) (hb : 1 ≤ b) :
    ∃ g, start_acoGraph n b t pher = .ok g ∧
      (∀ bb, 1 ≤ bb → bb ≤ b →
        g.adjList[(n - 1) * b + bb]? = some [(n * b + 1, 1, bb)]) ∧
      g.adjList[n * b + 1]? = some [] ∧ g.adjList.length = n * b + 2 ∧
      g.numNodes = n * b + 2 := by
  obtain ⟨g, hg, _, _, hnn, _, hadj⟩ := start_acoGraph_spec n b t pher hn hb
  refine ⟨g, hg, fun bb hb1 hb2 => ?_, hadj.sink, hadj.length_eq, hnn⟩
  obtain ⟨d, hnode⟩ := hadj.node (n - 1) (bb - 1) (by omega) (by omega)
  have e1 : (n - 1) * b + (bb - 1) + 1 = (n - 1) * b + bb := by omega
  have e2 : bb - 1 + 1 = bb := by omega
  rw [builtNode, if_neg (by omega), e1, e2] at hnode
  exact hnode

/-- C15 for three items and two bins: nodes 5 and 6 lead to the sink 7. -/
theorem C15_final_layer_edges_witness :
    ∃ g, start_acoGraph 3 2 1 (fun _ => 1 / 2) = .ok g ∧
      (∀ bb, 1 ≤ bb → bb ≤ 2 →
        g.adjList[(3 - 1) * 2 + bb]? = some [(3 * 2 + 1, 1, bb)]) ∧
      g.adjList[3 * 2 + 1]? = some [] ∧ g.adjList.length = 3 * 2 + 2 ∧
      g.numNodes = 3 * 2 + 2 :=
  C15_final_layer_edges 3 2 1 (fun _ => 1 / 2) (by decide) (by decide)

/-! ## Degenerate inputs -/

theorem cumulative_eq_zero (cs : List Triple) (hzero : ∀ c ∈ cs, c.2.1 = 0) (i : Nat) :
    cumulative cs i = 0 := by
  unfold cumulative totalPheromone
  apply List.sum_eq_zero
  intro x hx
  obtain ⟨c, hc, rfl⟩ := List.mem_map.mp hx
  exact hzero c (List.mem_of_mem_take hc)

theorem selectIdx_all_zero (cs : List Triple) (hzero : ∀ c ∈ cs, c.2.1 = 0) (random : ℚ) :
    selectIdx cs random = 0 := by
  cases cs with
  | nil => rfl
  | cons c cs =>
    have hnonneg : ∀ x ∈ c :: cs, 0 ≤ x.2.1 := fun x hx => le_of_eq (hzero x hx).symm
    have htot : totalPheromone (c :: cs) = 0 := by
      have := cumulative_eq_zero (c :: cs) hzero (c :: cs).length
      rwa [cumulative_last _ _ (by omega)] at this
    obtain ⟨_, _, hlo⟩ := selectIdx_spec (c :: cs) random (by simp) hnonneg (by rw [htot]; simp)
    by_contra hne
    have := hlo 0 (Nat.pos_of_ne_zero hne)
    rw [cumulative_eq_zero _ hzero, htot, mul_zero] at this
    exact lt_irrefl _ this

/-- C16 (as amended): when every outgoing edge of a node has pheromone 0,
`generateIdx` returns index 0 for every draw, without an error and without
ever returning another index; for a node with no outgoing edge it returns 0
as well, without an error. -/
theorem C16_generateIdx_degenerate (g : Graph) (item : Nat) (choices : List Triple)
    (random : ℚ) (hnode : g.adjList[item]? = some choices)
    (hzero : ∀ c ∈ choices, c.2.1 = 0) :
    g.generateIdx item random = .ok 0 := by
  unfold Graph.generateIdx
  rw [hnode]
  simp only [selectIdx_all_zero choices hzero random]

/-- C16 (as amended) at the root of the graph built from pheromone draws 0,
which has two edges. -/
theorem C16_generateIdx_degenerate_witness :
    zeroGraph.generateIdx 0 (1 / 2) = .ok 0 :=
  C16_generateIdx_degenerate zeroGraph 0 [(1, 0, 1), (2, 0, 1)] (1 / 2) rfl (by decide!)

/-- C16 fails as stated: the graph built for one item and two bins from
pheromone draws 0 has a root with two edges of pheromone 0, where
`generateIdx` returns index 0 for every draw, so index 1 is never returned and
no error is raised; at the sink, which has no outgoing edge, it returns 0
instead of failing. -/
theorem C16_generateIdx_counterexample :
    start_acoGraph 1 2 1 (fun _ => 0) = .ok zeroGraph ∧
    zeroGraph.adjList[0]? = some [(1, 0, 1), (2, 0, 1)] ∧
    zeroGraph.generateIdx 0 0 = .ok 0 ∧ zeroGraph.generateIdx 0 (1 / 2) = .ok 0 ∧
    zeroGraph.generateIdx 0 1 = .ok 0 ∧
    (∀ random, zeroGraph.generateIdx 0 random = .ok 0) ∧
    zeroGraph.adjList[3]? = some [] ∧ zeroGraph.generateIdx 3 (1 / 2) = .ok 0 := by
  refine ⟨by decide!, rfl, by decide!, by decide!, by decide!, fun random => ?_, rfl,
    by decide!⟩
  unfold Graph.generateIdx
  have h : zeroGraph.adjList[0]? = some [(1, 0, 1), (2, 0, 1)] := rfl
  rw [h]
  simp only [selectIdx_all_zero [(1, 0, 1), (2, 0, 1)] (by decide!) random]

/-! ## Layered graphs with any pheromones -/

theorem set_self_of_getElem? {α : Type} (l : List α) (i : Nat) (x : α) (h : l[i]? = some x) :
    l.set i x = l := by
  apply List.ext_getElem?
  intro n
  rw [List.getElem?_set]
  by_cases hn : i = n
  · subst hn
    have hlt : i < l.length := by
      by_contra hge
      rw [List.getElem?_eq_none (by omega)] at h
      cases h
    simp [hlt, h]
  · simp [hn]

theorem skeleton_evaporate (g : Graph) (rate : ℚ) :
    skeleton (g.evaporatePheromone rate) = skeleton g := by
  simp [skeleton, Graph.evaporatePheromone, List.map_map, Function.comp]

theorem shape_reinforce (diff : ℚ) (next : Nat) (node : List Triple) :
    (reinforce diff next node).map (fun t => (t.1, t.2.2)) =
      node.map (fun t => (t.1, t.2.2)) := by
  unfold reinforce
  rw [List.map_map]
  apply List.map_congr_left
  intro t _
  simp only [Function.comp]
  split_ifs <;> rfl

theorem skeleton_updatePheromoneLoop (diff : ℚ) :
    ∀ (rest : List Nat) (g : Graph),
      skeleton (Graph.updatePheromoneLoop diff rest g).graph = skeleton g := by
  intro rest
  induction rest with
  | nil => intro g; rw [Graph.updatePheromoneLoop]
  | cons source rest ih =>
    intro g
    rw [Graph.updatePheromoneLoop]
    by_cases hsink : (source : Int) ≠ (g.numNodes : Int) - 1
    · rw [if_pos hsink]
      cases hnode : g.adjList[source]? with
      | none => rfl
      | some node =>
        cases node with
        | nil => exact ih g
        | cons e es =>
          simp only
          cases hhead : rest.head? with
          | none => rfl
          | some next =>
            simp only
            rw [ih]
            unfold skeleton
            simp only
            rw [List.map_set, shape_reinforce]
            apply set_self_of_getElem?
            rw [List.getElem?_map, hnode]
            rfl
    · rw [if_neg hsink]

theorem skeleton_updatePheromone (g : Graph) (path : List Nat) (fitness : Int) :
    skeleton (g.updatePheromone path fitness).graph = skeleton g := by
  unfold Graph.updatePheromone
  split_ifs
  · rfl
  · exact skeleton_updatePheromoneLoop _ path g

theorem node_of_skeleton (g g1 : Graph) (h : skeleton g1 = skeleton g) (s : Nat)
    (node : List Triple) (hnode : g.adjList[s]? = some node) :
    ∃ node1, g1.adjList[s]? = some node1 ∧
      node1.map (fun t => (t.1, t.2.2)) = node.map (fun t => (t.1, t.2.2)) := by
  have h1 : (skeleton g1)[s]? = (skeleton g)[s]? := by rw [h]
  unfold skeleton at h1
  rw [List.getElem?_map, List.getElem?_map, hnode] at h1
  cases hn1 : g1.adjList[s]? with
  | none => rw [hn1] at h1; cases h1
  | some node1 =>
    rw [hn1] at h1
    simp only [Option.map_some', Option.some.injEq] at h1
    exact ⟨node1, rfl, h1⟩

theorem elem_of_shape (node node1 : List Triple)
    (h : node1.map (fun t => (t.1, t.2.2)) = node.map (fun t => (t.1, t.2.2))) :
    node1.length = node.length ∧
    ∀ (i d : Nat) (p : ℚ) (bn : Nat), node[i]? = some (d, p, bn) →
      ∃ p1, node1[i]? = some (d, p1, bn) := by
  constructor
  · have := congrArg List.length h
    simpa using this
  · intro i d p bn hi
    have h1 : (node1.map (fun t => (t.1, t.2.2)))[i]? =
        (node.map (fun t => (t.1, t.2.2)))[i]? := by rw [h]
    rw [List.getElem?_map, List.getElem?_map, hi] at h1
    cases hn1 : node1[i]? with
    | none => rw [hn1] at h1; cases h1
    | some t =>
      rw [hn1] at h1
      simp only [Option.map_some', Option.some.injEq, Prod.mk.injEq] at h1
      refine ⟨t.2.1, ?_⟩
      obtain ⟨h2, h3⟩ := h1
      rw [← h2, ← h3]

/-- A state with the counters and the skeleton of a layered graph is layered. -/
theorem layered_of_skeleton (n b : Nat) (g g1 : Graph) (hg : Layered n b g)
    (hsk : skeleton g1 = skeleton g) (hnn : g1.numNodes = g.numNodes)
    (hnb : g1.numBins = g.numBins) (hlen : g1.bins.length = g.bins.length) :
    Layered n b g1 := by
  refine ⟨by rw [hnn, hg.numNodes_eq], by rw [hnb, hg.numBins_eq], by rw [hlen, hg.bins_length],
    ?_, ?_, ?_, ?_⟩
  · have := congrArg List.length hsk
    simp only [skeleton, List.length_map] at this
    rw [this, hg.length_eq]
  · obtain ⟨node, hnode, hl, hel⟩ := hg.root
    obtain ⟨node1, hnode1, hshape⟩ := node_of_skeleton g g1 hsk 0 node hnode
    obtain ⟨hl1, hel1⟩ := elem_of_shape node node1 hshape
    refine ⟨node1, hnode1, by rw [hl1, hl], fun i hi => ?_⟩
    obtain ⟨p, hp⟩ := hel i hi
    exact hel1 i _ p _ hp
  · intro k j hk hj
    obtain ⟨node, hnode, hl, hel⟩ := hg.inner k j hk hj
    obtain ⟨node1, hnode1, hshape⟩ := node_of_skeleton g g1 hsk _ node hnode
    obtain ⟨hl1, hel1⟩ := elem_of_shape node node1 hshape
    refine ⟨node1, hnode1, by rw [hl1, hl], fun i hi => ?_⟩
    obtain ⟨p, hp⟩ := hel i hi
    exact hel1 i _ p _ hp
  · intro k j hk hj
    obtain ⟨p, hnode⟩ := hg.final k j hk hj
    obtain ⟨node1, hnode1, hshape⟩ := node_of_skeleton g g1 hsk _ _ hnode
    obtain ⟨hl1, hel1⟩ := elem_of_shape _ node1 hshape
    obtain ⟨p1, hp1⟩ := hel1 0 _ p _ rfl
    refine ⟨p1, ?_⟩
    rw [hnode1]
    congr 1
    simp only [List.length_singleton] at hl1
    cases node1 with
    | nil => simp at hl1
    | cons x xs =>
      cases xs with
      | nil =>
        simp only [List.getElem?_cons_zero, Option.some.injEq] at hp1
        rw [hp1]
      | cons y ys => simp at hl1

theorem layered_of_built (n b : Nat) (pher : Nat → ℚ) (g : Graph) (hg : Built n b pher g) :
    Layered n b g := by
  refine ⟨hg.numNodes_eq, hg.numBins_eq, hg.bins_length, hg.adj.length_eq, ?_, ?_, ?_⟩
  · refine ⟨_, hg.adj.root, by simp, fun i hi => ⟨pher i, ?_⟩⟩
    simp only [List.getElem?_map, List.getElem?_range hi, Option.map_some']
  · intro k j hk hj
    obtain ⟨d, hnode⟩ := hg.adj.node k j (by omega) hj
    rw [builtNode, if_pos hk] at hnode
    refine ⟨_, hnode, by simp, fun i hi => ⟨pher (d + i), ?_⟩⟩
    simp only [List.getElem?_map, List.getElem?_range hi, Option.map_some']
  · intro k j hk hj
    obtain ⟨d, hnode⟩ := hg.adj.node k j (by omega) hj
    rw [builtNode, if_neg (by omega)] at hnode
    exact ⟨1, hnode⟩

theorem edgeAt_of_skeleton (g g1 : Graph) (h : skeleton g1 = skeleton g) (s j d : Nat)
    (p1 : ℚ) (bn : Nat) (hedge : g1.edgeAt s j = some (d, p1, bn)) :
    ∃ p, g.edgeAt s j = some (d, p, bn) := by
  unfold Graph.edgeAt at hedge ⊢
  cases hn1 : g1.adjList[s]? with
  | none => rw [hn1] at hedge; cases hedge
  | some node1 =>
    rw [hn1] at hedge
    obtain ⟨node, hnode, hshape⟩ := node_of_skeleton g1 g h.symm s node1 hn1
    rw [hnode]
    exact (elem_of_shape node1 node hshape).2 j d p1 bn hedge

theorem updatePheromone_edge (g : Graph) (path : List Nat) (fitness : Int)
    (hf : 0 < fitness) (s j d : Nat) (p1 : ℚ) (bn : Nat)
    (hedge : (g.updatePheromone path fitness).graph.edgeAt s j = some (d, p1, bn)) :
    ∃ p, g.edgeAt s j = some (d, p, bn) ∧ p ≤ p1 := by
  obtain ⟨p, hp⟩ := edgeAt_of_skeleton g _ (skeleton_updatePheromone g path fitness) s j d p1 bn
    hedge
  have hne : fitness ≠ 0 := by omega
  have hq : (0 : ℚ) < (fitness : ℚ) := by exact_mod_cast hf
  have hd : (0 : ℚ) ≤ 100 / (fitness : ℚ) := by positivity
  have hframe := (updatePheromoneLoop_frame _ hd path g).2.2.2.2.2 s j d p bn hp
  obtain ⟨p2, hp2, hle, _⟩ := hframe
  unfold Graph.updatePheromone at hedge
  rw [if_neg hne] at hedge
  rw [hp2] at hedge
  simp only [Option.some.injEq, Prod.mk.injEq, true_and, and_true] at hedge
  exact ⟨p, hp, by rw [← hedge]; exact hle⟩

theorem nonneg_updatePheromone (g : Graph) (path : List Nat) (fitness : Int)
    (hf : 0 < fitness) (h : NonnegPher g) : NonnegPher (g.updatePheromone path fitness).graph := by
  intro s j d p1 bn hedge
  obtain ⟨p, hp, hle⟩ := updatePheromone_edge g path fitness hf s j d p1 bn hedge
  exact le_trans (h s j d p bn hp) hle

theorem pos_updatePheromone (g : Graph) (path : List Nat) (fitness : Int)
    (hf : 0 < fitness) (h : PosPher g) : PosPher (g.updatePheromone path fitness).graph := by
  intro s j d p1 bn hedge
  obtain ⟨p, hp, hle⟩ := updatePheromone_edge g path fitness hf s j d p1 bn hedge
  exact lt_of_lt_of_le (h s j d p bn hp) hle

theorem evaporate_edge (g : Graph) (rate : ℚ) (s j d : Nat) (p1 : ℚ) (bn : Nat)
    (hedge : (g.evaporatePheromone rate).edgeAt s j = some (d, p1, bn)) :
    ∃ p, g.edgeAt s j = some (d, p, bn) ∧ p1 = p * rate := by
  rw [edgeAt_evaporate] at hedge
  cases he : g.edgeAt s j with
  | none => rw [he] at hedge; cases hedge
  | some e =>
    rw [he] at hedge
    simp only [Option.map_some', Option.some.injEq, Prod.mk.injEq] at hedge
    obtain ⟨h1, h2, h3⟩ := hedge
    exact ⟨e.2.1, by rw [← h1, ← h3], h2.symm⟩

theorem nonneg_evaporatePheromone (g : Graph) (rate : ℚ) (hr : 0 ≤ rate) (h : NonnegPher g) :
    NonnegPher (g.evaporatePheromone rate) := by
  intro s j d p1 bn hedge
  obtain ⟨p, hp, rfl⟩ := evaporate_edge g rate s j d p1 bn hedge
  exact mul_nonneg (h s j d p bn hp) hr

theorem pos_evaporatePheromone (g : Graph) (rate : ℚ) (hr : 0 < rate) (h : PosPher g) :
    PosPher (g.evaporatePheromone rate) := by
  intro s j d p1 bn hedge
  obtain ⟨p, hp, rfl⟩ := evaporate_edge g rate s j d p1 bn hedge
  exact mul_pos (h s j d p bn hp) hr

theorem nonneg_of_adjList (g g1 : Graph) (h : g1.adjList = g.adjList) (hn : NonnegPher g) :
    NonnegPher g1 := by
  intro s j d p bn hedge
  unfold Graph.edgeAt at hedge
  rw [h] at hedge
  exact hn s j d p bn hedge

theorem pos_of_adjList (g g1 : Graph) (h : g1.adjList = g.adjList) (hn : PosPher g) :
    PosPher g1 := by
  intro s j d p bn hedge
  unfold Graph.edgeAt at hedge
  rw [h] at hedge
  exact hn s j d p bn hedge

theorem skeleton_of_adjList (g g1 : Graph) (h : g1.adjList = g.adjList) :
    skeleton g1 = skeleton g := by
  unfold skeleton
  rw [h]

theorem layered_place (n b : Nat) (g : Graph) (hg : Layered n b g) (j currItem : Nat) :
    Layered n b (g.place j currItem) :=
  ⟨hg.numNodes_eq, hg.numBins_eq, by simp [Graph.place, hg.bins_length], hg.length_eq, hg.root,
    hg.inner, hg.final⟩

theorem layered_emptyBins (n b : Nat) (g : Graph) (hg : Layered n b g) :
    Layered n b g.emptyBins :=
  ⟨hg.numNodes_eq, hg.numBins_eq, by simp [Graph.emptyBins, hg.bins_length], hg.length_eq,
    hg.root, hg.inner, hg.final⟩

theorem node_nonneg (g : Graph) (hnn : NonnegPher g) (v : Nat) (node : List Triple)
    (hnode : g.adjList[v]? = some node) : ∀ c ∈ node, 0 ≤ c.2.1 := by
  intro c hc
  obtain ⟨j, hj⟩ := List.mem_iff_getElem?.mp hc
  exact hnn v j c.1 c.2.1 c.2.2 (by simp [Graph.edgeAt, hnode, hj])

theorem node_pos (g : Graph) (hpos : PosPher g) (v : Nat) (node : List Triple)
    (hnode : g.adjList[v]? = some node) : ∀ c ∈ node, 0 < c.2.1 := by
  intro c hc
  obtain ⟨j, hj⟩ := List.mem_iff_getElem?.mp hc
  exact hpos v j c.1 c.2.1 c.2.2 (by simp [Graph.edgeAt, hnode, hj])

/-- One iteration at the root of a layered graph. -/
theorem layered_step_root (n b : Nat) (rnd : Nat → ℚ) (hn : 0 < n) (hb : 0 < b) (g : Graph)
    (hg : Layered n b g) (hnn : NonnegPher g) (currItem drawn : Nat) (hr : rnd drawn ≤ 1) :
    ∃ node, g.adjList[0]? = some node ∧ node.length = b ∧ selectIdx node (rnd drawn) < b ∧
      ∀ (fuel : Nat) (path : List Nat),
        Graph.generatePathLoop rnd (fuel + 1) g 0 currItem path drawn =
          Graph.generatePathLoop rnd fuel (g.place 0 currItem)
            (selectIdx node (rnd drawn) + 1) (currItem + 1) (path ++ [0]) (drawn + 1) := by
  have hnb : b ≤ n * b := Nat.le_mul_of_pos_left b hn
  obtain ⟨node, hnode, hlen, hel⟩ := hg.root
  have hsel := selectIdx_lt node (rnd drawn)
    (by intro h; rw [h] at hlen; simp at hlen; omega) (node_nonneg g hnn 0 node hnode) hr
  rw [hlen] at hsel
  obtain ⟨p, hp⟩ := hel _ hsel
  have hidx : g.generateIdx 0 (rnd drawn) = .ok (selectIdx node (rnd drawn)) := by
    simp [Graph.generateIdx, hnode]
  have htr := traverse_eq g 0 _ currItem node _ p 0 hnode hp (by rw [hg.bins_length]; omega)
  refine ⟨node, hnode, hlen, hsel, fun fuel path => ?_⟩
  apply generatePathLoop_inner rnd fuel g _ 0 currItem drawn _ _ path _ _ hidx htr
  · rw [hg.numNodes_eq]; push_cast; omega
  · rw [hg.numNodes_eq, hg.numBins_eq]; push_cast; omega

/-- One iteration at a node of a layer before the last of a layered graph. -/
theorem layered_step_inner (n b : Nat) (rnd : Nat → ℚ) (g : Graph) (hg : Layered n b g)
    (hnn : NonnegPher g) (k j : Nat) (hk : k + 1 < n) (hj : j < b) (currItem drawn : Nat)
    (hr : rnd drawn ≤ 1) :
    ∃ node, g.adjList[k * b + j + 1]? = some node ∧ node.length = b ∧
      selectIdx node (rnd drawn) < b ∧
      ∀ (fuel : Nat) (path : List Nat),
        Graph.generatePathLoop rnd (fuel + 1) g (k * b + j + 1) currItem path drawn =
          Graph.generatePathLoop rnd fuel (g.place j currItem)
            ((k + 1) * b + selectIdx node (rnd drawn) + 1) (currItem + 1)
            (path ++ [k * b + j + 1]) (drawn + 1) := by
  have hk1 : (k + 1) * b = k * b + b := Nat.succ_mul k b
  have hnb : (k + 2) * b ≤ n * b := Nat.mul_le_mul_right b (by omega)
  have hk2 : (k + 2) * b = k * b + b + b := by rw [Nat.succ_mul, hk1]
  obtain ⟨node, hnode, hlen, hel⟩ := hg.inner k j hk hj
  have hsel := selectIdx_lt node (rnd drawn)
    (by intro h; rw [h] at hlen; simp at hlen; omega) (node_nonneg g hnn _ node hnode) hr
  rw [hlen] at hsel
  obtain ⟨p, hp⟩ := hel _ hsel
  have hidx : g.generateIdx (k * b + j + 1) (rnd drawn) = .ok (selectIdx node (rnd drawn)) := by
    simp [Graph.generateIdx, hnode]
  have htr := traverse_eq g (k * b + j + 1) _ currItem node _ p j hnode hp
    (by rw [hg.bins_length]; omega)
  refine ⟨node, hnode, hlen, hsel, fun fuel path => ?_⟩
  apply generatePathLoop_inner rnd fuel g _ _ currItem drawn _ _ path _ _ hidx htr
  · rw [hg.numNodes_eq]; push_cast; omega
  · rw [hg.numNodes_eq, hg.numBins_eq]; push_cast; omega

/-- One iteration at a node of the last layer of a layered graph. -/
theorem layered_step_final (n b : Nat) (rnd : Nat → ℚ) (g : Graph) (hg : Layered n b g)
    (k j : Nat) (hk : k + 1 = n) (hj : j < b) (currItem drawn fuel : Nat) (path : List Nat) :
    Graph.generatePathLoop rnd (fuel + 1) g (k * b + j + 1) currItem path drawn =
      Graph.generatePathLoop rnd fuel (g.place j currItem) (n * b + 1) (currItem + 1)
        (path ++ [k * b + j + 1]) drawn := by
  have hnb : n * b = k * b + b := by rw [← hk]; exact Nat.succ_mul k b
  obtain ⟨p, hnode⟩ := hg.final k j hk hj
  have htr := traverse_eq g (k * b + j + 1) 0 currItem _ (n * b + 1) p j hnode rfl
    (by rw [hg.bins_length]; omega)
  apply generatePathLoop_final rnd fuel g _ _ currItem drawn _ path _ _ htr
  · rw [hg.numNodes_eq]; push_cast; omega
  · rw [hg.numNodes_eq, hg.numBins_eq]; push_cast; omega

/-- The last iteration, at the sink of a layered graph. -/
theorem layered_step_sink (n b : Nat) (rnd : Nat → ℚ) (g : Graph) (hg : Layered n b g)
    (currItem drawn fuel : Nat) (path : List Nat) :
    Graph.generatePathLoop rnd (fuel + 1) g (n * b + 1) currItem path drawn =
      ⟨g, .ok (path ++ [n * b + 1])⟩ := by
  apply generatePathLoop_sink
  rw [hg.numNodes_eq]; push_cast; omega

/-- From a node of layer `k` of a layered graph with non-negative pheromones
the loop of `generatePath` runs to the sink; the nodes it selects sit at bin
positions with the property `Q`, when every selection has it. -/
theorem generatePathLoop_layered (n b : Nat) (rnd : Nat → ℚ) (Q : Nat → Prop)
    (hrnd : ∀ i, rnd i ≤ 1) :
    ∀ (m k : Nat), k + m + 1 = n →
      ∀ (g : Graph) (j currItem drawn fuel : Nat) (path : List Nat),
        Layered n b g → NonnegPher g →
        (∀ (v : Nat) (node : List Triple) (d : Nat), g.adjList[v]? = some node →
          node.length = b → Q (selectIdx node (rnd d))) →
        j < b → m + 2 ≤ fuel →
        ∃ tail,
          Graph.generatePathLoop rnd fuel g (k * b + j + 1) currItem path drawn =
            ⟨placeAll b g currItem ((k * b + j + 1) :: tail).dropLast,
              .ok (path ++ (k * b + j + 1) :: tail)⟩ ∧
          RouteFrom n b (k + 1) tail ∧ ∀ v ∈ tail.dropLast, Q ((v - 1) % b) := by
  intro m
  induction m with
  | zero =>
    intro k hk g j currItem drawn fuel path hg hnn hQ hj hfuel
    obtain ⟨fuel, rfl⟩ : ∃ f, fuel = f + 2 := ⟨fuel - 2, by omega⟩
    refine ⟨[n * b + 1], ?_, ?_, ?_⟩
    · rw [layered_step_final n b rnd g hg k j (by omega) hj,
        layered_step_sink n b rnd _ (layered_place n b g hg _ _)]
      simp only [List.dropLast_cons₂, List.dropLast_single, placeAll, node_bin k b j hj,
        List.append_assoc, List.singleton_append]
    · have : k + 1 = n := by omega
      rw [this]
      exact routeFrom_sink n b
    · intro v hv
      simp at hv
  | succ m ih =>
    intro k hk g j currItem drawn fuel path hg hnn hQ hj hfuel
    obtain ⟨fuel, rfl⟩ : ∃ f, fuel = f + 1 := ⟨fuel - 1, by omega⟩
    have hk1 : (k + 1) * b = k * b + b := Nat.succ_mul k b
    obtain ⟨node, hnode, hlen, hidx, hstep⟩ :=
      layered_step_inner n b rnd g hg hnn k j (by omega) hj currItem drawn (hrnd drawn)
    obtain ⟨tail, hrun, hroute, htail⟩ :=
      ih (k + 1) (by omega) (g.place j currItem) (selectIdx node (rnd drawn)) (currItem + 1)
        (drawn + 1) fuel (path ++ [k * b + j + 1]) (layered_place n b g hg _ _) hnn hQ hidx
        (by omega)
    have hne : tail ≠ [] := by
      intro h
      have := hroute.1
      rw [h] at this
      simp at this
    obtain ⟨x, xs, rfl⟩ := List.exists_cons_of_ne_nil hne
    refine ⟨((k + 1) * b + selectIdx node (rnd drawn) + 1) :: x :: xs, ?_, ?_, ?_⟩
    · rw [hstep, hrun]
      simp only [List.dropLast_cons₂, placeAll, node_bin k b j hj, List.append_assoc,
        List.singleton_append]
    · exact routeFrom_cons n b (k + 1) _ _ (by omega) (by omega) (by omega) hroute
    · intro v hv
      rw [List.dropLast_cons₂, List.mem_cons] at hv
      rcases hv with rfl | hv
      · rw [node_bin (k + 1) b _ hidx]
        exact hQ _ node drawn hnode hlen
      · exact htail v hv

/-- On a layered graph with non-negative pheromones and draws not above 1,
`generatePath` returns a path from the root through the layers to the sink,
and leaves the weights of the item counters `0, 1, ...` in the first bin and
in the bins of the layer nodes of the path. -/
theorem generatePath_layered (n b : Nat) (rnd : Nat → ℚ) (Q : Nat → Prop) (hn : 0 < n)
    (hb : 0 < b) (hrnd : ∀ i, rnd i ≤ 1) (g : Graph) (hg : Layered n b g)
    (hnn : NonnegPher g)
    (hQ : ∀ (v : Nat) (node : List Triple) (d : Nat), g.adjList[v]? = some node →
      node.length = b → Q (selectIdx node (rnd d)))
    (fuel : Nat) (hfuel : n + 2 ≤ fuel) :
    ∃ tail, g.generatePath rnd fuel =
        ⟨placeAll b (g.emptyBins.place 0 0) 1 tail.dropLast, .ok (0 :: tail)⟩ ∧
      RouteFrom n b 0 tail ∧ ∀ v ∈ tail.dropLast, Q ((v - 1) % b) := by
  have hg0 := layered_emptyBins n b g hg
  obtain ⟨node, hnode, hlen, hidx, hstep⟩ :=
    layered_step_root n b rnd hn hb g.emptyBins hg0 hnn 0 0 (hrnd 0)
  obtain ⟨fuel, rfl⟩ : ∃ f, fuel = f + 1 := ⟨fuel - 1, by omega⟩
  obtain ⟨tail, hrun, hroute, htail⟩ :=
    generatePathLoop_layered n b rnd Q hrnd (n - 1) 0 (by omega) (g.emptyBins.place 0 0)
      (selectIdx node (rnd 0)) 1 1 fuel [0] (layered_place n b _ hg0 _ _) hnn hQ hidx
      (by omega)
  simp only [Nat.zero_mul, Nat.zero_add] at hrun
  have hne : tail ≠ [] := by
    intro h
    have := hroute.1
    rw [h] at this
    simp at this
  obtain ⟨x, xs, rfl⟩ := List.exists_cons_of_ne_nil hne
  refine ⟨(selectIdx node (rnd 0) + 1) :: x :: xs, ?_, ?_, ?_⟩
  · unfold Graph.generatePath
    rw [hstep]
    simp only [Nat.zero_add, List.nil_append]
    rw [hrun]
    simp
  · exact routeFrom_cons n b 0 _ _ hn (by omega) (by omega) hroute
  · intro v hv
    rw [List.dropLast_cons₂, List.mem_cons] at hv
    rcases hv with rfl | hv
    · rw [Nat.add_sub_cancel, Nat.mod_eq_of_lt hidx]
      exact hQ 0 node 0 hnode hlen
    · exact htail v hv

/-- Every pheromone of a built graph is one of the draws, or the 1 of an edge
into the sink. -/
theorem built_edge (n b : Nat) (hb : 0 < b) (pher : Nat → ℚ) (g : Graph)
    (hg : Built n b pher g) (s j d : Nat) (p : ℚ) (bin : Nat)
    (h : g.edgeAt s j = some (d, p, bin)) : p = 1 ∨ ∃ i, p = pher i := by
  unfold Graph.edgeAt at h
  by_cases hs0 : s = 0
  · subst hs0
    rw [hg.adj.root] at h
    simp only [List.getElem?_map] at h
    cases hr : (List.range b)[j]? with
    | none => rw [hr] at h; simp at h
    | some i =>
      rw [hr] at h
      simp only [Option.map_some', Option.some.injEq, Prod.mk.injEq] at h
      exact Or.inr ⟨i, h.2.1.symm⟩
  · by_cases hs1 : n * b + 1 ≤ s
    · by_cases hs2 : s = n * b + 1
      · subst hs2
        rw [hg.adj.sink] at h
        simp at h
      · have hnone : g.adjList[s]? = none := by
          apply List.getElem?_eq_none
          rw [hg.adj.length_eq]
          omega
        rw [hnone] at h
        simp at h
    · have hlt : (s - 1) / b < n := by
        apply (Nat.div_lt_iff_lt_mul hb).mpr
        omega
      have hmod : (s - 1) % b < b := Nat.mod_lt _ hb
      have hsplit : (s - 1) / b * b + (s - 1) % b = s - 1 := Nat.div_add_mod' (s - 1) b
      obtain ⟨dr, hnode⟩ := hg.adj.node ((s - 1) / b) ((s - 1) % b) hlt hmod
      have hs : (s - 1) / b * b + (s - 1) % b + 1 = s := by omega
      rw [hs] at hnode
      by_cases hk : (s - 1) / b + 1 < n
      · rw [builtNode, if_pos hk] at hnode
        rw [hnode] at h
        simp only [List.getElem?_map] at h
        cases hr : (List.range b)[j]? with
        | none => rw [hr] at h; simp at h
        | some i =>
          rw [hr] at h
          simp only [Option.map_some', Option.some.injEq, Prod.mk.injEq] at h
          exact Or.inr ⟨dr + i, h.2.1.symm⟩
      · rw [builtNode, if_neg hk] at hnode
        rw [hnode] at h
        cases j with
        | zero =>
          simp only [List.getElem?_cons_zero, Option.some.injEq, Prod.mk.injEq] at h
          exact Or.inl h.2.1.symm
        | succ j => simp at h

theorem nonneg_of_built (n b : Nat) (hb : 0 < b) (pher : Nat → ℚ) (hpher : ∀ i, 0 ≤ pher i)
    (g : Graph) (hg : Built n b pher g) : NonnegPher g := by
  intro s j d p bin h
  rcases built_edge n b hb pher g hg s j d p bin h with rfl | ⟨i, rfl⟩
  · norm_num
  · exact hpher i

theorem pos_of_built (n b : Nat) (hb : 0 < b) (pher : Nat → ℚ) (hpher : ∀ i, 0 < pher i)
    (g : Graph) (hg : Built n b pher g) : PosPher g := by
  intro s j d p bin h
  rcases built_edge n b hb pher g hg s j d p bin h with rfl | ⟨i, rfl⟩
  · norm_num
  · exact hpher i

theorem nonneg_of_pos (g : Graph) (h : PosPher g) : NonnegPher g :=
  fun s j d p b he => le_of_lt (h s j d p b he)

/-! ## The bins after a path, as a list -/

theorem placeAll_bins (b : Nat) : ∀ (vs : List Nat) (g : Graph) (currItem : Nat),
    (placeAll b g currItem vs).bins =
      placeBins g.problemType g.bins currItem (vs.map (fun v => (v - 1) % b)) := by
  intro vs
  induction vs with
  | nil => intro g currItem; rfl
  | cons v vs ih =>
    intro g currItem
    rw [placeAll, ih]
    rfl

theorem placeAll_frame (b : Nat) : ∀ (vs : List Nat) (g : Graph) (currItem : Nat),
    (placeAll b g currItem vs).adjList = g.adjList ∧
    (placeAll b g currItem vs).numNodes = g.numNodes ∧
    (placeAll b g currItem vs).numBins = g.numBins ∧
    (placeAll b g currItem vs).problemType = g.problemType ∧
    (placeAll b g currItem vs).bins.length = g.bins.length := by
  intro vs
  induction vs with
  | nil => intro g currItem; exact ⟨rfl, rfl, rfl, rfl, rfl⟩
  | cons v vs ih =>
    intro g currItem
    rw [placeAll]
    obtain ⟨h1, h2, h3, h4, h5⟩ := ih (g.place ((v - 1) % b) currItem) (currItem + 1)
    refine ⟨h1, h2, h3, h4, ?_⟩
    rw [h5]
    simp [Graph.place]

theorem getFitness_eq (g : Graph) : g.getFitness = ⟨g, fitnessOf g.bins⟩ := by
  unfold Graph.getFitness fitnessOf
  cases min_element g.bins <;> cases max_element g.bins <;> rfl

theorem updatePheromoneLoop_counters (diff : ℚ) :
    ∀ (rest : List Nat) (g : Graph),
      (Graph.updatePheromoneLoop diff rest g).graph.bins = g.bins ∧
      (Graph.updatePheromoneLoop diff rest g).graph.numBins = g.numBins ∧
      (Graph.updatePheromoneLoop diff rest g).graph.numNodes = g.numNodes ∧
      (Graph.updatePheromoneLoop diff rest g).graph.problemType = g.problemType := by
  intro rest
  induction rest with
  | nil => intro g; rw [Graph.updatePheromoneLoop]; exact ⟨rfl, rfl, rfl, rfl⟩
  | cons source rest ih =>
    intro g
    rw [Graph.updatePheromoneLoop]
    by_cases hsink : (source : Int) ≠ (g.numNodes : Int) - 1
    · rw [if_pos hsink]
      cases hnode : g.adjList[source]? with
      | none => exact ⟨rfl, rfl, rfl, rfl⟩
      | some node =>
        cases node with
        | nil => exact ih g
        | cons e es =>
          simp only
          cases hhead : rest.head? with
          | none => exact ⟨rfl, rfl, rfl, rfl⟩
          | some next =>
            simp only
            exact ih _
    · rw [if_neg hsink]
      exact ⟨rfl, rfl, rfl, rfl⟩

theorem updatePheromone_counters (g : Graph) (path : List Nat) (fitness : Int) :
    (g.updatePheromone path fitness).graph.bins = g.bins ∧
    (g.updatePheromone path fitness).graph.numBins = g.numBins ∧
    (g.updatePheromone path fitness).graph.numNodes = g.numNodes ∧
    (g.updatePheromone path fitness).graph.problemType = g.problemType := by
  unfold Graph.updatePheromone
  split_ifs
  · exact ⟨rfl, rfl, rfl, rfl⟩
  · exact updatePheromoneLoop_counters _ path g

theorem layered_updatePheromone (n b : Nat) (g : Graph) (hg : Layered n b g) (path : List Nat)
    (fitness : Int) : Layered n b (g.updatePheromone path fitness).graph := by
  obtain ⟨h1, h2, h3, _⟩ := updatePheromone_counters g path fitness
  exact layered_of_skeleton n b g _ hg (skeleton_updatePheromone g path fitness) h3 h2
    (by rw [h1])

theorem layered_evaporatePheromone (n b : Nat) (g : Graph) (hg : Layered n b g) (rate : ℚ) :
    Layered n b (g.evaporatePheromone rate) :=
  layered_of_skeleton n b g _ hg (skeleton_evaporate g rate) rfl rfl rfl

theorem layered_placeAll (n b : Nat) : ∀ (vs : List Nat) (g : Graph) (currItem : Nat),
    Layered n b g → Layered n b (placeAll b g currItem vs) := by
  intro vs
  induction vs with
  | nil => intro g currItem hg; exact hg
  | cons v vs ih =>
    intro g currItem hg
    rw [placeAll]
    exact ih _ _ (layered_place n b g hg _ _)

theorem route_last (n b : Nat) (tail : List Nat) (h : RouteFrom n b 0 tail) :
    (0 :: tail).getLast? = some (n * b + 1) := by
  rw [List.getLast?_eq_getElem?]
  have hlen := h.1
  have hsink := h.2.2
  simp only [Nat.sub_zero] at hlen hsink
  simp only [List.length_cons, hlen, Nat.add_sub_cancel, List.getElem?_cons_succ]
  exact hsink

/-- On a layered graph `updatePheromone` completes for every path from the
root through the layers to the sink and every fitness other than 0. -/
theorem updatePheromone_route (n b : Nat) (g : Graph) (hg : Layered n b g) (path : List Nat)
    (hp : IsRoute n b path) (fitness : Int) (hf : fitness ≠ 0) :
    (g.updatePheromone path fitness).result = .ok () := by
  obtain ⟨tail, rfl, hroute⟩ := hp
  unfold Graph.updatePheromone
  rw [if_neg hf]
  refine (updatePheromoneLoop_exact _ (0 :: tail) g (route_nodup n b tail hroute)
    ⟨n * b + 1, route_last n b tail hroute, ?_⟩ ?_).1
  · rw [hg.numNodes_eq]; push_cast; omega
  · intro s hs
    rw [hg.length_eq]
    exact route_bound n b tail hroute s hs

theorem fitnessOf_ok (bins : List Nat) (hne : bins ≠ []) : ∃ f, fitnessOf bins = .ok f := by
  obtain ⟨mn, hmn, _, _⟩ := min_element_spec bins hne
  obtain ⟨mx, hmx, _, _⟩ := max_element_spec bins hne
  refine ⟨toInt ((mx : Int) - (mn : Int)), ?_⟩
  unfold fitnessOf
  rw [hmn, hmx]

theorem placeBins_length (t : Nat) : ∀ (js : List Nat) (bins : List Nat) (currItem : Nat),
    (placeBins t bins currItem js).length = bins.length := by
  intro js
  induction js with
  | nil => intro bins currItem; rfl
  | cons j js ih =>
    intro bins currItem
    rw [placeBins, ih]
    simp

/-- The ants of one iteration on a layered graph with non-negative
pheromones: every ant returns a path from the root through the layers to the
sink and a fitness, which is the one of the bins holding the weight of item
counter 0 at position 0 and the weights of the next counters at the bin
positions of the layer nodes of the path; `Q` is any property every selection
of `generateIdx` has. -/
theorem start_antsLoop_layered (n b t : Nat) (rnd : Nat → Nat → ℚ) (Q : Nat → Prop)
    (hn : 0 < n) (hb : 0 < b) (hrnd : ∀ c i, rnd c i ≤ 1) (fuel : Nat) (hfuel : n + 2 ≤ fuel) :
    ∀ (ants : Nat) (s : Trial), Layered n b s.acoGraph → NonnegPher s.acoGraph →
      s.acoGraph.problemType = t →
      (∀ (c v : Nat) (node : List Triple) (d : Nat), s.acoGraph.adjList[v]? = some node →
        node.length = b → Q (selectIdx node (rnd c d))) →
      ∃ g1 newPaths newFits,
        start_antsLoop rnd fuel ants s =
          ⟨{ acoGraph := g1, best := s.best, paths := s.paths ++ newPaths,
             fitnesses := s.fitnesses ++ newFits }, none⟩ ∧
        g1.adjList = s.acoGraph.adjList ∧ Layered n b g1 ∧ g1.problemType = t ∧
        newPaths.length = ants ∧ newFits.length = ants ∧
        (∀ p ∈ newPaths, IsRoute n b p) ∧
        ∀ f ∈ newFits, ∃ js, js.length = n ∧ (∀ j ∈ js, j < b ∧ Q j) ∧
          fitnessOf (placeBins t (List.replicate b 0) 0 (0 :: js)) = .ok f := by
  intro ants
  induction ants with
  | zero =>
    intro s hg _ ht _
    refine ⟨s.acoGraph, [], [], ?_, rfl, hg, ht, rfl, rfl, ?_, ?_⟩
    · simp [start_antsLoop]
    · intro p hp; cases hp
    · intro f hf; cases hf
  | succ ants ih =>
    intro s hg hnn ht hQ
    obtain ⟨tail, hrun, hroute, hsel⟩ :=
      generatePath_layered n b (rnd s.paths.length) Q hn hb (hrnd _) s.acoGraph hg hnn
        (hQ s.paths.length) fuel hfuel
    obtain ⟨hf1, hf2, hf3, hf4, hf5⟩ :=
      placeAll_frame b tail.dropLast (s.acoGraph.emptyBins.place 0 0) 1
    have hlay := layered_placeAll n b tail.dropLast _ 1
      (layered_place n b _ (layered_emptyBins n b _ hg) 0 0)
    have hbins : (placeAll b (s.acoGraph.emptyBins.place 0 0) 1 tail.dropLast).bins =
        placeBins t (List.replicate b 0) 0
          (0 :: tail.dropLast.map (fun v => (v - 1) % b)) := by
      rw [placeAll_bins]
      have e1 : (s.acoGraph.emptyBins.place 0 0).problemType = t := ht
      have e2 : s.acoGraph.emptyBins.bins = List.replicate b 0 := by
        simp only [Graph.emptyBins, List.map_const', hg.bins_length]
      have e3 : s.acoGraph.emptyBins.problemType = t := ht
      rw [e1, placeBins]
      unfold Graph.place
      simp only [e2, e3]
    have hne : (placeAll b (s.acoGraph.emptyBins.place 0 0) 1 tail.dropLast).bins ≠ [] := by
      intro h
      have := hlay.bins_length
      rw [h] at this
      simp at this
      omega
    obtain ⟨f, hfit⟩ := fitnessOf_ok _ hne
    obtain ⟨g1, newPaths, newFits, hloop, hadj, hlay1, ht1, hlp, hlf, hroutes, hfits⟩ :=
      ih { s with acoGraph := placeAll b (s.acoGraph.emptyBins.place 0 0) 1 tail.dropLast,
                  paths := s.paths ++ [0 :: tail], fitnesses := s.fitnesses ++ [f] }
        hlay (nonneg_of_adjList s.acoGraph _ hf1 hnn) (by simp only; rw [hf4]; exact ht)
        (by
          intro c v node d hnode hlen
          simp only at hnode
          rw [hf1] at hnode
          exact hQ c v node d hnode hlen)
    refine ⟨g1, (0 :: tail) :: newPaths, f :: newFits, ?_, ?_, hlay1, ht1, ?_, ?_, ?_, ?_⟩
    · rw [start_antsLoop, hrun]
      simp only
      rw [getFitness_eq, hfit]
      simp only
      rw [hloop]
      simp only [List.append_assoc, List.singleton_append]
    · rw [hadj]
      exact hf1
    · simp [hlp]
    · simp [hlf]
    · intro p hp
      rcases List.mem_cons.mp hp with rfl | hp
      · exact ⟨tail, rfl, hroute⟩
      · exact hroutes p hp
    · intro f1 hf1m
      rcases List.mem_cons.mp hf1m with rfl | hf1m
      · refine ⟨tail.dropLast.map (fun v => (v - 1) % b), ?_, ?_, ?_⟩
        · rw [List.length_map, List.length_dropLast, hroute.1]
          omega
        · intro j hj
          obtain ⟨v, hv, rfl⟩ := List.mem_map.mp hj
          exact ⟨Nat.mod_lt _ hb, hsel v hv⟩
        · rw [← hbins]
          exact hfit
      · exact hfits f1 hf1m

theorem nonneg_updatePheromone_of_nonneg (g : Graph) (path : List Nat) (fitness : Int)
    (hf : 0 ≤ fitness) (h : NonnegPher g) :
    NonnegPher (g.updatePheromone path fitness).graph := by
  by_cases h0 : fitness = 0
  · unfold Graph.updatePheromone
    rw [if_pos h0]
    exact h
  · exact nonneg_updatePheromone g path fitness (by omega) h

theorem nonneg_reinforceLoop : ∀ (paths : List (List Nat)) (fits : List Int) (g : Graph),
    (∀ f ∈ fits, 0 ≤ f) → NonnegPher g → NonnegPher (start_reinforceLoop paths fits g).graph := by
  intro paths
  induction paths with
  | nil => intro fits g _ h; exact h
  | cons path paths ih =>
    intro fits g hfits h
    cases fits with
    | nil => exact h
    | cons fitness fits =>
      have h1 := nonneg_updatePheromone_of_nonneg g path fitness
        (hfits fitness (List.mem_cons_self _ _)) h
      rw [start_reinforceLoop]
      cases hu : g.updatePheromone path fitness with
      | mk g1 r =>
        rw [hu] at h1
        cases r with
        | error f => exact h1
        | ok u => exact ih fits g1 (fun f hf => hfits f (List.mem_cons_of_mem _ hf)) h1

theorem pos_reinforceLoop : ∀ (paths : List (List Nat)) (fits : List Int) (g : Graph),
    (∀ f ∈ fits, 0 < f) → PosPher g → PosPher (start_reinforceLoop paths fits g).graph := by
  intro paths
  induction paths with
  | nil => intro fits g _ h; exact h
  | cons path paths ih =>
    intro fits g hfits h
    cases fits with
    | nil => exact h
    | cons fitness fits =>
      have h1 := pos_updatePheromone g path fitness (hfits fitness (List.mem_cons_self _ _)) h
      rw [start_reinforceLoop]
      cases hu : g.updatePheromone path fitness with
      | mk g1 r =>
        rw [hu] at h1
        cases r with
        | error f => exact h1
        | ok u => exact ih fits g1 (fun f hf => hfits f (List.mem_cons_of_mem _ hf)) h1

theorem layered_reinforceLoop (n b : Nat) :
    ∀ (paths : List (List Nat)) (fits : List Int) (g : Graph), Layered n b g →
      Layered n b (start_reinforceLoop paths fits g).graph ∧
      (start_reinforceLoop paths fits g).graph.problemType = g.problemType := by
  intro paths
  induction paths with
  | nil => intro fits g h; exact ⟨h, rfl⟩
  | cons path paths ih =>
    intro fits g h
    cases fits with
    | nil => exact ⟨h, rfl⟩
    | cons fitness fits =>
      have h1 := layered_updatePheromone n b g h path fitness
      have h2 := (updatePheromone_counters g path fitness).2.2.2
      rw [start_reinforceLoop]
      cases hu : g.updatePheromone path fitness with
      | mk g1 r =>
        rw [hu] at h1 h2
        cases r with
        | error f => exact ⟨h1, h2⟩
        | ok u =>
          obtain ⟨h3, h4⟩ := ih fits g1 h1
          exact ⟨h3, by rw [← h2]; exact h4⟩

/-- The reinforcement loop completes when every path runs from the root
through the layers to the sink and no fitness is 0. -/
theorem reinforceLoop_ok (n b : Nat) :
    ∀ (paths : List (List Nat)) (fits : List Int) (g : Graph), Layered n b g →
      paths.length = fits.length → (∀ p ∈ paths, IsRoute n b p) → (∀ f ∈ fits, f ≠ 0) →
      (start_reinforceLoop paths fits g).result = .ok () := by
  intro paths
  induction paths with
  | nil => intro fits g _ _ _ _; rfl
  | cons path paths ih =>
    intro fits g h hlen hroutes hfits
    cases fits with
    | nil => simp at hlen
    | cons fitness fits =>
      have h1 := layered_updatePheromone n b g h path fitness
      have h2 := updatePheromone_route n b g h path (hroutes path (List.mem_cons_self _ _))
        fitness (hfits fitness (List.mem_cons_self _ _))
      rw [start_reinforceLoop]
      cases hu : g.updatePheromone path fitness with
      | mk g1 r =>
        rw [hu] at h1 h2
        simp only at h2
        subst h2
        exact ih fits g1 h1 (by simpa using hlen)
          (fun p hp => hroutes p (List.mem_cons_of_mem _ hp))
          (fun f hf => hfits f (List.mem_cons_of_mem _ hf))

theorem placeBins_sum (t : Nat) : ∀ (js : List Nat) (bins : List Nat) (currItem : Nat),
    (∀ j ∈ js, j < bins.length) → bins.sum + weightTotal t currItem js.length < UINT_RANGE →
    (placeBins t bins currItem js).sum = bins.sum + weightTotal t currItem js.length := by
  intro js
  induction js with
  | nil => intro bins currItem _ _; simp [placeBins, weightTotal]
  | cons j js ih =>
    intro bins currItem hjs hsmall
    rw [List.length_cons, weightTotal_succ] at hsmall ⊢
    have hj : j < bins.length := hjs j (List.mem_cons_self _ _)
    have hle := getD_le_sum bins j
    have hstep : (bins.set j ((bins.getD j 0 + itemWeight t currItem) % UINT_RANGE)).sum =
        bins.sum + itemWeight t currItem := by
      rw [Nat.mod_eq_of_lt (by omega)]
      exact sum_set_add bins j _ hj
    rw [placeBins, ih _ (currItem + 1)
      (fun i hi => by rw [List.length_set]; exact hjs i (List.mem_cons_of_mem _ hi))
      (by rw [hstep]; omega), hstep]
    omega

/-- On bins whose total is below `2^31` the fitness is the largest bin minus
the smallest. -/
theorem fitnessOf_small (bins : List Nat) (hne : bins ≠ []) (hsum : bins.sum < 2147483648) :
    ∃ mn mx : Nat, fitnessOf bins = .ok ((mx : Int) - (mn : Int)) ∧ mn ∈ bins ∧ mx ∈ bins ∧
      ∀ x ∈ bins, mn ≤ x ∧ x ≤ mx := by
  obtain ⟨mn, hmn, hmnmem, hmnle⟩ := min_element_spec bins hne
  obtain ⟨mx, hmx, hmxmem, hmxle⟩ := max_element_spec bins hne
  have h1 : mn ≤ mx := hmxle mn hmnmem
  have h2 : mx ≤ bins.sum := List.single_le_sum (fun _ _ => Nat.zero_le _) mx hmxmem
  refine ⟨mn, mx, ?_, hmnmem, hmxmem, fun x hx => ⟨hmnle x hx, hmxle x hx⟩⟩
  unfold fitnessOf
  rw [hmn, hmx]
  simp only
  unfold toInt
  have h3 : (0 : Int) ≤ (mx : Int) - (mn : Int) := by omega
  have h4 : (mx : Int) - (mn : Int) < 2147483648 := by omega
  have h5 : ((mx : Int) - (mn : Int)) % 4294967296 = (mx : Int) - (mn : Int) :=
    Int.emod_eq_of_lt h3 (by omega)
  rw [h5, if_pos h4]

/-- The fitness of an ant is above 0 when the weights placed by a path total
less than `2^31` and cannot be shared out equally among the bins. -/
theorem ant_fitness_pos (n b t : Nat) (hb : 0 < b)
    (hsmall : weightTotal t 0 (n + 1) < 2147483648) (hndiv : ¬ b ∣ weightTotal t 0 (n + 1))
    (js : List Nat) (hlen : js.length = n) (hjs : ∀ j ∈ js, j < b) (f : Int)
    (hf : fitnessOf (placeBins t (List.replicate b 0) 0 (0 :: js)) = .ok f) : 0 < f := by
  have hsum := placeBins_sum t (0 :: js) (List.replicate b 0) 0
    (by
      intro j hj
      rw [List.length_replicate]
      rcases List.mem_cons.mp hj with rfl | hj
      · exact hb
      · exact hjs j hj)
    (by
      rw [List.length_cons, hlen]
      simp only [List.sum_replicate, smul_eq_mul, Nat.mul_zero, Nat.zero_add]
      unfold UINT_RANGE
      omega)
  rw [List.length_cons, hlen] at hsum
  simp only [List.sum_replicate, smul_eq_mul, Nat.mul_zero, Nat.zero_add] at hsum
  have hblen := placeBins_length t (0 :: js) (List.replicate b 0) 0
  rw [List.length_replicate] at hblen
  obtain ⟨mn, mx, hfit, hmnmem, hmxmem, hall⟩ :=
    fitnessOf_small (placeBins t (List.replicate b 0) 0 (0 :: js))
      (by
        intro h
        rw [h] at hblen
        simp at hblen
        omega)
      (by rw [hsum]; exact hsmall)
  rw [hf] at hfit
  injection hfit with hfit
  have hle : mn ≤ mx := (hall mx hmxmem).1
  by_cases heq : mx = mn
  · exfalso
    apply hndiv
    have hconst : ∀ x ∈ placeBins t (List.replicate b 0) 0 (0 :: js), x = mn := by
      intro x hx
      have := hall x hx
      omega
    have := List.sum_eq_card_nsmul _ mn hconst
    rw [hsum, hblen] at this
    rw [this]
    exact ⟨mn, by simp⟩
  · rw [hfit]
    omega

theorem min_element_int_cons (x : Int) (xs : List Int) :
    ∃ m, min_element_int (x :: xs) = some m ∧ m ∈ x :: xs := by
  refine ⟨_, rfl, ?_⟩
  induction xs generalizing x with
  | nil => simp
  | cons y ys ih =>
    simp only [List.foldl_cons]
    split_ifs
    · have := ih y
      rcases List.mem_cons.mp this with h | h
      · rw [h]; simp
      · exact List.mem_cons_of_mem _ (List.mem_cons_of_mem _ h)
    · have := ih x
      rcases List.mem_cons.mp this with h | h
      · rw [h]; simp
      · exact List.mem_cons_of_mem _ (List.mem_cons_of_mem _ h)

theorem min_element_int_mem (l : List Int) (hne : l ≠ []) :
    ∃ m, min_element_int l = some m ∧ m ∈ l := by
  cases l with
  | nil => exact absurd rfl hne
  | cons x xs => exact min_element_int_cons x xs

/-- An iteration with at least one ant completes on a layered graph with
non-negative pheromones when no fitness, recorded or new, is 0: it reinforces
along every path recorded so far, the new ones included, then evaporates, and
compares the lowest fitness recorded so far with `best`. -/
theorem start_iteration_run (n b t numAnts : Nat) (evaporation : ℚ) (rnd : Nat → Nat → ℚ)
    (Q : Nat → Prop) (hn : 0 < n) (hb : 0 < b) (hants : 0 < numAnts)
    (hrnd : ∀ c i, rnd c i ≤ 1) (fuel : Nat) (hfuel : n + 2 ≤ fuel) (s : Trial)
    (hlay : Layered n b s.acoGraph) (hnn : NonnegPher s.acoGraph)
    (ht : s.acoGraph.problemType = t)
    (hQ : ∀ (c v : Nat) (node : List Triple) (d : Nat), s.acoGraph.adjList[v]? = some node →
      node.length = b → Q (selectIdx node (rnd c d)))
    (hlen : s.paths.length = s.fitnesses.length) (hroutes : ∀ p ∈ s.paths, IsRoute n b p)
    (hold : ∀ f ∈ s.fitnesses, f ≠ 0)
    (hnew : ∀ (js : List Nat) (f : Int), js.length = n → (∀ j ∈ js, j < b ∧ Q j) →
      fitnessOf (placeBins t (List.replicate b 0) 0 (0 :: js)) = .ok f → f ≠ 0) :
    ∃ g1 newPaths newFits tempBest,
      start_iteration numAnts evaporation rnd fuel s =
        ⟨{ acoGraph := (start_reinforceLoop (s.paths ++ newPaths) (s.fitnesses ++ newFits)
              g1).graph.evaporatePheromone evaporation,
           best := if tempBest < s.best then tempBest else s.best,
           paths := s.paths ++ newPaths,
           fitnesses := s.fitnesses ++ newFits }, none⟩ ∧
      tempBest ∈ s.fitnesses ++ newFits ∧
      g1.adjList = s.acoGraph.adjList ∧ Layered n b g1 ∧ g1.problemType = t ∧
      newPaths.length = numAnts ∧ newFits.length = numAnts ∧
      (∀ p ∈ newPaths, IsRoute n b p) ∧
      ∀ f ∈ newFits, ∃ js, js.length = n ∧ (∀ j ∈ js, j < b ∧ Q j) ∧
        fitnessOf (placeBins t (List.replicate b 0) 0 (0 :: js)) = .ok f := by
  obtain ⟨g1, newPaths, newFits, hloop, hadj, hlay1, ht1, hlp, hlf, hnr, hnf⟩ :=
    start_antsLoop_layered n b t rnd Q hn hb hrnd fuel hfuel numAnts s hlay hnn ht hQ
  have hok := reinforceLoop_ok n b (s.paths ++ newPaths) (s.fitnesses ++ newFits) g1 hlay1
    (by rw [List.length_append, List.length_append, hlen, hlp, hlf])
    (by
      intro p hp
      rcases List.mem_append.mp hp with hp | hp
      · exact hroutes p hp
      · exact hnr p hp)
    (by
      intro f hf
      rcases List.mem_append.mp hf with hf | hf
      · exact hold f hf
      · obtain ⟨js, h1, h2, h3⟩ := hnf f hf
        exact hnew js f h1 h2 h3)
  obtain ⟨tempBest, hmin, hmem⟩ := min_element_int_mem (s.fitnesses ++ newFits)
    (by
      intro h
      have := congrArg List.length h
      rw [List.length_append, hlf] at this
      simp at this
      omega)
  refine ⟨g1, newPaths, newFits, tempBest, ?_, hmem, hadj, hlay1, ht1, hlp, hlf, hnr, hnf⟩
  unfold start_iteration
  rw [hloop]
  simp only
  cases hr : start_reinforceLoop (s.paths ++ newPaths) (s.fitnesses ++ newFits) g1 with
  | mk g2 r =>
    rw [hr] at hok
    simp only at hok
    subst hok
    simp only [hmin]

/-- One iteration of a trial in which no fitness can be 0 completes and adds
one path and one fitness per ant to those recorded before. -/
theorem start_iteration_trialRun (n b t numAnts : Nat) (evaporation : ℚ)
    (rnd : Nat → Nat → ℚ) (hn : 0 < n) (hb : 0 < b) (hants : 0 < numAnts)
    (hsmall : weightTotal t 0 (n + 1) < 2147483648) (hndiv : ¬ b ∣ weightTotal t 0 (n + 1))
    (hrate : 0 ≤ evaporation) (hrnd : ∀ c i, rnd c i ≤ 1) (fuel : Nat) (hfuel : n + 2 ≤ fuel)
    (s : Trial) (hs : TrialRun n b t s) :
    ∃ s1, start_iteration numAnts evaporation rnd fuel s = ⟨s1, none⟩ ∧ TrialRun n b t s1 ∧
      s1.paths.length = s.paths.length + numAnts ∧ s.paths <+: s1.paths ∧
      s.fitnesses <+: s1.fitnesses := by
  obtain ⟨hlay, hnn, ht, hfits, hlen, hroutes⟩ := hs
  have hpos : ∀ (js : List Nat) (f : Int), js.length = n → (∀ j ∈ js, j < b ∧ True) →
      fitnessOf (placeBins t (List.replicate b 0) 0 (0 :: js)) = .ok f → 0 < f :=
    fun js f h1 h2 h3 =>
      ant_fitness_pos n b t hb hsmall hndiv js h1 (fun j hj => (h2 j hj).1) f h3
  obtain ⟨g1, newPaths, newFits, tempBest, hrun, _, hadj, hlay1, ht1, hlp, hlf, hnr, hnf⟩ :=
    start_iteration_run n b t numAnts evaporation rnd (fun _ => True) hn hb hants hrnd fuel
      hfuel s hlay hnn ht (fun _ _ _ _ _ _ => trivial) hlen hroutes
      (fun f hf => by have := hfits f hf; omega)
      (fun js f h1 h2 h3 => by have := hpos js f h1 h2 h3; omega)
  have hfits1 : ∀ f ∈ s.fitnesses ++ newFits, 0 < f := by
    intro f hf
    rcases List.mem_append.mp hf with hf | hf
    · exact hfits f hf
    · obtain ⟨js, h1, h2, h3⟩ := hnf f hf
      exact hpos js f h1 h2 h3
  have hnn1 : NonnegPher g1 := nonneg_of_adjList s.acoGraph g1 hadj hnn
  have hnn2 := nonneg_reinforceLoop (s.paths ++ newPaths) (s.fitnesses ++ newFits) g1
    (fun f hf => le_of_lt (hfits1 f hf)) hnn1
  obtain ⟨hlay2, ht2⟩ :=
    layered_reinforceLoop n b (s.paths ++ newPaths) (s.fitnesses ++ newFits) g1 hlay1
  refine ⟨_, hrun, ⟨layered_evaporatePheromone n b _ hlay2 evaporation,
    nonneg_evaporatePheromone _ evaporation hrate hnn2, ?_, hfits1, ?_, ?_⟩, ?_,
    List.prefix_append _ _, List.prefix_append _ _⟩
  · show (start_reinforceLoop (s.paths ++ newPaths) (s.fitnesses ++ newFits)
      g1).graph.problemType = t
    rw [ht2]
    exact ht1
  · show (s.paths ++ newPaths).length = (s.fitnesses ++ newFits).length
    rw [List.length_append, List.length_append, hlen, hlp, hlf]
  · intro p hp
    rcases List.mem_append.mp hp with hp | hp
    · exact hroutes p hp
    · exact hnr p hp
  · show (s.paths ++ newPaths).length = s.paths.length + numAnts
    rw [List.length_append, hlp]

/-- A trial in which no fitness can be 0 completes, whatever the number of
iterations, and records one path and one fitness per ant and iteration on
top of those recorded before: nothing recorded is ever dropped. -/
theorem start_trialLoop_trialRun (n b t numAnts : Nat) (evaporation : ℚ)
    (rnd : Nat → Nat → ℚ) (hn : 0 < n) (hb : 0 < b) (hants : 0 < numAnts)
    (hsmall : weightTotal t 0 (n + 1) < 2147483648) (hndiv : ¬ b ∣ weightTotal t 0 (n + 1))
    (hrate : 0 ≤ evaporation) (hrnd : ∀ c i, rnd c i ≤ 1) (fuel : Nat)
    (hfuel : n + 2 ≤ fuel) :
    ∀ (iterations : Nat) (s : Trial), TrialRun n b t s →
      ∃ s1, start_trialLoop numAnts evaporation rnd fuel iterations s = ⟨s1, none⟩ ∧
        TrialRun n b t s1 ∧ s1.paths.length = s.paths.length + iterations * numAnts ∧
        s.paths <+: s1.paths ∧ s.fitnesses <+: s1.fitnesses := by
  intro iterations
  induction iterations with
  | zero =>
    intro s hs
    exact ⟨s, rfl, hs, by simp, List.prefix_refl _, List.prefix_refl _⟩
  | succ iterations ih =>
    intro s hs
    obtain ⟨s1, hrun1, hs1, hl1, hp1, hf1⟩ :=
      start_iteration_trialRun n b t numAnts evaporation rnd hn hb hants hsmall hndiv hrate
        hrnd fuel hfuel s hs
    obtain ⟨s2, hrun2, hs2, hl2, hp2, hf2⟩ := ih s1 hs1
    refine ⟨s2, ?_, hs2, ?_, List.IsPrefix.trans hp1 hp2, List.IsPrefix.trans hf1 hf2⟩
    · rw [start_trialLoop, hrun1]
      exact hrun2
    · rw [hl2, hl1, Nat.succ_mul]
      omega

/-- C19, evaluated. One item, two bins, linear weights, one ant, evaporation
rate 1 and every selection draw 1: the ant takes the path `[0, 2, 3]` with
fitness 1 in every iteration, so each reinforcement adds 100 to its edges.
After one iteration the edge from the root to node 2 holds `1/2 + 100`; after
two iterations it holds `1/2 + 300` and not `1/2 + 200`, the path of the first
iteration being kept and reinforced again in the second. For both problems of
the program, at least one ant, pheromone draws in `[0, 1]`, a rate `>= 0` and
selection draws not above 1, the trial completes any number of iterations and
the vectors the reinforcement loop runs over then hold one path and one
fitness for every ant of every iteration so far. -/
theorem C19_reinforcement_at_failing_input :
    start_trial 1 2 1 1 1 1 (fun _ => 1 / 2) (fun _ _ => 1) 3 =
      .ok ⟨{ acoGraph :=
               { twoBinGraph with
                 bins := [1, 2]
                 adjList := [[(1, 1/2, 1), (2, 201/2, 1)], [(3, 1, 1)], [(3, 101, 2)], []] }
             best := 1
             paths := [[0, 2, 3]]
             fitnesses := [1] }, none⟩ ∧
    start_trial 1 2 1 1 1 2 (fun _ => 1 / 2) (fun _ _ => 1) 3 =
      .ok ⟨{ acoGraph :=
               { twoBinGraph with
                 bins := [1, 2]
                 adjList := [[(1, 1/2, 1), (2, 601/2, 1)], [(3, 1, 1)], [(3, 301, 2)], []] }
             best := 1
             paths := [[0, 2, 3], [0, 2, 3]]
             fitnesses := [1, 1] }, none⟩ ∧
    ∀ (t numAnts iterations : Nat) (evaporation : ℚ) (pher : Nat → ℚ) (rnd : Nat → Nat → ℚ)
      (fuel : Nat), (t = 1 ∨ t = 2) → 0 < numAnts → (∀ i, 0 ≤ pher i ∧ pher i ≤ 1) →
      0 ≤ evaporation → (∀ c i, rnd c i ≤ 1) → 502 ≤ fuel →
      ∃ s, start_trial 500 (start_numBins t) t numAnts evaporation iterations pher rnd fuel =
          .ok ⟨s, none⟩ ∧
        s.paths.length = iterations * numAnts ∧ s.fitnesses.length = iterations * numAnts := by
  refine ⟨by decide!, by decide!, ?_⟩
  intro t numAnts iterations evaporation pher rnd fuel ht hants hpher hevap hrnd hfuel
  have hb : 0 < start_numBins t := by
    rcases ht with rfl | rfl <;> decide
  have hsmall : weightTotal t 0 (500 + 1) < 2147483648 := by
    rcases ht with rfl | rfl <;> decide!
  have hndiv : ¬ start_numBins t ∣ weightTotal t 0 (500 + 1) := by
    rcases ht with rfl | rfl <;> decide!
  obtain ⟨g0, hg0, hbuilt, hpt⟩ :=
    start_acoGraph_built 500 (start_numBins t) t pher (by decide) hb
  have hinv : TrialRun 500 (start_numBins t) t
      { acoGraph := g0, best := ((500 : Nat) : Int) ^ 2 * ((start_numBins t : Nat) : Int),
        paths := [], fitnesses := [] } :=
    ⟨layered_of_built 500 _ pher g0 hbuilt,
      nonneg_of_built 500 _ hb pher (fun i => (hpher i).1) g0 hbuilt, hpt,
      fun f hf => (by cases hf), rfl, fun p hp => (by cases hp)⟩
  obtain ⟨s1, hrun, hs1, hlen, _, _⟩ :=
    start_trialLoop_trialRun 500 (start_numBins t) t numAnts evaporation rnd (by decide) hb
      hants hsmall hndiv hevap hrnd fuel (by omega) iterations _ hinv
  refine ⟨s1, ?_, by simpa using hlen, ?_⟩
  · unfold start_trial
    rw [hg0]
    simp only
    rw [hrun]
  · rw [← hs1.2.2.2.2.1]
    simpa using hlen

/-! ## The best fitness of a trial -/

theorem cumulative_lt_total (cs : List Triple) (hpos : ∀ c ∈ cs, 0 < c.2.1) (i : Nat)
    (hi : i + 1 < cs.length) : cumulative cs i < totalPheromone cs := by
  have hsplit : totalPheromone cs =
      totalPheromone (cs.take (i + 1)) + totalPheromone (cs.drop (i + 1)) := by
    unfold totalPheromone
    rw [← List.sum_append, ← List.map_append, List.take_append_drop]
  have hrest : 0 < totalPheromone (cs.drop (i + 1)) := by
    unfold totalPheromone
    apply List.sum_pos
    · intro x hx
      obtain ⟨c, hc, rfl⟩ := List.mem_map.mp hx
      exact hpos c (List.mem_of_mem_drop hc)
    · intro h
      have := congrArg List.length h
      simp at this
      omega
  unfold cumulative
  linarith

/-- With every pheromone of a node above 0 and the largest draw, the
selection returns the last edge. -/
theorem selectIdx_one_last (cs : List Triple) (hne : cs ≠ []) (hpos : ∀ c ∈ cs, 0 < c.2.1) :
    selectIdx cs 1 = cs.length - 1 := by
  obtain ⟨h1, h2, _⟩ := selectIdx_spec cs 1 hne (fun c hc => le_of_lt (hpos c hc))
    (by rw [one_mul])
  by_contra hcon
  have hlt := cumulative_lt_total cs hpos (selectIdx cs 1) (by omega)
  rw [one_mul] at h2
  linarith

/-- With every pheromone above 0 and every draw the largest, one iteration
with at least one ant completes, records the fitness `worst` for every ant
and, `worst` not being below `best`, leaves `best` as it was. -/
theorem start_iteration_worst (n b t numAnts : Nat) (evaporation : ℚ) (worst initial : Int)
    (hn : 0 < n) (hb : 0 < b) (hants : 0 < numAnts) (hrate : 0 < evaporation) (fuel : Nat)
    (hfuel : n + 2 ≤ fuel)
    (hworst : ∀ (js : List Nat) (f : Int), js.length = n → (∀ j ∈ js, j < b ∧ j = b - 1) →
      fitnessOf (placeBins t (List.replicate b 0) 0 (0 :: js)) = .ok f → f = worst)
    (hpos : 0 < worst) (hle : initial ≤ worst) (s : Trial)
    (hs : TrialWorst n b t worst initial s) :
    ∃ s1, start_iteration numAnts evaporation (fun _ _ => 1) fuel s = ⟨s1, none⟩ ∧
      TrialWorst n b t worst initial s1 ∧
      s1.fitnesses.length = s.fitnesses.length + numAnts := by
  obtain ⟨hlay, hpp, ht, hfits, hlen, hroutes, hbest⟩ := hs
  obtain ⟨g1, newPaths, newFits, tempBest, hrun, hmem, hadj, hlay1, ht1, hlp, hlf, hnr, hnf⟩ :=
    start_iteration_run n b t numAnts evaporation (fun _ _ => 1) (fun j => j = b - 1) hn hb
      hants (fun _ _ => le_refl _) fuel hfuel s hlay (nonneg_of_pos _ hpp) ht
      (by
        intro c v node d hnode hnlen
        rw [selectIdx_one_last node (by intro h; rw [h] at hnlen; simp at hnlen; omega)
          (node_pos s.acoGraph hpp v node hnode), hnlen])
      hlen hroutes (fun f hf => by have := hfits f hf; omega)
      (fun js f h1 h2 h3 => by have := hworst js f h1 h2 h3; omega)
  have hfits1 : ∀ f ∈ s.fitnesses ++ newFits, f = worst := by
    intro f hf
    rcases List.mem_append.mp hf with hf | hf
    · exact hfits f hf
    · obtain ⟨js, h1, h2, h3⟩ := hnf f hf
      exact hworst js f h1 h2 h3
  have hpp1 : PosPher g1 := pos_of_adjList s.acoGraph g1 hadj hpp
  have hpp2 := pos_reinforceLoop (s.paths ++ newPaths) (s.fitnesses ++ newFits) g1
    (fun f hf => by rw [hfits1 f hf]; exact hpos) hpp1
  obtain ⟨hlay2, ht2⟩ :=
    layered_reinforceLoop n b (s.paths ++ newPaths) (s.fitnesses ++ newFits) g1 hlay1
  refine ⟨_, hrun, ⟨layered_evaporatePheromone n b _ hlay2 evaporation,
    pos_evaporatePheromone _ evaporation hrate hpp2, ?_, hfits1, ?_, ?_, ?_⟩, ?_⟩
  · show (start_reinforceLoop (s.paths ++ newPaths) (s.fitnesses ++ newFits)
      g1).graph.problemType = t
    rw [ht2]
    exact ht1
  · show (s.paths ++ newPaths).length = (s.fitnesses ++ newFits).length
    rw [List.length_append, List.length_append, hlen, hlp, hlf]
  · intro p hp
    rcases List.mem_append.mp hp with hp | hp
    · exact hroutes p hp
    · exact hnr p hp
  · show (if tempBest < s.best then tempBest else s.best) = initial
    rw [hfits1 tempBest hmem, hbest, if_neg (by omega)]
  · show (s.fitnesses ++ newFits).length = s.fitnesses.length + numAnts
    rw [List.length_append, hlf]

theorem start_trialLoop_worst (n b t numAnts : Nat) (evaporation : ℚ) (worst initial : Int)
    (hn : 0 < n) (hb : 0 < b) (hants : 0 < numAnts) (hrate : 0 < evaporation) (fuel : Nat)
    (hfuel : n + 2 ≤ fuel)
    (hworst : ∀ (js : List Nat) (f : Int), js.length = n → (∀ j ∈ js, j < b ∧ j = b - 1) →
      fitnessOf (placeBins t (List.replicate b 0) 0 (0 :: js)) = .ok f → f = worst)
    (hpos : 0 < worst) (hle : initial ≤ worst) :
    ∀ (iterations : Nat) (s : Trial), TrialWorst n b t worst initial s →
      ∃ s1, start_trialLoop numAnts evaporation (fun _ _ => 1) fuel iterations s = ⟨s1, none⟩ ∧
        TrialWorst n b t worst initial s1 ∧
        s1.fitnesses.length = s.fitnesses.length + iterations * numAnts := by
  intro iterations
  induction iterations with
  | zero => intro s hs; exact ⟨s, rfl, hs, by simp⟩
  | succ iterations ih =>
    intro s hs
    obtain ⟨s1, hrun1, hs1, hl1⟩ :=
      start_iteration_worst n b t numAnts evaporation worst initial hn hb hants hrate fuel
        hfuel hworst hpos hle s hs
    obtain ⟨s2, hrun2, hs2, hl2⟩ := ih s1 hs1
    refine ⟨s2, ?_, hs2, ?_⟩
    · rw [start_trialLoop, hrun1]
      exact hrun2
    · rw [hl2, hl1, Nat.succ_mul]
      omega

/-- For 500 items with squared weights and 50 bins, a path through the last
bin of every layer gives the fitness 42042750. -/
theorem worst_fitness (js : List Nat) (f : Int) (hlen : js.length = 500)
    (hjs : ∀ j ∈ js, j < 50 ∧ j = 50 - 1)
    (hf : fitnessOf (placeBins 2 (List.replicate 50 0) 0 (0 :: js)) = .ok f) :
    f = 42042750 := by
  have hrep : js = List.replicate 500 49 :=
    List.eq_replicate_iff.mpr ⟨hlen, fun j hj => (hjs j hj).2⟩
  have hval : fitnessOf (placeBins 2 (List.replicate 50 0) 0 (0 :: List.replicate 500 49)) =
      .ok 42042750 := by decide!
  rw [hrep, hval] at hf
  exact (Except.ok.inj hf).symm

theorem start_trial_run (n b t numAnts : Nat) (evaporation : ℚ) (iterations : Nat)
    (pher : Nat → ℚ) (rnd : Nat → Nat → ℚ) (fuel : Nat) (g : Graph) (out : TrialOutcome)
    (hg : start_acoGraph n b t pher = .ok g)
    (hrun : start_trialLoop numAnts evaporation rnd fuel iterations
      { acoGraph := g, best := (n : Int) ^ 2 * (b : Int), paths := [], fitnesses := [] } = out) :
    start_trial n b t numAnts evaporation iterations pher rnd fuel = .ok out := by
  unfold start_trial
  rw [hg]
  simp only
  rw [hrun]

/-- For 500 items with squared weights, 50 bins, evaporation rate `1/2` and
every pheromone and selection draw the largest, the trial completes any
number of iterations with every fitness at 42042750 and `best` at its initial
value 12500000. -/
theorem start_trial_worst (numAnts iterations fuel : Nat) (hants : 0 < numAnts)
    (hfuel : 502 ≤ fuel) :
    ∃ s, start_trial 500 50 2 numAnts (1 / 2) iterations (fun _ => 1) (fun _ _ => 1) fuel =
        .ok ⟨s, none⟩ ∧
      s.best = 12500000 ∧ s.fitnesses.length = iterations * numAnts ∧
      ∀ f ∈ s.fitnesses, f = 42042750 := by
  obtain ⟨g0, hg0, hbuilt, hpt⟩ :=
    start_acoGraph_built 500 50 2 (fun _ => 1) (by decide) (by decide)
  have hinv : TrialWorst 500 50 2 42042750 12500000
      { acoGraph := g0, best := ((500 : Nat) : Int) ^ 2 * ((50 : Nat) : Int),
        paths := [], fitnesses := [] } :=
    ⟨layered_of_built 500 50 _ g0 hbuilt,
      pos_of_built 500 50 (by decide) _ (fun _ => by norm_num) g0 hbuilt, hpt,
      fun f hf => (by cases hf), rfl, fun p hp => (by cases hp), (by norm_num)⟩
  obtain ⟨s1, hrun, hs1, hlen⟩ :=
    start_trialLoop_worst 500 50 2 numAnts (1 / 2) 42042750 12500000 (by decide) (by decide)
      hants (by norm_num) fuel (by omega) worst_fitness (by norm_num) (by norm_num) iterations _
      hinv
  exact ⟨s1, start_trial_run 500 50 2 numAnts (1 / 2) iterations _ _ fuel g0 _ hg0 hrun,
    hs1.2.2.2.2.2.2, by simpa using hlen, hs1.2.2.2.1⟩

/-- C20, evaluated. One item, two bins, squared weights, one ant and every
selection draw 1: the ant has fitness 3 in both iterations and `best` is 2
after the trial, its initial value `numItems^2 * numBins`. For the second
problem of the program (500 items, 50 bins, squares), any number of ants,
evaporation rate `1/2` and every `rand()` at `RAND_MAX`, the trial completes
its 10000 iterations, every one of the `10000 * numAnts` fitnesses returned
by `getFitness` is 42042750, and `best` is 12500000 after the last
iteration, a fitness that no ant had. -/
theorem C20_best_at_failing_input :
    start_trial 1 2 2 1 1 2 (fun _ => 1 / 2) (fun _ _ => 1) 3 =
      .ok ⟨{ acoGraph :=
               { twoBinGraph with
                 bins := [1, 4]
                 problemType := 2
                 adjList := [[(1, 1/2, 1), (2, 201/2, 1)], [(3, 1, 1)], [(3, 101, 2)], []] }
             best := 2
             paths := [[0, 2, 3], [0, 2, 3]]
             fitnesses := [3, 3] }, none⟩ ∧
    ∀ (numAnts fuel : Nat), 0 < numAnts → 502 ≤ fuel →
      ∃ s, start 2 numAnts (1 / 2) (fun _ => 1) (fun _ _ => 1) fuel = .ok ⟨s, none⟩ ∧
        s.best = 12500000 ∧ s.fitnesses.length = 10000 * numAnts ∧
        ∀ f ∈ s.fitnesses, f = 42042750 :=
  ⟨by decide!, fun numAnts fuel hants hfuel => start_trial_worst numAnts 10000 fuel hants hfuel⟩

/-! ## The weights placed by a generated path, bin by bin -/

/-- Each bin holds, modulo `2^32`, what it held before plus the weights sent
to it. -/
theorem placeBins_getElem (t : Nat) : ∀ (js bins : List Nat) (currItem i : Nat),
    i < bins.length → (∀ x ∈ bins, x < UINT_RANGE) →
    (placeBins t bins currItem js)[i]? =
      some ((bins.getD i 0 + binLoad t currItem js i) % UINT_RANGE) := by
  intro js
  induction js with
  | nil =>
    intro bins currItem i hi hall
    have hx := hall bins[i] (List.getElem_mem hi)
    simp only [placeBins, binLoad, Nat.add_zero, List.getD_eq_getElem?_getD,
      List.getElem?_eq_getElem hi, Option.getD_some]
    rw [Nat.mod_eq_of_lt hx]
  | cons j js ih =>
    intro bins currItem i hi hall
    have hall1 : ∀ x ∈ bins.set j ((bins.getD j 0 + itemWeight t currItem) % UINT_RANGE),
        x < UINT_RANGE := by
      intro x hx
      rcases List.mem_or_eq_of_mem_set hx with hx | rfl
      · exact hall x hx
      · exact Nat.mod_lt _ (by decide)
    rw [placeBins, ih _ (currItem + 1) i (by rw [List.length_set]; exact hi) hall1]
    congr 1
    by_cases hji : j = i
    · subst hji
      have hget : (bins.set j ((bins.getD j 0 + itemWeight t currItem) % UINT_RANGE)).getD j 0 =
          (bins.getD j 0 + itemWeight t currItem) % UINT_RANGE := by
        simp [List.getD_eq_getElem?_getD, hi]
      rw [hget, binLoad, if_pos rfl]
      unfold UINT_RANGE
      omega
    · have hget : (bins.set j ((bins.getD j 0 + itemWeight t currItem) % UINT_RANGE)).getD i 0 =
          bins.getD i 0 := by
        simp [List.getD_eq_getElem?_getD, List.getElem?_set_ne hji]
      rw [hget, binLoad, if_neg hji, Nat.zero_add]

/-- On a layered graph `generatePath` leaves in the bins the weight of item
counter 0 at position 0 and the weights of the next counters at the bin
positions of the layer nodes of the path. -/
theorem generatePath_layered_bins (n b t : Nat) (rnd : Nat → ℚ) (hn : 0 < n) (hb : 0 < b)
    (hrnd : ∀ i, rnd i ≤ 1) (g : Graph) (hg : Layered n b g) (hnn : NonnegPher g)
    (ht : g.problemType = t) (fuel : Nat) (hfuel : n + 2 ≤ fuel) :
    ∃ g1 tail, g.generatePath rnd fuel = ⟨g1, .ok (0 :: tail)⟩ ∧ RouteFrom n b 0 tail ∧
      g1.bins = placeBins t (List.replicate b 0) 0
        (0 :: tail.dropLast.map (fun v => (v - 1) % b)) := by
  obtain ⟨tail, hrun, hroute, _⟩ :=
    generatePath_layered n b rnd (fun _ => True) hn hb hrnd g hg hnn
      (fun _ _ _ _ _ => trivial) fuel hfuel
  refine ⟨_, tail, hrun, hroute, ?_⟩
  rw [placeAll_bins]
  have e1 : (g.emptyBins.place 0 0).problemType = t := ht
  have e2 : g.emptyBins.bins = List.replicate b 0 := by
    simp only [Graph.emptyBins, List.map_const', hg.bins_length]
  have e3 : g.emptyBins.problemType = t := ht
  rw [e1, placeBins]
  unfold Graph.place
  simp only [e2, e3]

theorem built_root_bin (n b : Nat) (pher : Nat → ℚ) (g : Graph) (hg : Built n b pher g)
    (i d : Nat) (p : ℚ) (bin : Nat) (h : g.edgeAt 0 i = some (d, p, bin)) : bin = 1 := by
  unfold Graph.edgeAt at h
  rw [hg.adj.root] at h
  simp only [List.getElem?_map] at h
  cases hr : (List.range b)[i]? with
  | none => rw [hr] at h; simp at h
  | some x =>
    rw [hr] at h
    simp only [Option.map_some', Option.some.injEq, Prod.mk.injEq] at h
    exact h.2.2.symm

theorem built_node_bin (n b : Nat) (pher : Nat → ℚ) (g : Graph) (hg : Built n b pher g)
    (k j : Nat) (hk : k < n) (hj : j < b) (i d : Nat) (p : ℚ) (bin : Nat)
    (h : g.edgeAt (k * b + j + 1) i = some (d, p, bin)) : bin = j + 1 := by
  unfold Graph.edgeAt at h
  obtain ⟨dr, hnode⟩ := hg.adj.node k j hk hj
  by_cases hk1 : k + 1 < n
  · rw [builtNode, if_pos hk1] at hnode
    rw [hnode] at h
    simp only [List.getElem?_map] at h
    cases hr : (List.range b)[i]? with
    | none => rw [hr] at h; simp at h
    | some x =>
      rw [hr] at h
      simp only [Option.map_some', Option.some.injEq, Prod.mk.injEq] at h
      exact h.2.2.symm
  · rw [builtNode, if_neg hk1] at hnode
    rw [hnode] at h
    cases i with
    | zero =>
      simp only [List.getElem?_cons_zero, Option.some.injEq, Prod.mk.injEq] at h
      exact h.2.2.symm
    | succ i => simp at h

theorem built_node_edge (n b : Nat) (pher : Nat → ℚ) (g : Graph) (hg : Built n b pher g)
    (k j : Nat) (hk : k < n) (hj : j < b) :
    ∃ d p, g.edgeAt (k * b + j + 1) 0 = some (d, p, j + 1) := by
  by_cases hk1 : k + 1 < n
  · obtain ⟨p, hp⟩ := built_edgeAt_inner n b pher g hg k j 0 hk1 hj (by omega)
    exact ⟨_, p, hp⟩
  · exact ⟨_, 1, built_edgeAt_final n b pher g hg k j (by omega) hj⟩

theorem itemWeight_linear (j : Nat) : itemWeight 1 j = j + 1 := by
  simp [itemWeight]

/-- The weight is the square `(j + 1)^2` as long as the square fits an
`int`, that is for `j + 1 ≤ 46340`, and `2^31` from `j + 1 = 46341` on. -/
theorem itemWeight_square (t j : Nat) (ht : t ≠ 1) :
    (j + 1 ≤ 46340 → itemWeight t j = (j + 1) ^ 2) ∧
    (46341 ≤ j + 1 → itemWeight t j = 2147483648) := by
  unfold itemWeight INT_MAX
  rw [if_neg ht]
  constructor
  · intro hj
    have h : (j + 1) ^ 2 ≤ 46340 ^ 2 := Nat.pow_le_pow_left hj 2
    rw [if_pos (by omega)]
  · intro hj
    have h : 46341 ^ 2 ≤ (j + 1) ^ 2 := Nat.pow_le_pow_left hj 2
    rw [if_neg (by omega)]

theorem weightTotal_snoc (t first count : Nat) :
    weightTotal t first (count + 1) = weightTotal t first count + itemWeight t (first + count) := by
  unfold weightTotal
  rw [List.range_succ, List.map_append, List.sum_append]
  simp

/-- The weights of the counters `0, ..., m - 1` of the problem with squares
total `m (m + 1) (2 m + 1) / 6` while every square fits an `int`. -/
theorem weightTotal_squares : ∀ m, m ≤ 46340 →
    6 * weightTotal 2 0 m = m * (m + 1) * (2 * m + 1) := by
  intro m
  induction m with
  | zero => intro _; simp [weightTotal]
  | succ m ih =>
    intro hm
    rw [weightTotal_snoc, Nat.zero_add, (itemWeight_square 2 m (by decide)).1 hm, Nat.mul_add,
      ih (by omega)]
    ring

/-- With a single bin, placing `m` weights leaves their total modulo `2^32`. -/
theorem placeBins_single (t : Nat) : ∀ (m x currItem : Nat), x < UINT_RANGE →
    placeBins t [x] currItem (List.replicate m 0) =
      [(x + weightTotal t currItem m) % UINT_RANGE] := by
  intro m
  induction m with
  | zero =>
    intro x currItem hx
    simp [placeBins, weightTotal, Nat.mod_eq_of_lt hx]
  | succ m ih =>
    intro x currItem hx
    rw [List.replicate_succ, placeBins]
    simp only [List.set_cons_zero, List.getD_cons_zero]
    rw [ih _ (currItem + 1) (Nat.mod_lt _ (by decide)), weightTotal_succ]
    congr 1
    unfold UINT_RANGE
    omega

/-- C21 (as amended): on every graph produced by the builder for at least
one item and one bin, every root edge carries bin 1, and `generatePath`
returns a path of `numItems + 2` nodes that starts with the root 0 and has one
node `v` in each layer, whose edges all carry the bin `(v - 1) % numBins + 1`.
It places `numItems + 1` weights `w(0), ..., w(numItems)`, `w(0)` in bin 1
and `w(k + 1)` in the bin of the layer-`k` node of the path, where `w(j)` is
`j + 1` for the first problem and otherwise `(j + 1)^2` as long as the
square fits an `int` (`j + 1 ≤ 46340`) and `2^31` beyond. Every addition is
made modulo `2^32`: each bin holds the sum of the weights sent to it modulo
`2^32`, and the bins sum to `w(0) + ... + w(numItems)` when that total is
below `2^32`. -/
theorem C21_generatePath_places_weights (n b t : Nat) (pher rnd : Nat → ℚ)
    (hn : 1 ≤ n) (hb : 1 ≤ b) (hpher : ∀ i, 0 ≤ pher i ∧ pher i ≤ 1)
    (hrnd : ∀ i, 0 ≤ rnd i ∧ rnd i ≤ 1) :
    (∀ j, (t = 1 → itemWeight t j = j + 1) ∧
      (t ≠ 1 → j + 1 ≤ 46340 → itemWeight t j = (j + 1) ^ 2) ∧
      (t ≠ 1 → 46341 ≤ j + 1 → itemWeight t j = 2147483648)) ∧
    ∃ g, start_acoGraph n b t pher = .ok g ∧
      (∀ (i d : Nat) (p : ℚ) (bin : Nat), g.edgeAt 0 i = some (d, p, bin) → bin = 1) ∧
      ∀ fuel, n + 2 ≤ fuel →
        ∃ g1 tail, g.generatePath rnd fuel = ⟨g1, .ok (0 :: tail)⟩ ∧
          (0 :: tail).length = n + 2 ∧
          (∀ k, k < n → ∃ v, tail[k]? = some v ∧ k * b + 1 ≤ v ∧ v ≤ k * b + b ∧
            (∃ d p, g.edgeAt v 0 = some (d, p, (v - 1) % b + 1)) ∧
            ∀ (i d : Nat) (p : ℚ) (bin : Nat), g.edgeAt v i = some (d, p, bin) →
              bin = (v - 1) % b + 1) ∧
          g1.bins.length = b ∧
          (∀ i, i < b → g1.bins[i]? =
            some (binLoad t 0 (0 :: tail.dropLast.map (fun v => (v - 1) % b)) i %
              UINT_RANGE)) ∧
          (weightTotal t 0 (n + 1) < UINT_RANGE → g1.bins.sum = weightTotal t 0 (n + 1)) := by
  refine ⟨fun j => ⟨fun h => by rw [h]; exact itemWeight_linear j,
    fun h => (itemWeight_square t j h).1, fun h => (itemWeight_square t j h).2⟩, ?_⟩
  obtain ⟨g, hg, hbuilt, hpt⟩ := start_acoGraph_built n b t pher hn hb
  refine ⟨g, hg, built_root_bin n b pher g hbuilt, fun fuel hfuel => ?_⟩
  obtain ⟨g1, tail, hrun, hroute, hbins⟩ :=
    generatePath_layered_bins n b t rnd hn hb (fun i => (hrnd i).2) g
      (layered_of_built n b pher g hbuilt)
      (nonneg_of_built n b hb pher (fun i => (hpher i).1) g hbuilt) hpt fuel hfuel
  have hzero : ∀ x ∈ List.replicate b 0, x < UINT_RANGE := by
    intro x hx
    rw [(List.mem_replicate.mp hx).2]
    decide
  refine ⟨g1, tail, hrun, by rw [List.length_cons, hroute.1]; omega, ?_, ?_, ?_, ?_⟩
  · intro k hk
    obtain ⟨v, hv, hv1, hv2⟩ := hroute.2.1 k (by omega)
    rw [Nat.zero_add] at hv1 hv2
    obtain ⟨j, rfl⟩ : ∃ j, v = k * b + j + 1 := ⟨v - (k * b + 1), by omega⟩
    have hj : j < b := by omega
    refine ⟨_, hv, hv1, hv2, ?_, ?_⟩
    · rw [node_bin k b j hj]
      exact built_node_edge n b pher g hbuilt k j hk hj
    · rw [node_bin k b j hj]
      exact built_node_bin n b pher g hbuilt k j hk hj
  · rw [hbins, placeBins_length, List.length_replicate]
  · intro i hi
    rw [hbins, placeBins_getElem t _ _ 0 i (by rw [List.length_replicate]; exact hi) hzero]
    simp [List.getD_eq_getElem?_getD, List.getElem?_replicate, hi]
  · intro hsmall
    have hsum := generatePath_bins_sum n b pher rnd hn hb (fun i => (hpher i).1)
      (fun i => (hrnd i).2) g hbuilt (by rw [hpt]; exact hsmall) fuel hfuel
    rw [hrun, hpt] at hsum
    exact hsum

/-- C21 (as amended) for 3 items and 2 bins with linear weights, every
pheromone `1/2`, every selection draw 1. -/
theorem C21_generatePath_places_weights_witness :
    (∀ j, (1 = 1 → itemWeight 1 j = j + 1) ∧
      (1 ≠ 1 → j + 1 ≤ 46340 → itemWeight 1 j = (j + 1) ^ 2) ∧
      (1 ≠ 1 → 46341 ≤ j + 1 → itemWeight 1 j = 2147483648)) ∧
    ∃ g, start_acoGraph 3 2 1 (fun _ => 1 / 2) = .ok g ∧
      (∀ (i d : Nat) (p : ℚ) (bin : Nat), g.edgeAt 0 i = some (d, p, bin) → bin = 1) ∧
      ∀ fuel, 3 + 2 ≤ fuel →
        ∃ g1 tail, g.generatePath (fun _ => 1) fuel = ⟨g1, .ok (0 :: tail)⟩ ∧
          (0 :: tail).length = 3 + 2 ∧
          (∀ k, k < 3 → ∃ v, tail[k]? = some v ∧ k * 2 + 1 ≤ v ∧ v ≤ k * 2 + 2 ∧
            (∃ d p, g.edgeAt v 0 = some (d, p, (v - 1) % 2 + 1)) ∧
            ∀ (i d : Nat) (p : ℚ) (bin : Nat), g.edgeAt v i = some (d, p, bin) →
              bin = (v - 1) % 2 + 1) ∧
          g1.bins.length = 2 ∧
          (∀ i, i < 2 → g1.bins[i]? =
            some (binLoad 1 0 (0 :: tail.dropLast.map (fun v => (v - 1) % 2)) i %
              UINT_RANGE)) ∧
          (weightTotal 1 0 (3 + 1) < UINT_RANGE → g1.bins.sum = weightTotal 1 0 (3 + 1)) :=
  C21_generatePath_places_weights 3 2 1 (fun _ => 1 / 2) (fun _ => 1) (by decide) (by decide)
    (fun _ => by norm_num) (fun _ => by norm_num)

/-- C21 fails as stated. For 2343 items with squared weights and one bin the
weights `w(0), ..., w(2343)` total 4295655420, which is not below `2^32`, and
the only bin holds 688124 after `generatePath`. For 46340 items with squared
weights and one bin the last weight placed is `2^31` and not
`46341^2 = 2147488281`, which does not fit an `int`, and the bin holds
3292796830 after `generatePath`. -/
theorem C21_generatePath_counterexample :
    (∃ g, start_acoGraph 2343 1 2 (fun _ => 1 / 2) = .ok g ∧
      (g.generatePath (fun _ => 1) 2345).graph.bins = [688124] ∧
      ((List.range (2343 + 1)).map (fun j => (j + 1) ^ 2)).sum = 4295655420) ∧
    (∃ g, start_acoGraph 46340 1 2 (fun _ => 1 / 2) = .ok g ∧
      (g.generatePath (fun _ => 1) 46342).graph.bins = [3292796830] ∧
      itemWeight 2 46340 = 2147483648 ∧ (46340 + 1) ^ 2 = 2147488281) := by
  have hone : ∀ (n : Nat) (tail : List Nat), tail.length = n + 1 →
      (0 :: tail.dropLast.map (fun v => (v - 1) % 1)) = List.replicate (n + 1) 0 := by
    intro n tail hlen
    apply List.eq_replicate_iff.mpr
    refine ⟨?_, ?_⟩
    · rw [List.length_cons, List.length_map, List.length_dropLast, hlen]
      omega
    · intro x hx
      rcases List.mem_cons.mp hx with rfl | hx
      · rfl
      · obtain ⟨v, _, rfl⟩ := List.mem_map.mp hx
        exact Nat.mod_one _
  constructor
  · obtain ⟨g, hg, hbuilt, hpt⟩ :=
      start_acoGraph_built 2343 1 2 (fun _ => 1 / 2) (by decide) (by decide)
    obtain ⟨g1, tail, hrun, hroute, hbins⟩ :=
      generatePath_layered_bins 2343 1 2 (fun _ => 1) (by decide) (by decide)
        (fun _ => le_refl _) g (layered_of_built _ _ _ g hbuilt)
        (nonneg_of_built _ _ (by decide) _ (fun _ => by norm_num) g hbuilt) hpt 2345
        (by decide)
    have hval : placeBins 2 (List.replicate 1 0) 0 (List.replicate (2343 + 1) 0) = [688124] := by
      decide!
    refine ⟨g, hg, ?_, by decide!⟩
    rw [hrun]
    simp only
    rw [hbins, hone 2343 tail (by simpa using hroute.1), hval]
  · obtain ⟨g, hg, hbuilt, hpt⟩ :=
      start_acoGraph_built 46340 1 2 (fun _ => 1 / 2) (by decide) (by decide)
    obtain ⟨g1, tail, hrun, hroute, hbins⟩ :=
      generatePath_layered_bins 46340 1 2 (fun _ => 1) (by decide) (by decide)
        (fun _ => le_refl _) g (layered_of_built _ _ _ g hbuilt)
        (nonneg_of_built _ _ (by decide) _ (fun _ => by norm_num) g hbuilt) hpt 46342
        (by decide)
    have hlast := (itemWeight_square 2 46340 (by decide)).2 (by decide)
    have hsq := weightTotal_squares 46340 (le_refl _)
    have htot : weightTotal 2 0 (46340 + 1) = 33173325223838 := by
      rw [weightTotal_snoc, Nat.zero_add, hlast]
      omega
    refine ⟨g, hg, ?_, hlast, by norm_num⟩
    rw [hrun]
    simp only
    rw [hbins, hone 46340 tail (by simpa using hroute.1)]
    have hrep : List.replicate 1 0 = [0] := rfl
    rw [hrep, placeBins_single 2 (46340 + 1) 0 0 (by decide), htot]
    rfl

/-! ## Edges with pheromone 0 in the selection -/

theorem cumulative_succ : ∀ (cs : List Triple) (i : Nat) (c : Triple),
    cs[i + 1]? = some c → cumulative cs (i + 1) = cumulative cs i + c.2.1 := by
  intro cs
  induction cs with
  | nil => intro i c h; simp at h
  | cons x xs ih =>
    intro i c h
    rw [List.getElem?_cons_succ] at h
    cases i with
    | zero =>
      cases xs with
      | nil => simp at h
      | cons y ys =>
        simp only [List.getElem?_cons_zero, Option.some.injEq] at h
        rw [cumulative_cons_succ, cumulative_cons_zero, cumulative_cons_zero, h]
    | succ i =>
      rw [cumulative_cons_succ, cumulative_cons_succ, ih i c h]
      ring

/-- C22: for a node whose edge list is non-empty with non-negative
pheromones, and a draw whose scaled value `r = random * total` lies between 0
and the pheromone total, the index returned by `generateIdx` is 0 or the
position of an edge with a pheromone above 0, and it is 0 when `r = 0`,
whatever the pheromone of the first edge. -/
theorem C22_generateIdx_skips_zero_edges (g : Graph) (item : Nat) (choices : List Triple)
    (random : ℚ) (hnode : g.adjList[item]? = some choices) (hne : choices ≠ [])
    (hnonneg : ∀ c ∈ choices, 0 ≤ c.2.1)
    (_hr0 : 0 ≤ random * totalPheromone choices)
    (hr1 : random * totalPheromone choices ≤ totalPheromone choices) :
    ∃ i, g.generateIdx item random = .ok i ∧ i < choices.length ∧
      (i = 0 ∨ ∃ c, choices[i]? = some c ∧ 0 < c.2.1) ∧
      (random * totalPheromone choices = 0 → i = 0) := by
  obtain ⟨hlt, hge, hleast⟩ := selectIdx_spec choices random hne hnonneg hr1
  refine ⟨selectIdx choices random, by simp [Graph.generateIdx, hnode], hlt, ?_, ?_⟩
  · cases hi : selectIdx choices random with
    | zero => exact Or.inl rfl
    | succ i =>
      right
      rw [hi] at hlt hge hleast
      refine ⟨choices[i + 1], List.getElem?_eq_getElem hlt, ?_⟩
      have hsucc := cumulative_succ choices i _ (List.getElem?_eq_getElem hlt)
      have hbelow := hleast i (by omega)
      linarith
  · intro hzero
    by_contra hpos
    have hbelow := hleast 0 (by omega)
    have hfirst : 0 ≤ cumulative choices 0 := by
      unfold cumulative
      exact totalPheromone_nonneg _ (fun c hc => hnonneg c (List.mem_of_mem_take hc))
    linarith

/-- C22 at a node with the pheromones `0, 1/2, 0` and the largest draw: the
edge at position 1 is returned, not the last one. -/
theorem C22_generateIdx_skips_zero_edges_witness :
    ∃ i, ({ scenarioGraph with
            adjList := [[(1, 0, 1), (2, 1/2, 1), (3, 0, 1)]] } : Graph).generateIdx 0 1 =
        .ok i ∧ i < [((1 : Nat), (0 : ℚ), (1 : Nat)), (2, 1/2, 1), (3, 0, 1)].length ∧
      (i = 0 ∨ ∃ c, [((1 : Nat), (0 : ℚ), (1 : Nat)), (2, 1/2, 1), (3, 0, 1)][i]? = some c ∧
        0 < c.2.1) ∧
      (1 * totalPheromone [(1, 0, 1), (2, 1/2, 1), (3, 0, 1)] = 0 → i = 0) :=
  C22_generateIdx_skips_zero_edges
    { scenarioGraph with adjList := [[(1, 0, 1), (2, 1/2, 1), (3, 0, 1)]] } 0
    [(1, 0, 1), (2, 1/2, 1), (3, 0, 1)] 1 rfl (by simp)
    (by intro c hc; simp at hc; rcases hc with rfl | rfl | rfl <;> norm_num)
    (by norm_num [totalPheromone]) (by norm_num [totalPheromone])

/-! ## Rounding to `float` and `double` -/

theorem pow2_eq (e : Int) : pow2 e = (2 : ℚ) ^ e := by
  unfold pow2
  split_ifs with h
  · obtain ⟨n, rfl⟩ := Int.eq_ofNat_of_zero_le h
    simp
  · obtain ⟨n, hn⟩ := Int.eq_ofNat_of_zero_le (show 0 ≤ -e by omega)
    have he : e = -(n : Int) := by omega
    rw [hn, he]
    simp

theorem pow2_pos (e : Int) : 0 < pow2 e := by
  rw [pow2_eq]
  exact zpow_pos (by norm_num) e

theorem pow2_add (a b : Int) : pow2 (a + b) = pow2 a * pow2 b := by
  rw [pow2_eq, pow2_eq, pow2_eq]
  exact zpow_add₀ (by norm_num) a b

theorem pow2_le (a b : Int) (h : a ≤ b) : pow2 a ≤ pow2 b := by
  rw [pow2_eq, pow2_eq]
  exact zpow_le_zpow_right₀ (by norm_num) h

theorem pow2_nat (n : Nat) : pow2 (n : Int) = ((2 ^ n : Nat) : ℚ) := by
  rw [pow2_eq]
  simp

/-- A number on the grid of `2^e` is an integer multiple of every finer
`2^e0`. -/
theorem pow2_grid (m : Nat) (e e0 : Int) (h : e0 ≤ e) :
    (m : ℚ) * pow2 e = ((m * 2 ^ (e - e0).toNat : Nat) : ℚ) * pow2 e0 := by
  obtain ⟨n, hn⟩ := Int.eq_ofNat_of_zero_le (show 0 ≤ e - e0 by omega)
  have he : e = (n : Int) + e0 := by omega
  rw [hn, he, pow2_add, pow2_nat]
  simp only [Int.toNat_ofNat]
  push_cast
  ring

theorem floor_le_self (q : ℚ) : (Rat.floor q : ℚ) ≤ q := Int.floor_le q

theorem lt_floor_add_one (q : ℚ) : q < (Rat.floor q : ℚ) + 1 := Int.lt_floor_add_one q

theorem roundHalfEven_ge (q : ℚ) (k : Int) (h : (k : ℚ) ≤ q) : k ≤ roundHalfEven q := by
  have hk : k ≤ Rat.floor q := Int.le_floor.mpr h
  unfold roundHalfEven
  split_ifs <;> omega

theorem roundHalfEven_le (q : ℚ) (k : Int) (h : q ≤ (k : ℚ)) : roundHalfEven q ≤ k := by
  have h1 := floor_le_self q
  have h2 : Rat.floor q ≤ k := by
    have : (Rat.floor q : ℚ) ≤ (k : ℚ) := le_trans h1 h
    exact_mod_cast this
  unfold roundHalfEven
  split_ifs with ha hb hc
  · exact h2
  · have : (Rat.floor q : ℚ) < (k : ℚ) := by linarith
    have : Rat.floor q < k := by exact_mod_cast this
    omega
  · exact h2
  · have hfrac : q - (Rat.floor q : ℚ) = 1 / 2 := by
      have := not_lt.mp ha
      have := not_lt.mp hb
      linarith
    have : (Rat.floor q : ℚ) < (k : ℚ) := by linarith
    have : Rat.floor q < k := by exact_mod_cast this
    omega

/-- What the search for the exponent of the last place finds. -/
theorem quantum_spec (prec : Nat) (x : ℚ) : ∀ (fuel : Nat) (e0 : Int),
    e0 ≤ quantum prec x fuel e0 ∧ quantum prec x fuel e0 ≤ e0 + fuel ∧
    (∀ e, e0 ≤ e → e < quantum prec x fuel e0 → pow2 (e + prec) ≤ x) ∧
    (quantum prec x fuel e0 < e0 + fuel → x < pow2 (quantum prec x fuel e0 + prec)) := by
  intro fuel
  induction fuel with
  | zero =>
    intro e0
    simp only [quantum]
    refine ⟨le_refl _, by omega, fun e h1 h2 => by omega, fun h => by omega⟩
  | succ fuel ih =>
    intro e0
    rw [quantum]
    split_ifs with h
    · refine ⟨le_refl _, by omega, fun e h1 h2 => by omega, fun _ => h⟩
    · obtain ⟨h1, h2, h3, h4⟩ := ih (e0 + 1)
      refine ⟨by omega, by push_cast; omega, ?_, ?_⟩
      · intro e he1 he2
        by_cases heq : e = e0
        · rw [heq]
          exact not_lt.mp h
        · exact h3 e (by omega) he2
      · intro hlt
        exact h4 (by push_cast at hlt; omega)

/-- Rounding does not go below a representable number that the rounded
number is not below. -/
theorem roundPos_ge (prec : Nat) (emin emax : Int) (hp : 0 < prec) (x : ℚ)
    (m : Nat) (ec : Int) (hm : m < 2 ^ prec) (hec : emin ≤ ec)
    (hcx : (m : ℚ) * pow2 ec ≤ x) :
    roundPos prec emin emax x = .posInf ∨
      ∃ y, roundPos prec emin emax x = .fin y ∧ (m : ℚ) * pow2 ec ≤ y := by
  obtain ⟨h1, _, h3, _⟩ := quantum_spec prec x (emax + 1 - emin).toNat emin
  unfold roundPos
  set e := quantum prec x (emax + 1 - emin).toNat emin with he
  have hpe := pow2_pos e
  split_ifs with hfin
  · right
    refine ⟨_, rfl, ?_⟩
    by_cases hcase : e ≤ ec
    · rw [pow2_grid m ec e hcase] at hcx ⊢
      have hq : (((m * 2 ^ (ec - e).toNat : Nat) : Int) : ℚ) ≤ x / pow2 e := by
        rw [le_div_iff₀ hpe]
        exact_mod_cast hcx
      have := roundHalfEven_ge _ _ hq
      have hc : (((m * 2 ^ (ec - e).toNat : Nat) : Int) : ℚ) ≤
          (roundHalfEven (x / pow2 e) : ℚ) := by exact_mod_cast this
      have hc2 : ((m * 2 ^ (ec - e).toNat : Nat) : ℚ) ≤ (roundHalfEven (x / pow2 e) : ℚ) := by
        exact_mod_cast hc
      exact mul_le_mul_of_nonneg_right hc2 (le_of_lt hpe)
    · have hlow := h3 (e - 1) (by omega) (by omega)
      obtain ⟨p, rfl⟩ : ∃ p, prec = p + 1 := ⟨prec - 1, by omega⟩
      have hsplit : pow2 (e - 1 + ((p + 1 : Nat) : Int)) = ((2 ^ p : Nat) : ℚ) * pow2 e := by
        have : e - 1 + ((p + 1 : Nat) : Int) = (p : Int) + e := by push_cast; omega
        rw [this, pow2_add, pow2_nat]
      rw [hsplit] at hlow
      have hq : (((2 ^ p : Nat) : Int) : ℚ) ≤ x / pow2 e := by
        rw [le_div_iff₀ hpe]
        exact_mod_cast hlow
      have := roundHalfEven_ge _ _ hq
      have hc : (((2 ^ p : Nat) : Int) : ℚ) ≤ (roundHalfEven (x / pow2 e) : ℚ) := by
        exact_mod_cast this
      have hc2 : ((2 ^ p : Nat) : ℚ) ≤ (roundHalfEven (x / pow2 e) : ℚ) := by
        exact_mod_cast hc
      have hy := mul_le_mul_of_nonneg_right hc2 (le_of_lt hpe)
      rw [← hsplit] at hy
      have hstep : pow2 (ec + ((p + 1 : Nat) : Int)) ≤ pow2 (e - 1 + ((p + 1 : Nat) : Int)) :=
        pow2_le _ _ (by omega)
      have hmc : (m : ℚ) * pow2 ec ≤ pow2 (ec + ((p + 1 : Nat) : Int)) := by
        rw [Int.add_comm, pow2_add, pow2_nat]
        have : (m : ℚ) ≤ ((2 ^ (p + 1) : Nat) : ℚ) := by exact_mod_cast le_of_lt hm
        exact mul_le_mul_of_nonneg_right this (le_of_lt (pow2_pos ec))
      linarith
  · exact Or.inl rfl

/-- A finite result of rounding is not negative and is representable. -/
theorem roundPos_representable (prec : Nat) (emin emax : Int) (hp : 0 < prec)
    (hrange : emin ≤ emax + 1) (x : ℚ) (hx : 0 < x) (y : ℚ)
    (h : roundPos prec emin emax x = .fin y) : 0 ≤ y ∧ Representable prec emin y := by
  obtain ⟨h1, h2, _, h4⟩ := quantum_spec prec x (emax + 1 - emin).toNat emin
  have hfuel : emin + (((emax + 1 - emin).toNat : Nat) : Int) = emax + 1 := by
    rw [Int.toNat_of_nonneg (by omega)]
    omega
  rw [hfuel] at h2 h4
  unfold roundPos at h
  set e := quantum prec x (emax + 1 - emin).toNat emin with he
  have hpe := pow2_pos e
  split_ifs at h with hfin
  injection h with h
  have hM0 : 0 ≤ roundHalfEven (x / pow2 e) :=
    roundHalfEven_ge _ 0 (by
      simp only [Int.cast_zero]
      exact le_of_lt (div_pos hx hpe))
  obtain ⟨M, hM⟩ := Int.eq_ofNat_of_zero_le hM0
  rw [hM] at h hfin
  simp only [Int.cast_natCast] at h hfin
  have hy0 : 0 ≤ y := by
    rw [← h]
    exact mul_nonneg (by exact_mod_cast Nat.zero_le M) (le_of_lt hpe)
  refine ⟨hy0, ?_⟩
  obtain ⟨p, rfl⟩ : ∃ p, prec = p + 1 := ⟨prec - 1, by omega⟩
  by_cases hout : e < emax + 1
  · have hxlt := h4 hout
    have hq : x / pow2 e ≤ (((2 ^ (p + 1) : Nat) : Int) : ℚ) := by
      rw [div_le_iff₀ hpe]
      rw [Int.add_comm, pow2_add, pow2_nat] at hxlt
      exact_mod_cast le_of_lt hxlt
    have hMle := roundHalfEven_le _ _ hq
    rw [hM] at hMle
    have hMle2 : M ≤ 2 ^ (p + 1) := by exact_mod_cast hMle
    by_cases hMeq : M = 2 ^ (p + 1)
    · refine ⟨2 ^ p, e + 1, ?_, ?_, by omega⟩
      · rw [← h, hMeq, pow2_add, pow2_eq 1]
        push_cast
        ring
      · exact Nat.pow_lt_pow_right (by norm_num) (by omega)
    · exact ⟨M, e, h.symm, by omega, h1⟩
  · have heq : e = emax + 1 := by omega
    refine ⟨M, e, h.symm, ?_, h1⟩
    have hsplit : pow2 (emax + ((p + 1 : Nat) : Int)) = ((2 ^ p : Nat) : ℚ) * pow2 e := by
      have : emax + ((p + 1 : Nat) : Int) = (p : Int) + e := by push_cast; omega
      rw [this, pow2_add, pow2_nat]
    rw [hsplit] at hfin
    have hlt : (M : ℚ) < ((2 ^ p : Nat) : ℚ) := lt_of_mul_lt_mul_right hfin (le_of_lt hpe)
    have hlt2 : M < 2 ^ p := by exact_mod_cast hlt
    have : 2 ^ p ≤ 2 ^ (p + 1) := Nat.pow_le_pow_right (by norm_num) (by omega)
    omega

theorem fp_le_trans (a b c : Fp) (h1 : Fp.le a b = true) (h2 : Fp.le b c = true) :
    Fp.le a c = true := by
  cases a <;> cases b <;> cases c <;> simp_all [Fp.le]
  exact le_trans h1 h2

theorem fp_lt_of_le_of_lt (a b c : Fp) (h1 : Fp.le a b = true) (h2 : Fp.lt b c = true) :
    Fp.lt a c = true := by
  cases a <;> cases b <;> cases c <;> simp_all [Fp.le, Fp.lt]
  exact lt_of_le_of_lt h1 h2

theorem fp_le_refl (a : Fp) (h : a.IsFloat) : Fp.le a a = true := by
  rcases h with rfl | ⟨q, rfl, _, _⟩ <;> simp [Fp.le]

/-- Of two values that are not NaN, the first is below the second or the
second is not above the first. -/
theorem fp_le_of_not_lt (c r : Fp) (hc : c.IsFloat) (hr : Fp.le r r = true)
    (h : ¬ Fp.lt c r = true) : Fp.le r c = true := by
  rcases hc with rfl | ⟨q, rfl, _, _⟩ <;> cases r <;> simp_all [Fp.le, Fp.lt]

/-- Adding a non-negative pheromone to a cumulative sum gives a `float` that
is not smaller. -/
theorem add_isFloat (c p : Fp) (hc : c.IsFloat) (hp : p.Nonneg) :
    (Fp.add toFloat c p).IsFloat ∧ Fp.le c (Fp.add toFloat c p) = true := by
  rcases hc with rfl | ⟨cq, rfl, hcq, m, ec, hrep, hm, hec⟩
  · rcases hp with rfl | ⟨q, rfl, _⟩
    · exact ⟨Or.inl rfl, rfl⟩
    · exact ⟨Or.inl rfl, rfl⟩
  · rcases hp with rfl | ⟨q, rfl, hq⟩
    · exact ⟨Or.inl rfl, rfl⟩
    · simp only [Fp.add, toFloat, roundTo]
      by_cases hz : cq + q = 0
      · rw [if_pos hz]
        have : cq = 0 := by linarith
        subst this
        refine ⟨Or.inr ⟨0, rfl, le_refl _, 0, -149, by simp, by norm_num, le_refl _⟩, ?_⟩
        simp [Fp.le]
      · have hpos : 0 < cq + q := lt_of_le_of_ne (by linarith) (Ne.symm hz)
        rw [if_neg hz, if_pos hpos]
        have hge := roundPos_ge 24 (-149) 104 (by norm_num) (cq + q) m ec hm hec
          (by rw [← hrep]; linarith)
        rcases hge with hinf | ⟨y, hy, hle⟩
        · rw [hinf]
          exact ⟨Or.inl rfl, rfl⟩
        · rw [hy]
          obtain ⟨hy0, hyrep⟩ := roundPos_representable 24 (-149) 104 (by norm_num)
            (by norm_num) (cq + q) hpos y hy
          refine ⟨Or.inr ⟨y, rfl, hy0, hyrep⟩, ?_⟩
          simp only [Fp.le, decide_eq_true_eq]
          rw [hrep]
          exact hle

/-! ## The selection of `generateIdx` in `float` arithmetic -/

theorem foldl_isFloat : ∀ (cs : List FTriple) (s : Fp), s.IsFloat →
    (∀ c ∈ cs, c.2.1.Nonneg) →
    (cs.foldl (fun s c => Fp.add toFloat s c.2.1) s).IsFloat ∧
      Fp.le s (cs.foldl (fun s c => Fp.add toFloat s c.2.1) s) = true := by
  intro cs
  induction cs with
  | nil => intro s hs _; exact ⟨hs, fp_le_refl s hs⟩
  | cons c cs ih =>
    intro s hs hnn
    obtain ⟨h1, h2⟩ := add_isFloat s c.2.1 hs (hnn c (List.mem_cons_self _ _))
    obtain ⟨h3, h4⟩ := ih _ h1 (fun x hx => hnn x (List.mem_cons_of_mem _ hx))
    exact ⟨h3, fp_le_trans _ _ _ h2 h4⟩

theorem isFloat_zero : (Fp.fin 0).IsFloat :=
  Or.inr ⟨0, rfl, le_refl _, 0, -149, by simp, by norm_num, le_refl _⟩

theorem cumulativeF_isFloat (cs : List FTriple) (hnn : ∀ c ∈ cs, c.2.1.Nonneg) (i : Nat) :
    (cumulativeF cs i).IsFloat :=
  (foldl_isFloat _ _ isFloat_zero (fun c hc => hnn c (List.mem_of_mem_take hc))).1

/-- The cumulative sums computed in `float` do not decrease along the
edges when no pheromone is negative. -/
theorem cumulativeF_mono (cs : List FTriple) (hnn : ∀ c ∈ cs, c.2.1.Nonneg) (i j : Nat)
    (hij : i ≤ j) : Fp.le (cumulativeF cs i) (cumulativeF cs j) = true := by
  have hsplit : cs.take (j + 1) = cs.take (i + 1) ++ (cs.take (j + 1)).drop (i + 1) := by
    have := (List.take_append_drop (i + 1) (cs.take (j + 1))).symm
    rw [List.take_take, Nat.min_eq_left (by omega)] at this
    exact this
  unfold cumulativeF
  rw [hsplit, List.foldl_append]
  exact (foldl_isFloat _ _ (cumulativeF_isFloat cs hnn i)
    (fun c hc => hnn c (List.mem_of_mem_take (List.mem_of_mem_drop hc)))).2

theorem cumulativeF_last (cs : List FTriple) (i : Nat) (hi : cs.length ≤ i + 1) :
    cumulativeF cs i = totalF cs := by
  unfold cumulativeF totalF
  rw [List.take_of_length_le hi]

theorem foldl_take_succ (cs : List FTriple) (s : Fp) (i : Nat) (c : FTriple)
    (h : cs[i]? = some c) :
    (cs.take (i + 1)).foldl (fun s c => Fp.add toFloat s c.2.1) s =
      Fp.add toFloat ((cs.take i).foldl (fun s c => Fp.add toFloat s c.2.1) s) c.2.1 := by
  have hi : i < cs.length := by
    by_contra hcon
    rw [List.getElem?_eq_none (by omega)] at h
    cases h
  rw [List.take_succ, h]
  simp [List.foldl_append]

theorem weightCumLoopF_eq : ∀ (cs : List FTriple) (w : List Fp) (s : Fp),
    weightCumLoopF cs (w, s) =
      (w ++ (List.range cs.length).map
          (fun i => (cs.take (i + 1)).foldl (fun s c => Fp.add toFloat s c.2.1) s),
        cs.foldl (fun s c => Fp.add toFloat s c.2.1) s) := by
  intro cs
  induction cs with
  | nil => intro w s; simp [weightCumLoopF]
  | cons c cs ih =>
    intro w s
    rw [weightCumLoopF, ih]
    simp only [List.length_cons, List.range_succ_eq_map, List.map_cons, List.map_map,
      List.append_assoc, List.singleton_append, List.foldl_cons, Prod.mk.injEq, and_true]
    congr 2

theorem weightCumLoopF_fst (cs : List FTriple) :
    (weightCumLoopF cs ([], .fin 0)).1 = (List.range cs.length).map (cumulativeF cs) := by
  rw [weightCumLoopF_eq]
  simp only [List.nil_append]
  rfl

theorem weightCumLoopF_snd (cs : List FTriple) :
    (weightCumLoopF cs ([], .fin 0)).2 = totalF cs := by
  rw [weightCumLoopF_eq]
  rfl

/-- The loop of `std::lower_bound` on a range that is partitioned with
respect to `· < val`: the elements below `val` come first. -/
theorem lower_bound_loop_partition {α : Type} [LT α]
    [DecidableRel (fun (a b : α) => a < b)] (xs : List α) (val : α)
    (hpart : ∀ (i j : Nat) (a c : α), i ≤ j → xs[i]? = some a → xs[j]? = some c →
      c < val → a < val) :
    ∀ fuel first len, len ≤ fuel → first + len ≤ xs.length →
      (∀ i a, i < first → xs[i]? = some a → a < val) →
      (∀ i a, first + len ≤ i → xs[i]? = some a → ¬ a < val) →
      first ≤ lower_bound_loop xs val fuel first len ∧
      lower_bound_loop xs val fuel first len ≤ first + len ∧
      (∀ i a, i < lower_bound_loop xs val fuel first len → xs[i]? = some a → a < val) ∧
      (∀ i a, lower_bound_loop xs val fuel first len ≤ i → xs[i]? = some a → ¬ a < val) := by
  intro fuel
  induction fuel with
  | zero =>
    intro first len hlen _ hlo hhi
    have : len = 0 := by omega
    subst this
    simp only [lower_bound_loop]
    exact ⟨le_refl _, by omega, hlo, fun i a hi ha => hhi i a (by omega) ha⟩
  | succ fuel ih =>
    intro first len hlen hbound hlo hhi
    rw [lower_bound_loop]
    by_cases hz : len = 0
    · rw [if_pos hz]
      subst hz
      exact ⟨le_refl _, by omega, hlo, fun i a hi ha => hhi i a (by omega) ha⟩
    · rw [if_neg hz]
      have hhalf : len / 2 < len := Nat.div_lt_self (by omega) (by norm_num)
      have hin : first + len / 2 < xs.length := by omega
      simp only [List.getElem?_eq_getElem hin]
      by_cases hmid : xs[first + len / 2] < val
      · rw [if_pos hmid]
        obtain ⟨h1, h2, h3, h4⟩ := ih (first + len / 2 + 1) (len - len / 2 - 1) (by omega)
          (by omega)
          (fun i a hi ha =>
            hpart i (first + len / 2) a _ (by omega) ha (List.getElem?_eq_getElem hin) hmid)
          (fun i a hi ha => hhi i a (by omega) ha)
        exact ⟨by omega, by omega, h3, h4⟩
      · rw [if_neg hmid]
        obtain ⟨h1, h2, h3, h4⟩ := ih first (len / 2) (by omega) (by omega) hlo
          (fun i a hi ha hlt =>
            hmid (hpart (first + len / 2) i _ a hi (List.getElem?_eq_getElem hin) ha hlt))
        exact ⟨h1, by omega, h3, h4⟩

theorem lower_bound_partition {α : Type} [LT α]
    [DecidableRel (fun (a b : α) => a < b)] (xs : List α) (val : α)
    (hpart : ∀ (i j : Nat) (a c : α), i ≤ j → xs[i]? = some a → xs[j]? = some c →
      c < val → a < val) :
    lower_bound xs val ≤ xs.length ∧
    (∀ i a, i < lower_bound xs val → xs[i]? = some a → a < val) ∧
    (∀ i a, lower_bound xs val ≤ i → xs[i]? = some a → ¬ a < val) := by
  have h := lower_bound_loop_partition xs val hpart xs.length 0 xs.length (le_refl _)
    (by omega) (fun i a hi _ => absurd hi (Nat.not_lt_zero i))
    (fun i a hi ha => by
      have : xs[i]? = none := List.getElem?_eq_none (by omega)
      rw [this] at ha; cases ha)
  unfold lower_bound
  exact ⟨by omega, h.2.2.1, h.2.2.2⟩

/-- C6 (as amended): for a node whose edge list is non-empty with pheromones
that are not negative, and a draw `r = random * cumSum` between 0 and the
`cumSum` of the loop, `generateIdx` returns an index `i` below the number of
edges such that the cumulative sum of the edges `0, ..., i` as the code
computes it, every partial sum rounded to `float`, is `≥ r`, and no smaller
index has such a cumulative sum `≥ r`. -/
theorem C6_generateIdx_least_index (g : FGraph) (randMax item rand : Nat)
    (choices : List FTriple) (hnode : g.adjList[item]? = some choices) (hne : choices ≠ [])
    (hnonneg : ∀ c ∈ choices, c.2.1.Nonneg)
    (_hr0 : Fp.le (.fin 0) (FGraph.draw randMax rand (totalF choices)) = true)
    (hr1 : Fp.le (FGraph.draw randMax rand (totalF choices)) (totalF choices) = true) :
    ∃ i, g.generateIdx randMax item rand = .ok i ∧ i < choices.length ∧
      Fp.le (FGraph.draw randMax rand (totalF choices)) (cumulativeF choices i) = true ∧
      ∀ j, j < i →
        Fp.lt (cumulativeF choices j) (FGraph.draw randMax rand (totalF choices)) = true := by
  set r := FGraph.draw randMax rand (totalF choices) with hr
  have hrr : Fp.le r r = true := by
    cases hrc : r <;> rw [hrc] at hr1 <;> simp_all [Fp.le]
  have hget : ∀ i, i < choices.length →
      ((List.range choices.length).map (cumulativeF choices))[i]? =
        some (cumulativeF choices i) := by
    intro i hi
    rw [List.getElem?_map, List.getElem?_range hi]; rfl
  have hlook : ∀ (i : Nat) (a : Fp),
      ((List.range choices.length).map (cumulativeF choices))[i]? = some a →
      i < choices.length ∧ a = cumulativeF choices i := by
    intro i a h
    by_cases hi : i < choices.length
    · rw [hget i hi] at h
      injection h with h
      exact ⟨hi, h.symm⟩
    · rw [List.getElem?_eq_none (by simpa using hi)] at h
      cases h
  have hpart : ∀ (i j : Nat) (a c : Fp), i ≤ j →
      ((List.range choices.length).map (cumulativeF choices))[i]? = some a →
      ((List.range choices.length).map (cumulativeF choices))[j]? = some c →
      c < r → a < r := by
    intro i j a c hij ha hc hlt
    rw [(hlook i a ha).2]
    rw [(hlook j c hc).2] at hlt
    exact fp_lt_of_le_of_lt _ _ _ (cumulativeF_mono choices hnonneg i j hij) hlt
  obtain ⟨hlen, hlo, hhi⟩ := lower_bound_partition _ r hpart
  simp only [List.length_map, List.length_range] at hlen
  have hpos : 0 < choices.length := List.length_pos.mpr hne
  set idx := lower_bound ((List.range choices.length).map (cumulativeF choices)) r with hidx
  have hlt : idx < choices.length := by
    by_contra hge
    have hlast := hlo (choices.length - 1) _ (by omega) (hget (choices.length - 1) (by omega))
    rw [cumulativeF_last choices (choices.length - 1) (by omega)] at hlast
    have hcon : Fp.lt (totalF choices) r = true := hlast
    have htot : Fp.le (totalF choices) (totalF choices) = true :=
      fp_le_refl _ (by
        rw [← cumulativeF_last choices (choices.length - 1) (by omega)]
        exact cumulativeF_isFloat choices hnonneg _)
    have := fp_lt_of_le_of_lt _ _ _ hr1 hcon
    cases hrc : r <;> rw [hrc] at this <;> simp [Fp.lt] at this
  refine ⟨idx, ?_, hlt, ?_, ?_⟩
  · unfold FGraph.generateIdx
    rw [hnode]
    simp only [weightCumLoopF_fst, weightCumLoopF_snd]
  · exact fp_le_of_not_lt _ _ (cumulativeF_isFloat choices hnonneg idx) hrr
      (hhi idx _ (le_refl _) (hget idx hlt))
  · intro j hj
    exact hlo j _ hj (hget j (by omega))

/-- C6 (as amended) at a node with the pheromones `1/2, 1/2`, with
`RAND_MAX = 2^31 - 1` and `rand() = 3 * 2^29`: the draw is `3/4`. -/
theorem C6_generateIdx_least_index_witness :
    ∃ i, (⟨3, [halfNode]⟩ : FGraph).generateIdx 2147483647 0 1610612736 = .ok i ∧
      i < halfNode.length ∧
      Fp.le (FGraph.draw 2147483647 1610612736 (totalF halfNode)) (cumulativeF halfNode i) =
        true ∧
      ∀ j, j < i →
        Fp.lt (cumulativeF halfNode j) (FGraph.draw 2147483647 1610612736 (totalF halfNode)) =
          true :=
  C6_generateIdx_least_index ⟨3, [halfNode]⟩ 2147483647 0 1610612736 halfNode rfl
    (by decide)
    (by
      intro c hc
      simp only [halfNode, List.mem_cons, List.mem_singleton, List.not_mem_nil, or_false] at hc
      rcases hc with rfl | rfl <;> exact Or.inr ⟨1 / 2, rfl, by norm_num⟩)
    (by decide!) (by decide!)

/-- C6 fails as stated: at a node with the pheromones `1`, `3 / 2^25`, `1`,
with `RAND_MAX = 2^31 - 1` and `rand() = 2^30 + 128`, the loop computes the
cumulative sums `1`, `1 + 2^-23`, `2` and the draw `r = 1 + 2^-23`, which lies
between 0 and the sum of the pheromones, and `generateIdx` returns 1, although
`p_0 + p_1 = 1 + 3 / 2^25` is below `r`: the least index with
`p_0 + ... + p_i ≥ r` is 2. -/
theorem C6_generateIdx_counterexample :
    (⟨5, [roundingNode]⟩ : FGraph).generateIdx 2147483647 0 1073741952 = .ok 1 ∧
    cumulativeF roundingNode 0 = .fin 1 ∧
    cumulativeF roundingNode 1 = .fin (1 + 1 / 8388608) ∧
    cumulativeF roundingNode 2 = .fin 2 ∧
    FGraph.draw 2147483647 1073741952 (totalF roundingNode) = .fin (1 + 1 / 8388608) ∧
    (0 : ℚ) ≤ 1 + 1 / 8388608 ∧
    (1 + 1 / 8388608 : ℚ) ≤ 1 + 3 / 33554432 + 1 ∧
    (1 + 3 / 33554432 : ℚ) < 1 + 1 / 8388608 := by
  refine ⟨by decide!, by decide!, by decide!, by decide!, by decide!, by norm_num, by norm_num,
    by norm_num⟩

/-! ## `updatePheromone` in the arithmetic of the code -/

end ACO
